import Mathlib

/-!
# Alpine codec: a shallow embedding of the Go sources and its verification

Machine integers are mathematical integers with explicit reduction:
* `int64` / `int` values are `Int`s in `[-2^63, 2^63)`, arithmetic results pass through `wrap64`;
* `uint64` values are `Nat`s below `2^64`, arithmetic results are reduced `% 2^64`;
* bytes are `Nat`s below `256`; slices are `List`s.
Fallible functions return `Except Err _`, one constructor of `Err` per error message of the source
and one for the run-time panic of an allocation.
-/

namespace Alpine

/-! ## Machine integers -/

/-- Two's-complement reduction of an integer to the `int64` range. -/
def wrap64 (x : Int) : Int := (x + 9223372036854775808) % 18446744073709551616 - 9223372036854775808

/-- The conversion `uint64(x)` of a signed value: its residue modulo `2^64`. -/
def toUint64 (x : Int) : Nat := (x % 18446744073709551616).toNat

/-- The conversion `int64(n)` of an unsigned value. -/
def toInt64 (n : Nat) : Int := wrap64 (n : Int)

/-- Membership in the `int64` range. -/
def IsInt64 (x : Int) : Prop := -9223372036854775808 ≤ x ∧ x < 9223372036854775808

/-- Membership in the `uint64` range. -/
def IsUint64 (n : Nat) : Prop := n < 18446744073709551616

instance (x : Int) : Decidable (IsInt64 x) := by unfold IsInt64; infer_instance

instance (n : Nat) : Decidable (IsUint64 n) := by unfold IsUint64; infer_instance

/-- The ways in which a call ends without a result: the error values of the library, one per
`errors.New` / `fmt.Errorf` site kind, and `capOutOfRange`, which is not an error value but the
run-time panic of an allocation (the call does not return). -/
inductive Err
  | emptyInput        -- "input cannot be empty" / "data cannot be empty"
  | invalidParam      -- "m must be positive"
  | invalidCount      -- "valueCount must be positive"
  | unexpectedEnd     -- "unexpected end of data"
  | tooFewSamples     -- "input must have at least 2 elements"
  | exponentOutOfRange -- "exponent %d exceeds maximum %d"
  | headerTooShort    -- "data too short: need at least %d bytes, got %d"
  | riceNotPositive   -- "rice parameter must be positive"
  | countTooSmall     -- "value count must be at least 2"
  | modeMismatch      -- "expected ModeFloat, got %v" / "expected ModeInt, got %v"
  | modeUnsupported   -- "mode %v not supported for float64, use ModeFloat"
  | capOutOfRange     -- panic "runtime error: makeslice: cap out of range"
  deriving DecidableEq, Repr

instance instDecidableEqExcept {ε α : Type} [DecidableEq ε] [DecidableEq α] :
    DecidableEq (Except ε α)
  | .ok a, .ok b =>
      if h : a = b then isTrue (by rw [h]) else isFalse (fun h2 => h (by cases h2; rfl))
  | .error a, .error b =>
      if h : a = b then isTrue (by rw [h]) else isFalse (fun h2 => h (by cases h2; rfl))
  | .ok _, .error _ => isFalse (fun h => by cases h)
  | .error _, .ok _ => isFalse (fun h => by cases h)

/-! ## internal/interleave.go -/

/-- Body of the loop of `ZigZagEncode` for one element `n`. -/
def zigZagEncode1 (n : Int) : Nat :=
  if n ≥ 0 then
    (toUint64 n * 2) % 18446744073709551616
  else
    (toUint64 (wrap64 (-n)) * 2 + 18446744073709551616 - 1) % 18446744073709551616

/-- Body of the loop of `ZigZagDecode` for one element `n`:
`int64(n>>1) ^ -int64(n&1)`. -/
def zigZagDecode1 (n : Nat) : Int :=
  Int.xor (toInt64 (n >>> 1)) (wrap64 (-(toInt64 (n &&& 1))))

/-- `ZigZagEncode` of internal/interleave.go. -/
def ZigZagEncode (input : List Int) : Except Err (List Nat) :=
  if input.length = 0 then .error .emptyInput
  else .ok (input.map zigZagEncode1)

/-- `ZigZagDecode` of internal/interleave.go. -/
def ZigZagDecode (input : List Nat) : Except Err (List Int) :=
  if input.length = 0 then .error .emptyInput
  else .ok (input.map zigZagDecode1)

/-! ## internal/delta.go -/

/-- The loop of `DeltaEncode`: for every index `i ≥ 2`,
`predicted := input[i-1] + (input[i-1] - input[i-2])` and `deltas[i-2] = input[i] - predicted`. -/
def deltaLoop : List Int → List Int
  | a :: b :: c :: rest =>
      wrap64 (c - wrap64 (b + wrap64 (b - a))) :: deltaLoop (b :: c :: rest)
  | _ => []

/-- `DeltaEncode` of internal/delta.go: residuals, first and second value. -/
def DeltaEncode (input : List Int) : Except Err (List Int × Int × Int) :=
  match input with
  | a :: b :: _ => .ok (deltaLoop input, a, b)
  | _ => .error .tooFewSamples

/-- The loop of `DeltaDecode`, carrying `result[i-2]` and `result[i-1]`. -/
def undeltaLoop : List Int → Int → Int → List Int
  | [], _, _ => []
  | d :: ds, p2, p1 =>
      let x := wrap64 (d + wrap64 (p1 + wrap64 (p1 - p2)))
      x :: undeltaLoop ds p1 x

/-- `DeltaDecode` of internal/delta.go (its error result is always nil). -/
def DeltaDecode (deltas : List Int) (first second : Int) : Except Err (List Int) :=
  .ok (first :: second :: undeltaLoop deltas first second)

/-! ## internal/mode.go and internal/header.go -/

/-- `ModeFloat` of internal/mode.go (`iota` = 0). -/
def ModeFloat : Int := 0

/-- `ModeInt` of internal/mode.go (`iota` = 1). -/
def ModeInt : Int := 1

/-- The conversion `byte(x)` of an `int`: its low eight bits. -/
def toByte (x : Int) : Nat := (x % 256).toNat

/-- `ModeFromByte`: `Mode(b)`. -/
def ModeFromByte (b : Nat) : Int := (b : Int)

/-- `Mode.Byte`: `byte(m)`. -/
def Mode.Byte (m : Int) : Nat := toByte m

/-- `HeaderSize` of internal/header.go. -/
def HeaderSize : Nat := 24

/-- `Header` of internal/header.go; `Mode`, `RiceParam`, `ALPExp`, `ValueCount` are `int`s,
`First` and `Second` are `int64`s. -/
structure Header where
  Mode : Int
  RiceParam : Int
  ALPExp : Int
  First : Int
  Second : Int
  ValueCount : Int
  deriving DecidableEq, Repr

/-- `binary.BigEndian.PutUint64`: the eight bytes of `v`, most significant first. -/
def putUint64 (v : Nat) : List Nat :=
  [v / 72057594037927936 % 256, v / 281474976710656 % 256, v / 1099511627776 % 256,
   v / 4294967296 % 256, v / 16777216 % 256, v / 65536 % 256, v / 256 % 256, v % 256]

/-- `binary.BigEndian.PutUint32`: the four bytes of `v`, most significant first. -/
def putUint32 (v : Nat) : List Nat :=
  [v / 16777216 % 256, v / 65536 % 256, v / 256 % 256, v % 256]

/-- `binary.BigEndian.Uint64(data[off:off+8])`. The bytes occupy disjoint bit ranges, so the
bitwise or of the shifted bytes is their sum. -/
def getUint64 (data : List Nat) (off : Nat) : Nat :=
  data.getD off 0 * 72057594037927936 + data.getD (off + 1) 0 * 281474976710656 +
  data.getD (off + 2) 0 * 1099511627776 + data.getD (off + 3) 0 * 4294967296 +
  data.getD (off + 4) 0 * 16777216 + data.getD (off + 5) 0 * 65536 +
  data.getD (off + 6) 0 * 256 + data.getD (off + 7) 0

/-- `binary.BigEndian.Uint32(data[off:off+4])`. -/
def getUint32 (data : List Nat) (off : Nat) : Nat :=
  data.getD off 0 * 16777216 + data.getD (off + 1) 0 * 65536 +
  data.getD (off + 2) 0 * 256 + data.getD (off + 3) 0

/-- `Header.Marshal` of internal/header.go. -/
def Header.Marshal (h : Header) : List Nat :=
  [Mode.Byte h.Mode, toByte h.RiceParam, toByte h.ALPExp, 0] ++
  putUint64 (toUint64 h.First) ++ putUint64 (toUint64 h.Second) ++
  putUint32 ((h.ValueCount % 4294967296).toNat)

/-- `Unmarshal` of internal/header.go. -/
def Unmarshal (data : List Nat) : Except Err Header :=
  if data.length < HeaderSize then .error .headerTooShort
  else .ok {
    Mode := ModeFromByte (data.getD 0 0)
    RiceParam := (data.getD 1 0 : Int)
    ALPExp := (data.getD 2 0 : Int)
    First := toInt64 (getUint64 data 4)
    Second := toInt64 (getUint64 data 12)
    ValueCount := (getUint32 data 20 : Int) }

/-- `Header.Validate` of internal/header.go. -/
def Header.Validate (h : Header) : Except Err Unit :=
  if h.RiceParam ≤ 0 then .error .riceNotPositive
  else if h.ValueCount < 2 then .error .countTooSmall
  else .ok ()

/-! ## math/bits -/

/-- Auxiliary count for `Len64`, with the bits still to be inspected. -/
def lenAux : Nat → Nat → Nat
  | 0, _ => 0
  | fuel + 1, n => if n = 0 then 0 else 1 + lenAux fuel (n / 2)

/-- `bits.Len64(x)`: the number of bits needed to represent the `uint64` `x`. -/
def Len64 (x : Nat) : Nat := lenAux 64 x

/-! ## float64 arithmetic

IEEE-754 binary64 with round to nearest, ties to even. A finite value is
`(-1)^neg * m * 2^e`; the representation of a float64 has `m < 2^53`, `-1074 ≤ e ≤ 971` and
`2^52 ≤ m` unless `e = -1074`. Operations compute the exact result and round it once. A NaN
result is the single value `nan` (payloads are not tracked). -/

/-- A float64 datum. -/
inductive F64
  | nan
  | inf (neg : Bool)
  | fin (neg : Bool) (m : Nat) (e : Int)
  deriving DecidableEq, Repr

/-- The representations of float64 values among the terms of `F64`. -/
def IsFloat64 : F64 → Prop
  | .nan => True
  | .inf _ => True
  | .fin _ m e => m < 9007199254740992 ∧ -1074 ≤ e ∧ e ≤ 971 ∧ (4503599627370496 ≤ m ∨ e = -1074)

instance (x : F64) : Decidable (IsFloat64 x) := by
  cases x <;> unfold IsFloat64 <;> infer_instance

/-- One step of the binary search of `bitLen`: `k` when a bit of `n` is set at position `k` or
above, and 0 otherwise. -/
def bitLenStep (k n : Nat) : Nat := Nat.mul k (Nat.sub 1 (Nat.sub 1 (Nat.shiftRight n k)))

/-- Number of bits of `n` (for `n < 2^8192`, which covers every intermediate result), found by
binary search on the position of the highest bit: `s1, ..., s13` are the shifts that bring the
highest bit down to position 0. -/
def bitLen (n : Nat) : Nat :=
  let s1 := bitLenStep 4096 n
  let n1 := Nat.shiftRight n s1
  let s2 := bitLenStep 2048 n1
  let n2 := Nat.shiftRight n1 s2
  let s3 := bitLenStep 1024 n2
  let n3 := Nat.shiftRight n2 s3
  let s4 := bitLenStep 512 n3
  let n4 := Nat.shiftRight n3 s4
  let s5 := bitLenStep 256 n4
  let n5 := Nat.shiftRight n4 s5
  let s6 := bitLenStep 128 n5
  let n6 := Nat.shiftRight n5 s6
  let s7 := bitLenStep 64 n6
  let n7 := Nat.shiftRight n6 s7
  let s8 := bitLenStep 32 n7
  let n8 := Nat.shiftRight n7 s8
  let s9 := bitLenStep 16 n8
  let n9 := Nat.shiftRight n8 s9
  let s10 := bitLenStep 8 n9
  let n10 := Nat.shiftRight n9 s10
  let s11 := bitLenStep 4 n10
  let n11 := Nat.shiftRight n10 s11
  let s12 := bitLenStep 2 n11
  let n12 := Nat.shiftRight n11 s12
  let s13 := bitLenStep 1 n12
  let n13 := Nat.shiftRight n12 s13
  Nat.add (Nat.add (Nat.add (Nat.add (Nat.add (Nat.add (Nat.add (Nat.add (Nat.add (Nat.add
    (Nat.add (Nat.add (Nat.add s1 s2) s3) s4) s5) s6) s7) s8) s9) s10) s11) s12) s13)
    (Nat.sub 1 (Nat.sub 1 n13))

/-- Numerator of `(n / d) / 2^e` over the denominator `F64.scaleDen d e`. -/
def F64.scaleNum (n : Nat) (e : Int) : Nat := if e ≥ 0 then n else n * 2 ^ (-e).toNat

/-- Denominator of `(n / d) / 2^e` under the numerator `F64.scaleNum n e`. -/
def F64.scaleDen (d : Nat) (e : Int) : Nat := if e ≥ 0 then d * 2 ^ e.toNat else d

/-- The exponent of the float64 nearest to the positive rational `n / d` before rounding: the `e`
with `2^52 ≤ (n / d) / 2^e < 2^53`, but not less than `-1074`. The bit lengths give `e0` with
`2^52 ≤ (n / d) / 2^e0 < 2^54`. -/
def F64.exponentOf (n d : Nat) : Int :=
  let e0 : Int := (bitLen n : Int) - (bitLen d : Int) - 53
  let e1 : Int :=
    if F64.scaleNum n e0 / F64.scaleDen d e0 < 9007199254740992 then e0 else e0 + 1
  max e1 (-1074)

/-- The float64 nearest to the rational `n / d` with sign `neg` (`d > 0`), ties to even;
overflow gives an infinity and `n = 0` a signed zero. -/
def F64.roundNE (neg : Bool) (n d : Nat) : F64 :=
  if n = 0 then .fin neg 0 (-1074)
  else
    let e := F64.exponentOf n d
    let num := F64.scaleNum n e
    let den := F64.scaleDen d e
    let q := num / den
    let r := num % den
    let m := if 2 * r > den ∨ (2 * r = den ∧ q % 2 = 1) then q + 1 else q
    let m1 := if m = 9007199254740992 then 4503599627370496 else m
    let e2 := if m = 9007199254740992 then e + 1 else e
    if e2 > 971 then .inf neg else .fin neg m1 e2

/-- The float64 product `x * y`. -/
def F64.mul : F64 → F64 → F64
  | .nan, _ => .nan
  | _, .nan => .nan
  | .inf s, .inf t => .inf (xor s t)
  | .inf s, .fin t m _ => if m = 0 then .nan else .inf (xor s t)
  | .fin s m _, .inf t => if m = 0 then .nan else .inf (xor s t)
  | .fin s m1 e1, .fin t m2 e2 =>
    if e1 + e2 ≥ 0 then F64.roundNE (xor s t) (m1 * m2 * 2 ^ (e1 + e2).toNat) 1
    else F64.roundNE (xor s t) (m1 * m2) (2 ^ (-(e1 + e2)).toNat)

/-- The float64 quotient `x / y`. -/
def F64.div : F64 → F64 → F64
  | .nan, _ => .nan
  | _, .nan => .nan
  | .inf _, .inf _ => .nan
  | .inf s, .fin t _ _ => .inf (xor s t)
  | .fin s _ _, .inf t => .fin (xor s t) 0 (-1074)
  | .fin s m1 e1, .fin t m2 e2 =>
    if m2 = 0 then (if m1 = 0 then .nan else .inf (xor s t))
    else if e1 - e2 ≥ 0 then F64.roundNE (xor s t) (m1 * 2 ^ (e1 - e2).toNat) m2
    else F64.roundNE (xor s t) m1 (m2 * 2 ^ (-(e1 - e2)).toNat)

/-- The signed integer `(-1)^neg * m * 2^(e - e0)` for `e0 ≤ e`. -/
def F64.aligned (neg : Bool) (m : Nat) (e e0 : Int) : Int :=
  if neg then -((m * 2 ^ (e - e0).toNat : Nat) : Int) else ((m * 2 ^ (e - e0).toNat : Nat) : Int)

/-- The float64 difference `x - y`. -/
def F64.sub : F64 → F64 → F64
  | .nan, _ => .nan
  | _, .nan => .nan
  | .inf s, .inf t => if s = t then .nan else .inf s
  | .inf s, .fin _ _ _ => .inf s
  | .fin _ _ _, .inf t => .inf (!t)
  | .fin s m1 e1, .fin t m2 e2 =>
    let e := min e1 e2
    let d := F64.aligned s m1 e1 e - F64.aligned t m2 e2 e
    if d = 0 then .fin (s && !t) 0 (-1074)
    else if e ≥ 0 then F64.roundNE (decide (d < 0)) (d.natAbs * 2 ^ e.toNat) 1
    else F64.roundNE (decide (d < 0)) d.natAbs (2 ^ (-e).toNat)

/-- `math.Abs`. -/
def F64.abs : F64 → F64
  | .nan => .nan
  | .inf _ => .inf false
  | .fin _ m e => .fin false m e

/-- `math.Round`: nearest integer, halves away from zero; zeros, infinities and NaN are
returned unchanged. -/
def F64.round : F64 → F64
  | .nan => .nan
  | .inf s => .inf s
  | .fin s m e =>
    if e ≥ 0 then .fin s m e
    else
      let d := 2 ^ (-e).toNat
      F64.roundNE s (if 2 * (m % d) ≥ d then m / d + 1 else m / d) 1

/-- The comparison `x < y` of float64 values. -/
def F64.lt : F64 → F64 → Bool
  | .nan, _ => false
  | _, .nan => false
  | .inf s, .inf t => s && !t
  | .inf s, .fin _ _ _ => s
  | .fin _ _ _, .inf t => !t
  | .fin s m1 e1, .fin t m2 e2 =>
    decide (F64.aligned s m1 e1 (min e1 e2) < F64.aligned t m2 e2 (min e1 e2))

/-- The comparison `x == y` of float64 values (`+0 == -0`, and NaN differs from everything). -/
def F64.eq : F64 → F64 → Bool
  | .nan, _ => false
  | _, .nan => false
  | .inf s, .inf t => s == t
  | .inf _, .fin _ _ _ => false
  | .fin _ _ _, .inf _ => false
  | .fin s m1 e1, .fin t m2 e2 =>
    decide (F64.aligned s m1 e1 (min e1 e2) = F64.aligned t m2 e2 (min e1 e2))

/-- The conversion `float64(i)` of an `int64`. -/
def F64.ofInt64 (i : Int) : F64 := F64.roundNE (decide (i < 0)) i.natAbs 1

/-- The conversion `int64(x)`: truncation toward zero. The Go specification leaves the result
open when the value is not in the `int64` range (or is NaN); the amd64 result, `-2^63`, is used. -/
def F64.toInt64 : F64 → Int
  | .nan => -9223372036854775808
  | .inf _ => -9223372036854775808
  | .fin s m e =>
    let t : Nat := if e ≥ 0 then m * 2 ^ e.toNat else m / 2 ^ (-e).toNat
    let v : Int := if s then -(t : Int) else (t : Int)
    if -9223372036854775808 ≤ v ∧ v < 9223372036854775808 then v else -9223372036854775808

/-- The negation `-x`. -/
def F64.neg : F64 → F64
  | .nan => .nan
  | .inf s => .inf (!s)
  | .fin s m e => .fin (!s) m e

/-- The float64 sum `x + y`. -/
def F64.add (x y : F64) : F64 := F64.sub x (F64.neg y)

/-- `math.Ceil`: the least integer value not below `x`; zeros, infinities and NaN are returned
unchanged. -/
def F64.ceil : F64 → F64
  | .nan => .nan
  | .inf s => .inf s
  | .fin s m e =>
    if e ≥ 0 then .fin s m e
    else
      let d := 2 ^ (-e).toNat
      if s then F64.roundNE true (m / d) 1
      else F64.roundNE false (if m % d = 0 then m / d else m / d + 1) 1

/-- The float64 constant `1`. -/
def F64.one : F64 := .fin false 4503599627370496 (-52)

/-- The float64 constant `0.5`. -/
def F64.half : F64 := .fin false 4503599627370496 (-53)

/-- The float64 constant `2`. -/
def F64.two : F64 := .fin false 4503599627370496 (-51)

/-! ## math.Frexp, math.Log and math.Log2

The portable implementations of the Go library (math/frexp.go, math/log.go, math/log10.go),
evaluated operation by operation with one rounding each, as a build without fused multiply-add
does (amd64). -/

/-- `math.Frexp`: `f = frac * 2^exp` with `1/2 ≤ |frac| < 1`; zeros, infinities and NaN are
returned with the exponent 0. -/
def Frexp : F64 → F64 × Int
  | .nan => (.nan, 0)
  | .inf s => (.inf s, 0)
  | .fin s m e =>
    if m = 0 then (.fin s m e, 0)
    else (.fin s (m * 2 ^ (53 - bitLen m)) (-53), e + (bitLen m : Int))

/-- The constant `Ln2Hi = 6.93147180369123816490e-01` of `log`. -/
def Ln2Hi : F64 := .fin false 6243314766446592 (-53)

/-- The constant `Ln2Lo = 1.90821492927058770002e-10` of `log`. -/
def Ln2Lo : F64 := .fin false 7382048951581814 (-85)

/-- The constant `L1 = 6.666666666666735130e-01` of `log`. -/
def L1 : F64 := .fin false 6004799503160723 (-53)

/-- The constant `L2 = 3.999999999940941908e-01` of `log`. -/
def L2 : F64 := .fin false 7205759403686404 (-54)

/-- The constant `L3 = 2.857142874366239149e-01` of `log`. -/
def L3 : F64 := .fin false 5146971033736025 (-54)

/-- The constant `L4 = 2.222219843214978396e-01` of `log`. -/
def L4 : F64 := .fin false 8006390766270639 (-55)

/-- The constant `L5 = 1.818357216161805012e-01` of `log`. -/
def L5 : F64 := .fin false 6551322304906206 (-55)

/-- The constant `L6 = 1.531383769920937332e-01` of `log`. -/
def L6 : F64 := .fin false 5517391500461727 (-55)

/-- The constant `L7 = 1.479819860511658591e-01` of `log`. -/
def L7 : F64 := .fin false 5331612937900612 (-55)

/-- The constant `Sqrt2 / 2` as a float64. -/
def halfSqrt2 : F64 := .fin false 6369051672525773 (-53)

/-- The constant `1 / Ln2` as a float64. -/
def invLn2 : F64 := .fin false 6497320848556798 (-52)

/-- The computation of `log` on a positive finite argument: the reduction
`x = 2^k * (1 + f)` with `Sqrt2/2 ≤ 1 + f < Sqrt2` and the polynomial evaluation. -/
def logReduced (x : F64) : F64 :=
  let fr := Frexp x
  let f1 := if F64.lt fr.1 halfSqrt2 then F64.mul fr.1 F64.two else fr.1
  let ki := if F64.lt fr.1 halfSqrt2 then wrap64 (fr.2 - 1) else fr.2
  let f := F64.sub f1 F64.one
  let k := F64.ofInt64 ki
  let s := F64.div f (F64.add F64.two f)
  let s2 := F64.mul s s
  let s4 := F64.mul s2 s2
  let t1 := F64.mul s2 (F64.add L1 (F64.mul s4 (F64.add L3 (F64.mul s4
    (F64.add L5 (F64.mul s4 L7))))))
  let t2 := F64.mul s4 (F64.add L2 (F64.mul s4 (F64.add L4 (F64.mul s4 L6))))
  let R := F64.add t1 t2
  let hfsq := F64.mul (F64.mul F64.half f) f
  F64.sub (F64.mul k Ln2Hi)
    (F64.sub (F64.sub hfsq (F64.add (F64.mul s (F64.add hfsq R)) (F64.mul k Ln2Lo))) f)

/-- `math.Log`: NaN and `+Inf` are returned unchanged, a negative argument gives NaN and a zero
gives `-Inf`. -/
def Log : F64 → F64
  | .nan => .nan
  | .inf false => .inf false
  | .inf true => .nan
  | .fin s m e =>
    if m = 0 then .inf true
    else if s then .nan
    else logReduced (.fin s m e)

/-- `math.Log2`: exact on the powers of two, `Log(frac) * (1/Ln2) + float64(exp)` elsewhere. -/
def Log2 (x : F64) : F64 :=
  let fr := Frexp x
  if F64.eq fr.1 F64.half then F64.ofInt64 (wrap64 (fr.2 - 1))
  else F64.add (F64.mul (Log fr.1) invLn2) (F64.ofInt64 fr.2)

/-! ## internal/golomb.go -/

/-- `PackedData` of internal/golomb.go. -/
structure PackedData where
  Data : List Nat
  BitCount : Int
  ValueCount : Int
  deriving DecidableEq, Repr

/-- The variables captured by the closure `addBit` of `GolombRiceEncode`. -/
structure BitWriter where
  output : List Nat
  currentByte : Nat
  bitPos : Nat
  totalBits : Int
  deriving DecidableEq, Repr

/-- The closure `addBit` of `GolombRiceEncode`. -/
def addBit (w : BitWriter) (bit : Nat) : BitWriter :=
  let cur := w.currentByte ||| (((bit &&& 1) <<< (7 - w.bitPos)) % 256)
  let pos := w.bitPos + 1
  let tot := wrap64 (w.totalBits + 1)
  if pos = 8 then
    { output := w.output ++ [cur], currentByte := 0, bitPos := 0, totalBits := tot }
  else
    { output := w.output, currentByte := cur, bitPos := pos, totalBits := tot }

/-- The test `m > 0 && (m&(m-1)) == 0`. -/
def isPow2 (m : Int) : Bool :=
  decide (m > 0) && (m.toNat &&& (m - 1).toNat == 0)

/-- Auxiliary count for `TrailingZeros`, with the bits still to be inspected. -/
def trailingZerosAux : Nat → Nat → Nat
  | 0, _ => 0
  | fuel + 1, n => if n % 2 = 1 then 0 else 1 + trailingZerosAux fuel (n / 2)

/-- `bits.TrailingZeros(uint(m))` on a 64-bit platform. -/
def TrailingZeros (m : Int) : Nat :=
  if toUint64 m = 0 then 64 else trailingZerosAux 64 (toUint64 m)

/-- The expression `int(math.Ceil(math.Log2(float64(m))))` of golomb.go. It bounds loops that
count from 0 upwards or down to 0, so a negative value stands for no iteration. -/
def bitsNeeded (m : Int) : Nat := (F64.toInt64 (F64.ceil (Log2 (F64.ofInt64 m)))).toNat

/-- The loop `for range q { addBit(0) }`. -/
def emitZeros : Nat → BitWriter → BitWriter
  | 0, w => w
  | q + 1, w => emitZeros q (addBit w 0)

/-- The loop `for j := bitsNeeded - 1; j >= 0; j--` over the bits of the remainder `r`;
the first argument is `j + 1`. -/
def emitRemainder (r : Nat) : Nat → BitWriter → BitWriter
  | 0, w => w
  | j + 1, w => emitRemainder r j (addBit w (if (r >>> j) &&& 1 = 1 then 1 else 0))

/-- The quotient `q` computed in the loop of `GolombRiceEncode` for the value `x`. -/
def riceQuot (m : Int) (x : Nat) : Nat :=
  if isPow2 m then x >>> TrailingZeros m else x / toUint64 m

/-- The remainder `r` computed in the loop of `GolombRiceEncode` for the value `x`. -/
def riceRem (m : Int) (x : Nat) : Nat :=
  if isPow2 m then x &&& toUint64 (m - 1) else x % toUint64 m

/-- One iteration of the loop `for i := range input` of `GolombRiceEncode`, on `x = input[i]`. -/
def encodeValue (m : Int) (w : BitWriter) (x : Nat) : BitWriter :=
  emitRemainder (riceRem m x) (bitsNeeded m) (addBit (emitZeros (riceQuot m x) w) 1)

/-- The final flush of `GolombRiceEncode`. -/
def flush (w : BitWriter) : List Nat :=
  if w.bitPos > 0 then
    w.output ++ [w.currentByte &&& ((255 <<< (8 - w.bitPos)) % 256)]
  else w.output

/-- The initial values `output := make([]byte, 0)`, `currentByte = 0`, `bitPos = 0`,
`totalBits := 0` of `GolombRiceEncode`. -/
def BitWriter.init : BitWriter :=
  { output := [], currentByte := 0, bitPos := 0, totalBits := 0 }

/-- `GolombRiceEncode` of internal/golomb.go. -/
def GolombRiceEncode (input : List Nat) (m : Int) : Except Err PackedData :=
  if input.length = 0 then .error .emptyInput
  else if m ≤ 0 then .error .invalidParam
  else
    let w := input.foldl (encodeValue m) BitWriter.init
    .ok { Data := flush w, BitCount := w.totalBits, ValueCount := (input.length : Int) }

/-- The variables captured by the closure `readBit` of `GolombRiceDecode`. -/
structure BitReader where
  byteIdx : Nat
  bitIdx : Nat
  deriving DecidableEq, Repr

/-- The closure `readBit` of `GolombRiceDecode`. -/
def readBit (data : List Nat) (rd : BitReader) : Except Err (Nat × BitReader) :=
  if rd.byteIdx ≥ data.length then .error .unexpectedEnd
  else
    let bit := (data.getD rd.byteIdx 0 >>> (7 - rd.bitIdx)) &&& 1
    if rd.bitIdx + 1 = 8 then .ok (bit, { byteIdx := rd.byteIdx + 1, bitIdx := 0 })
    else .ok (bit, { byteIdx := rd.byteIdx, bitIdx := rd.bitIdx + 1 })

/-- The loop reading the unary quotient. Every iteration consumes a bit of `data` or fails, so
the loop runs at most `8 * len(data) + 1` times; the first argument bounds the iterations left. -/
def readQuotient (data : List Nat) : Nat → BitReader → Nat → Except Err (Nat × BitReader)
  | 0, _, _ => .error .unexpectedEnd
  | fuel + 1, rd, q =>
    match readBit data rd with
    | .error e => .error e
    | .ok (bit, rd1) =>
      if bit = 1 then .ok (q, rd1)
      else readQuotient data fuel rd1 ((q + 1) % 18446744073709551616)

/-- The loop `for j := 0; j < bitsNeeded; j++` reading the remainder; the first argument is the
number of iterations left. -/
def readRemainder (data : List Nat) : Nat → BitReader → Nat → Except Err (Nat × BitReader)
  | 0, rd, r => .ok (r, rd)
  | n + 1, rd, r =>
    match readBit data rd with
    | .error e => .error e
    | .ok (bit, rd1) => readRemainder data n rd1 (((r <<< 1) % 18446744073709551616) ||| bit)

/-- The loop `for range valueCount` of `GolombRiceDecode`; the first argument is the number of
iterations left, `acc` is `result`. -/
def decodeLoop (data : List Nat) (m : Int) :
    Nat → BitReader → List Nat → Except Err (List Nat)
  | 0, _, acc => .ok acc
  | n + 1, rd, acc =>
    match readQuotient data (8 * data.length + 1) rd 0 with
    | .error e => .error e
    | .ok (q, rd1) =>
      match readRemainder data (bitsNeeded m) rd1 0 with
      | .error e => .error e
      | .ok (r, rd2) =>
        let value :=
          if isPow2 m then ((q <<< TrailingZeros m) % 18446744073709551616) ||| r
          else (q * toUint64 m + r) % 18446744073709551616
        decodeLoop data m n rd2 (acc ++ [value])

/-- The constant `maxAlloc` of the run-time system on a 64-bit platform with 48 address bits
(amd64, arm64): the largest size in bytes of one allocation. -/
def maxAlloc : Int := 281474976710656

/-- `GolombRiceDecode` of internal/golomb.go; `bitCount` is not read by the source. The
statement `result := make([]uint64, 0, valueCount)` panics when the capacity takes more than
`maxAlloc` bytes, 8 bytes per element; an allocation within this limit is taken to succeed. -/
def GolombRiceDecode (data : List Nat) (_bitCount : Int) (valueCount : Int) (m : Int) :
    Except Err (List Nat) :=
  if data.length = 0 then .error .emptyInput
  else if m ≤ 0 then .error .invalidParam
  else if valueCount ≤ 0 then .error .invalidCount
  else if 8 * valueCount > maxAlloc then .error .capOutOfRange
  else decodeLoop data m valueCount.toNat { byteIdx := 0, bitIdx := 0 } []

/-! ## internal/autorice.go -/

/-- The inner loop of the insertion sort of `findMedian`, on the sorted prefix read from its
last element: the elements greater than `key` move one place to the right. -/
def insertKey (key : Nat) : List Nat → List Nat
  | [] => [key]
  | x :: xs => if x > key then x :: insertKey key xs else key :: x :: xs

/-- The insertion sort of `findMedian`. -/
def insertionSort (values : List Nat) : List Nat :=
  (values.foldl (fun rev key => insertKey key rev) []).reverse

/-- `findMedian` of internal/autorice.go. -/
def findMedian (values : List Nat) : Nat :=
  if values.length = 0 then 0
  else
    let sorted := insertionSort values
    let mid := sorted.length / 2
    if sorted.length % 2 = 0 then
      ((sorted.getD (mid - 1) 0 + sorted.getD mid 0) % 18446744073709551616) / 2
    else sorted.getD mid 0

/-- `roundToPowerOf2` of internal/autorice.go; the result is an `int`. -/
def roundToPowerOf2 (x : Nat) : Int :=
  if x ≤ 1 then 1
  else
    let highestBit := Len64 x - 1
    let lower := (1 <<< highestBit) % 18446744073709551616
    let upper := (1 <<< (highestBit + 1)) % 18446744073709551616
    if (x + 18446744073709551616 - lower) % 18446744073709551616 <
        (upper + 18446744073709551616 - x) % 18446744073709551616 then
      toInt64 lower
    else toInt64 upper

/-- The absolute value computed in the first loop of `AutoRiceParam`. -/
def absValue (d : Int) : Nat :=
  if d < 0 then toUint64 (wrap64 (-d)) else toUint64 d

/-- `AutoRiceParam` of internal/autorice.go. -/
def AutoRiceParam (deltas : List Int) : Int :=
  if deltas.length = 0 then 4
  else min (max (roundToPowerOf2 (findMedian (deltas.map absValue))) 1) 64

/-! ## internal/alp.go -/

/-- The float64 constant `10`. -/
def F64.ten : F64 := .fin false 5629499534213120 (-49)

/-- `pow10Table[i]` as filled by `init`: `pow10Table[0] = 1`,
`pow10Table[i] = pow10Table[i-1] * 10`. -/
def pow10Table : Nat → F64
  | 0 => F64.one
  | i + 1 => F64.mul (pow10Table i) F64.ten

/-- `float64(math.MaxInt64)`, the constant `maxInt64` of `detectPrecision`: `2^63`. -/
def maxInt64 : F64 := .fin false 4503599627370496 11

/-- `-maxInt64`. -/
def negMaxInt64 : F64 := .fin true 4503599627370496 11

/-- The body of the inner loop of `detectPrecision`: `true` when `val` passes the three checks
for the multiplier `pow10Table[p]`. -/
def matchesAt (p : Nat) (val : F64) : Bool :=
  let scaled := F64.mul val (pow10Table p)
  if F64.lt maxInt64 scaled || F64.lt scaled negMaxInt64 then false
  else
    let rounded := F64.round scaled
    if F64.lt F64.half (F64.abs (F64.sub scaled rounded)) ||
        F64.eq (F64.abs (F64.sub scaled rounded)) F64.half then false
    else
      let restored := F64.div rounded (pow10Table p)
      if !(F64.eq restored val) then false else true

/-- The outer loop `for p := 1; p <= maxExp; p++` of `detectPrecision`, from `p` on, with
`17 + 1 - p` iterations left. -/
def detectFrom (data : List F64) : Nat → Nat → Int
  | 0, _ => 0
  | left + 1, p => if data.all (matchesAt p) then (p : Int) else detectFrom data left (p + 1)

/-- `detectPrecision` of internal/alp.go. -/
def detectPrecision (data : List F64) : Int := detectFrom data 17 1

/-- `ALPEncode` of internal/alp.go. -/
def ALPEncode (input : List F64) (exponent : Int) : Except Err (List Int × Int) :=
  if input.length = 0 then .error .emptyInput
  else
    let exponent := if exponent < 0 then detectPrecision input else exponent
    if exponent ≥ 18 then .error .exponentOutOfRange
    else
      .ok (input.map (fun val => F64.toInt64 (F64.round (F64.mul val (pow10Table exponent.toNat)))),
        exponent)

/-- `ALPDecode` of internal/alp.go. -/
def ALPDecode (input : List Int) (exponent : Int) : List F64 :=
  if exponent < 0 ∨ exponent ≥ 18 then []
  else input.map (fun val => F64.div (F64.ofInt64 val) (pow10Table exponent.toNat))

/-- Test used on the entries of `pow10Table`: a positive float64 with a full 53-bit mantissa and
an exponent between -52 and 4, that is a value in `[1, 2^57)`. -/
def F64.isPow10Like : F64 → Bool
  | .fin false m e =>
    decide (4503599627370496 ≤ m ∧ m < 9007199254740992 ∧ -52 ≤ e ∧ e ≤ 4)
  | _ => false

/-- Test for the two zeros. -/
def F64.isZero : F64 → Bool
  | .fin _ m _ => decide (m = 0)
  | _ => false

/-! ## alpine.go -/

/-- `Options` of alpine.go. -/
structure Options where
  Mode : Int
  RiceParam : Int
  ALPExponent : Int
  deriving DecidableEq, Repr

/-- The statements shared verbatim by `Encode`, `FloatEncoder.Encode` and `IntEncoder.Encode`
once the Rice parameter is chosen: ZigZag and Golomb-Rice coding of the residuals (both skipped
when there are none), the header, and the concatenation of header and payload. -/
def encodeTail (mode riceParam alpExp first second valueCount : Int) (deltas : List Int) :
    Except Err (List Nat) :=
  match (if deltas.length > 0 then ZigZagEncode deltas else .ok []) with
  | .error e => .error e
  | .ok zigzagged =>
    match (if zigzagged.length > 0 then GolombRiceEncode zigzagged riceParam
      else .ok ⟨[], 0, 0⟩) with
    | .error e => .error e
    | .ok packed =>
      .ok (Header.Marshal ⟨mode, riceParam, alpExp, first, second, valueCount⟩ ++ packed.Data)

/-- The statements shared verbatim by the three encoders from the predictive delta on: the
residuals of `scaled`, the Rice parameter `rice deltas` (a function of the residuals in the float
encoders, a value fixed beforehand in the integer encoder), and `encodeTail`. -/
def encodeScaled (mode alpExp : Int) (scaled : List Int) (valueCount : Int)
    (rice : List Int → Int) : Except Err (List Nat) :=
  match DeltaEncode scaled with
  | .error err => .error err
  | .ok (deltas, first, second) =>
    encodeTail mode (rice deltas) alpExp first second valueCount deltas

/-- `FloatEncoder` of alpine.go. -/
structure FloatEncoder where
  data : List F64
  riceParam : Int
  precision : Int
  autoRiceParam : Bool
  autoPrecision : Bool

/-- `NewFloatEncoder`. -/
def NewFloatEncoder (data : List F64) : FloatEncoder :=
  { data := data, riceParam := 0, precision := 0, autoRiceParam := false, autoPrecision := false }

/-- `FloatEncoder.WithRiceParam`. -/
def FloatEncoder.WithRiceParam (e : FloatEncoder) (param : Int) : FloatEncoder :=
  { e with riceParam := param, autoRiceParam := false }

/-- `FloatEncoder.WithPrecision`. -/
def FloatEncoder.WithPrecision (e : FloatEncoder) (precision : Int) : FloatEncoder :=
  { e with precision := precision, autoPrecision := false }

/-- `FloatEncoder.WithAutoRiceParam`. -/
def FloatEncoder.WithAutoRiceParam (e : FloatEncoder) : FloatEncoder :=
  { e with autoRiceParam := true }

/-- `FloatEncoder.WithAutoPrecision`. -/
def FloatEncoder.WithAutoPrecision (e : FloatEncoder) : FloatEncoder :=
  { e with autoPrecision := true }

/-- `FloatEncoder.Encode` of alpine.go. -/
def FloatEncoder.Encode (e : FloatEncoder) : Except Err (List Nat) :=
  if e.data.length < 2 then .error .tooFewSamples
  else
    let exponent : Int := if e.autoPrecision then -1 else if e.precision = 0 then -1 else e.precision
    match ALPEncode e.data exponent with
    | .error err => .error err
    | .ok (scaled, exp) =>
      encodeScaled ModeFloat exp scaled (e.data.length : Int) (fun deltas =>
        if e.riceParam ≤ 0 ∨ e.autoRiceParam = true then AutoRiceParam deltas else e.riceParam)

/-- `IntEncoder` of alpine.go. -/
structure IntEncoder where
  data : List Int
  riceParam : Int
  autoRiceParam : Bool

/-- `NewIntEncoder`. -/
def NewIntEncoder (data : List Int) : IntEncoder :=
  { data := data, riceParam := 0, autoRiceParam := false }

/-- `IntEncoder.WithRiceParam`. -/
def IntEncoder.WithRiceParam (e : IntEncoder) (param : Int) : IntEncoder :=
  { e with riceParam := param, autoRiceParam := false }

/-- `IntEncoder.WithAutoRiceParam`. -/
def IntEncoder.WithAutoRiceParam (e : IntEncoder) : IntEncoder :=
  { e with autoRiceParam := true }

/-- `IntEncoder.Encode` of alpine.go. -/
def IntEncoder.Encode (e : IntEncoder) : Except Err (List Nat) :=
  if e.data.length < 2 then .error .tooFewSamples
  else
    let riceParam :=
      if e.riceParam ≤ 0 ∨ e.autoRiceParam = true then AutoRiceParam e.data else e.riceParam
    encodeScaled ModeInt 0 e.data (e.data.length : Int) (fun _ => riceParam)

/-- The statements shared verbatim by `Decode`, `Decoder.DecodeFloat` and `Decoder.DecodeInt`
up to the predictive-delta decoding, for the mode `mode` the decoder expects; the header is
returned with the decoded integers. -/
def decodeScaled (mode : Int) (encoded : List Nat) : Except Err (Header × List Int) :=
  if encoded.length < HeaderSize then .error .headerTooShort
  else
    match Unmarshal encoded with
    | .error e => .error e
    | .ok header =>
      match header.Validate with
      | .error e => .error e
      | .ok _ =>
        if header.Mode ≠ mode then .error .modeMismatch
        else
          match (if header.ValueCount - 2 > 0 then
              GolombRiceDecode (encoded.drop HeaderSize) 0 (header.ValueCount - 2) header.RiceParam
            else .ok []) with
          | .error e => .error e
          | .ok zigzagged =>
            match (if zigzagged.length > 0 then ZigZagDecode zigzagged else .ok []) with
            | .error e => .error e
            | .ok deltas =>
              match DeltaDecode deltas header.First header.Second with
              | .error e => .error e
              | .ok scaled => .ok (header, scaled)

/-- `Decoder` of alpine.go. -/
structure Decoder where
  encoded : List Nat

/-- `NewDecoder`. -/
def NewDecoder (encoded : List Nat) : Decoder := { encoded := encoded }

/-- `Decoder.DecodeFloat` of alpine.go. -/
def Decoder.DecodeFloat (d : Decoder) : Except Err (List F64) :=
  match decodeScaled ModeFloat d.encoded with
  | .error e => .error e
  | .ok (header, scaled) => .ok (ALPDecode scaled header.ALPExp)

/-- `Decoder.DecodeInt` of alpine.go. -/
def Decoder.DecodeInt (d : Decoder) : Except Err (List Int) :=
  match decodeScaled ModeInt d.encoded with
  | .error e => .error e
  | .ok (_, result) => .ok result

/-- `Encode` of alpine.go. -/
def Encode (input : List F64) (opts : Options) : Except Err (List Nat) :=
  if input.length < 2 then .error .tooFewSamples
  else
    let mode : Int := if opts.Mode = 0 then ModeFloat else opts.Mode
    let alpExponent : Int := if opts.ALPExponent = 0 then -1 else opts.ALPExponent
    if mode ≠ ModeFloat then .error .modeUnsupported
    else
      match ALPEncode input alpExponent with
      | .error err => .error err
      | .ok (scaled, exponent) =>
        encodeScaled mode exponent scaled (input.length : Int) (fun deltas =>
          if opts.RiceParam ≤ 0 then AutoRiceParam deltas else opts.RiceParam)

/-- `Decode` of alpine.go. -/
def Decode (encoded : List Nat) : Except Err (List F64) :=
  match decodeScaled ModeFloat encoded with
  | .error e => .error e
  | .ok (header, scaled) => .ok (ALPDecode scaled header.ALPExp)

/-! ## Bit-level reading of byte strings (specification side) -/

/-- The eight bits of a byte, most significant first. -/
def byteBits (b : Nat) : List Nat :=
  [b / 128 % 2, b / 64 % 2, b / 32 % 2, b / 16 % 2, b / 8 % 2, b / 4 % 2, b / 2 % 2, b % 2]

/-- The bits of a byte string, most significant bit of each byte first. -/
def bitsOf : List Nat → List Nat
  | [] => []
  | b :: bs => byteBits b ++ bitsOf bs

/-- The bits a `BitWriter` has received so far. -/
def BitWriter.bits (w : BitWriter) : List Nat :=
  bitsOf w.output ++ (byteBits w.currentByte).take w.bitPos

/-- Well-formedness of a `BitWriter`: the unwritten low bits of the current byte are zero. -/
def BitWriter.WF (w : BitWriter) : Prop :=
  w.bitPos < 8 ∧ w.currentByte < 256 ∧ w.currentByte % 2 ^ (8 - w.bitPos) = 0

/-- The byte `addBit` computes from the current byte `c`, the position `p` and the bit `b`. -/
def addBitByte (c p b : Nat) : Nat := c ||| (((b &&& 1) <<< (7 - p)) % 256)

/-- The bit at position `pos` of a byte string. -/
def getBit (data : List Nat) (pos : Nat) : Nat :=
  data.getD (pos / 8) 0 / 2 ^ (7 - pos % 8) % 2

/-- The bit position of a `BitReader`. -/
def BitReader.pos (rd : BitReader) : Nat := 8 * rd.byteIdx + rd.bitIdx

/-- The `n` low bits of `r`, most significant first. -/
def remBits (r : Nat) : Nat → List Nat
  | 0 => []
  | j + 1 => (r / 2 ^ j % 2) :: remBits r j

/-- The Rice codeword of `x`: unary quotient, a one, and the remainder on `bitsNeeded m` bits. -/
def codeword (m : Int) (x : Nat) : List Nat :=
  List.replicate (riceQuot m x) 0 ++ 1 :: remBits (riceRem m x) (bitsNeeded m)

/-- The concatenated codewords of a sequence. -/
def codewords (m : Int) : List Nat → List Nat
  | [] => []
  | x :: xs => codeword m x ++ codewords m xs

/-- The Rice parameters on which the codec is lossless: `m` is a positive `int`, a remainder
modulo `m` fits in `bitsNeeded m` bits, and the shift-and-mask branch divides by `m`. -/
def RiceOK (m : Int) : Prop :=
  1 ≤ m ∧ m < 9223372036854775808 ∧ toUint64 m ≤ 2 ^ bitsNeeded m ∧
  (isPow2 m = true → toUint64 m = 2 ^ TrailingZeros m)

/-! ## Reference formulations (specification side) -/

/-- The exact value of `ceil(log2(n))` for `n ≥ 1`: the least `k` with `n ≤ 2^k`. -/
def ceilLog2 (n : Nat) : Nat :=
  if 2 ^ (Len64 n - 1) = n then Len64 n - 1 else Len64 n

/-- The bit-trick form of the ZigZag code: `u = (n << 1) XOR (n >> 63)` on the 64 bits of `n`,
with a wrapping left shift and an arithmetic right shift. -/
def zigZagBitTrick (n : Int) : Nat :=
  ((toUint64 n <<< 1) % 18446744073709551616) ^^^ toUint64 (n >>> (63 : Nat))

/-- One iteration of the loop of `GolombRiceEncode` when the division/modulo branch
`q = x / uint64(m)`, `r = x % uint64(m)` is taken whatever `m` is. -/
def encodeValueGeneral (m : Int) (w : BitWriter) (x : Nat) : BitWriter :=
  emitRemainder (x % toUint64 m) (bitsNeeded m) (addBit (emitZeros (x / toUint64 m) w) 1)

/-- The general path of `GolombRiceEncode`: the same function with the power-of-two branch
removed. -/
def GolombRiceEncodeGeneral (input : List Nat) (m : Int) : Except Err PackedData :=
  if input.length = 0 then .error .emptyInput
  else if m ≤ 0 then .error .invalidParam
  else
    let w := input.foldl (encodeValueGeneral m) BitWriter.init
    .ok { Data := flush w, BitCount := w.totalBits, ValueCount := (input.length : Int) }

/-- The first check of the auto-detection as the specification states it, `|x| ≤ 2^63 - 1` (the
bound of `int64`), for a float64 `x`; NaN and the infinities fail it. -/
def F64.withinInt64 : F64 → Bool
  | .fin _ m e =>
    if e ≥ 0 then decide (m * 2 ^ e.toNat ≤ 9223372036854775807)
    else decide (m ≤ 9223372036854775807 * 2 ^ (-e).toNat)
  | _ => false

/-- The three checks of the auto-detection for the exponent `p` and the value `val` as the
specification states them: `|val * 10^p|` within the `int64` bound,
`|val * 10^p - round(val * 10^p)| < 0.5`, and `round(val * 10^p) / 10^p == val`. -/
def qualifiesAt (p : Nat) (val : F64) : Bool :=
  let scaled := F64.mul val (pow10Table p)
  F64.withinInt64 scaled &&
    F64.lt (F64.abs (F64.sub scaled (F64.round scaled))) F64.half &&
    F64.eq (F64.div (F64.round scaled) (pow10Table p)) val

/-! # Theorems -/

/-! ## Machine-integer facts -/

theorem wrap64_of_isInt64 {x : Int} (h : IsInt64 x) : wrap64 x = x := by
  unfold IsInt64 at h; unfold wrap64; omega

theorem wrap64_isInt64 (x : Int) : IsInt64 (wrap64 x) := by
  unfold IsInt64 wrap64; omega

theorem toInt64_of_lt {n : Nat} (h : n < 9223372036854775808) : toInt64 n = (n : Int) := by
  unfold toInt64 wrap64; omega

theorem int_xor_zero (a : Nat) : Int.xor (a : Int) 0 = (a : Int) := by
  show Int.xor (Int.ofNat a) (Int.ofNat 0) = _
  simp [Int.xor]

theorem int_xor_neg_one (a : Nat) : Int.xor (a : Int) (-1) = -(a : Int) - 1 := by
  show Int.xor (Int.ofNat a) (Int.negSucc 0) = _
  simp only [Int.xor, Nat.xor_zero]
  rw [Int.negSucc_eq]; simp; omega

/-! ## ZigZag -/

theorem zigZagEncode1_val {n : Int} (h : IsInt64 n) :
    (zigZagEncode1 n : Int) = if n ≥ 0 then 2 * n else -2 * n - 1 := by
  unfold IsInt64 at h
  unfold zigZagEncode1 toUint64 wrap64
  split <;> omega

theorem zigZagEncode1_lt (n : Int) : zigZagEncode1 n < 18446744073709551616 := by
  unfold zigZagEncode1
  split <;> omega

theorem zigZagDecode1_val {u : Nat} (h : IsUint64 u) :
    zigZagDecode1 u = if u % 2 = 0 then (u / 2 : Int) else -(u / 2 : Int) - 1 := by
  unfold IsUint64 at h
  unfold zigZagDecode1
  have h1 : u >>> 1 = u / 2 := by simp [Nat.shiftRight_eq_div_pow]
  have h2 : u &&& 1 = u % 2 := Nat.and_one_is_mod u
  rw [h1, h2, toInt64_of_lt (by omega : u / 2 < 9223372036854775808),
    toInt64_of_lt (by omega : u % 2 < 9223372036854775808)]
  split
  · rename_i h0
    rw [h0]
    have : wrap64 (-((0 : Nat) : Int)) = 0 := by decide
    rw [this]
    exact_mod_cast int_xor_zero (u / 2)
  · have h3 : u % 2 = 1 := by omega
    rw [h3]
    have : wrap64 (-((1 : Nat) : Int)) = -1 := by decide
    rw [this]
    exact_mod_cast int_xor_neg_one (u / 2)

theorem zigZag_decode_encode1 {n : Int} (h : IsInt64 n) :
    zigZagDecode1 (zigZagEncode1 n) = n := by
  have hv := zigZagEncode1_val h
  rw [zigZagDecode1_val (zigZagEncode1_lt n)]
  unfold IsInt64 at h
  split at hv <;> split <;> omega

theorem zigZagDecode1_isInt64 {u : Nat} (h : IsUint64 u) : IsInt64 (zigZagDecode1 u) := by
  rw [zigZagDecode1_val h]
  unfold IsUint64 at h
  unfold IsInt64
  split <;> omega

theorem zigZag_encode_decode1 {u : Nat} (h : IsUint64 u) :
    zigZagEncode1 (zigZagDecode1 u) = u := by
  have hr := zigZagDecode1_isInt64 h
  have hv := zigZagEncode1_val hr
  have hd := zigZagDecode1_val h
  generalize zigZagDecode1 u = d at hr hv hd
  unfold IsUint64 at h
  split at hv <;> split at hd <;> omega

theorem map_zigZag_decode_encode {x : List Int} (hx : ∀ n ∈ x, IsInt64 n) :
    (x.map zigZagEncode1).map zigZagDecode1 = x := by
  induction x with
  | nil => rfl
  | cons a t ih =>
    simp only [List.map_cons]
    rw [zigZag_decode_encode1 (hx a (List.mem_cons_self _ _)),
      ih (fun n hn => hx n (List.mem_cons_of_mem _ hn))]

theorem map_zigZag_encode_decode {u : List Nat} (hu : ∀ n ∈ u, IsUint64 n) :
    (u.map zigZagDecode1).map zigZagEncode1 = u := by
  induction u with
  | nil => rfl
  | cons a t ih =>
    simp only [List.map_cons]
    rw [zigZag_encode_decode1 (hu a (List.mem_cons_self _ _)),
      ih (fun n hn => hu n (List.mem_cons_of_mem _ hn))]

/-- C4. ZigZag is a bijection between `int64` and `uint64`: on every non-empty `int64` array
(`INT64_MIN` and `INT64_MAX` included) `ZigZagDecode` undoes `ZigZagEncode`, and on every
non-empty `uint64` array `ZigZagEncode` undoes `ZigZagDecode`. -/
theorem zigZag_bijection :
    (∀ x : List Int, x ≠ [] → (∀ n ∈ x, IsInt64 n) →
      ∃ u, ZigZagEncode x = .ok u ∧ (∀ k ∈ u, IsUint64 k) ∧ ZigZagDecode u = .ok x) ∧
    (∀ u : List Nat, u ≠ [] → (∀ k ∈ u, IsUint64 k) →
      ∃ x, ZigZagDecode u = .ok x ∧ (∀ n ∈ x, IsInt64 n) ∧ ZigZagEncode x = .ok u) := by
  constructor
  · intro x hne hx
    refine ⟨x.map zigZagEncode1, ?_, ?_, ?_⟩
    · simp [ZigZagEncode, hne]
    · intro k hk
      obtain ⟨n, -, rfl⟩ := List.mem_map.mp hk
      exact zigZagEncode1_lt n
    · simp only [ZigZagDecode, List.length_map, List.length_eq_zero, hne, if_false]
      rw [map_zigZag_decode_encode hx]
  · intro u hne hu
    refine ⟨u.map zigZagDecode1, ?_, ?_, ?_⟩
    · simp [ZigZagDecode, hne]
    · intro n hn
      obtain ⟨k, hk, rfl⟩ := List.mem_map.mp hn
      exact zigZagDecode1_isInt64 (hu k hk)
    · simp only [ZigZagEncode, List.length_map, List.length_eq_zero, hne, if_false]
      rw [map_zigZag_encode_decode hu]

/-- Witness for C4 at the boundary values of both ranges. -/
theorem zigZag_bijection_witness :
    (∃ u, ZigZagEncode [-9223372036854775808, 9223372036854775807, -1] = .ok u ∧
      (∀ k ∈ u, IsUint64 k) ∧
      ZigZagDecode u = .ok [-9223372036854775808, 9223372036854775807, -1]) ∧
    (∃ x, ZigZagDecode [18446744073709551615, 0, 7] = .ok x ∧ (∀ n ∈ x, IsInt64 n) ∧
      ZigZagEncode x = .ok [18446744073709551615, 0, 7]) :=
  ⟨zigZag_bijection.1 [-9223372036854775808, 9223372036854775807, -1] (by decide) (by decide),
   zigZag_bijection.2 [18446744073709551615, 0, 7] (by decide) (by decide)⟩

/-! ## Predictive delta -/

theorem undeltaLoop_deltaLoop (a b : Int) (rest : List Int) (ha : IsInt64 a) (hb : IsInt64 b)
    (hr : ∀ n ∈ rest, IsInt64 n) :
    undeltaLoop (deltaLoop (a :: b :: rest)) a b = rest := by
  induction rest generalizing a b with
  | nil => simp [deltaLoop, undeltaLoop]
  | cons c rest ih =>
    have hc : IsInt64 c := hr c (List.mem_cons_self _ _)
    have hx : wrap64 (wrap64 (c - wrap64 (b + wrap64 (b - a))) + wrap64 (b + wrap64 (b - a))) = c := by
      unfold IsInt64 at hc
      unfold wrap64
      omega
    simp only [deltaLoop, undeltaLoop, hx]
    rw [ih b c hb hc (fun n hn => hr n (List.mem_cons_of_mem _ hn))]

/-- C5. Predictive-delta round trip under wrapping arithmetic: for every `int64` array `v` with at
least two elements, `DeltaEncode v` succeeds with some `(r, first, second)` and
`DeltaDecode r first second` returns exactly `v`. -/
theorem delta_round_trip (v : List Int) (hlen : 2 ≤ v.length) (hv : ∀ n ∈ v, IsInt64 n) :
    ∃ r first second, DeltaEncode v = .ok (r, first, second) ∧
      DeltaDecode r first second = .ok v := by
  match v, hlen, hv with
  | a :: b :: rest, _, hv =>
    refine ⟨deltaLoop (a :: b :: rest), a, b, rfl, ?_⟩
    unfold DeltaDecode
    rw [undeltaLoop_deltaLoop a b rest (hv a (by simp)) (hv b (by simp))
      (fun n hn => hv n (by simp [hn]))]

/-- Witness for C5 on a sequence whose predictions and subtractions overflow. -/
theorem delta_round_trip_witness :
    ∃ r first second,
      DeltaEncode [9223372036854775807, -9223372036854775808, 9223372036854775807, 0] =
        .ok (r, first, second) ∧
      DeltaDecode r first second =
        .ok [9223372036854775807, -9223372036854775808, 9223372036854775807, 0] :=
  delta_round_trip [9223372036854775807, -9223372036854775808, 9223372036854775807, 0]
    (by decide) (by decide)

/-! ## Golomb-Rice: the bit writer -/

set_option maxRecDepth 100000 in
theorem addBitByte_fin : ∀ p < 8, ∀ c < 256, c % 2 ^ (8 - p) = 0 →
    ((addBitByte c p 0 < 256 ∧ addBitByte c p 0 % 2 ^ (7 - p) = 0 ∧
      (byteBits (addBitByte c p 0)).take (p + 1) = (byteBits c).take p ++ [0]) ∧
     (addBitByte c p 1 < 256 ∧ addBitByte c p 1 % 2 ^ (7 - p) = 0 ∧
      (byteBits (addBitByte c p 1)).take (p + 1) = (byteBits c).take p ++ [1])) := by
  decide

set_option maxRecDepth 100000 in
theorem flushByte_fin : ∀ p < 8, ∀ c < 256, c % 2 ^ (8 - p) = 0 →
    byteBits (c &&& ((255 <<< (8 - p)) % 256)) =
      (byteBits c).take p ++ List.replicate (8 - p) 0 := by
  decide

theorem bitsOf_append (a b : List Nat) : bitsOf (a ++ b) = bitsOf a ++ bitsOf b := by
  induction a with
  | nil => rfl
  | cons x xs ih => simp [bitsOf, ih]

theorem bitsOf_length (a : List Nat) : (bitsOf a).length = 8 * a.length := by
  induction a with
  | nil => rfl
  | cons x xs ih => simp [bitsOf, byteBits, ih]; omega

theorem addBit_spec (w : BitWriter) (b : Nat) (hw : w.WF) (hb : b ≤ 1) :
    (addBit w b).WF ∧ (addBit w b).bits = w.bits ++ [b] := by
  obtain ⟨h1, h2, h3⟩ := hw
  have hfin := addBitByte_fin w.bitPos h1 w.currentByte h2 h3
  have hcur : addBitByte w.currentByte w.bitPos b < 256 ∧
      addBitByte w.currentByte w.bitPos b % 2 ^ (7 - w.bitPos) = 0 ∧
      (byteBits (addBitByte w.currentByte w.bitPos b)).take (w.bitPos + 1) =
        (byteBits w.currentByte).take w.bitPos ++ [b] := by
    rcases Nat.le_one_iff_eq_zero_or_eq_one.mp hb with rfl | rfl
    · exact hfin.1
    · exact hfin.2
  obtain ⟨c1, c2, c3⟩ := hcur
  unfold addBit
  simp only []
  by_cases h8 : w.bitPos + 1 = 8
  · rw [if_pos h8]
    refine ⟨⟨by simp, by simp, by simp⟩, ?_⟩
    have hfull : (byteBits (addBitByte w.currentByte w.bitPos b)).take (w.bitPos + 1) =
        byteBits (addBitByte w.currentByte w.bitPos b) := by
      apply List.take_of_length_le
      simp [byteBits]; omega
    simp only [BitWriter.bits, bitsOf_append, bitsOf, List.append_nil, List.take_zero]
    rw [← addBitByte, ← hfull, c3, List.append_assoc]
  · rw [if_neg h8]
    refine ⟨⟨by simp; omega, c1, ?_⟩, ?_⟩
    · have : 8 - (w.bitPos + 1) = 7 - w.bitPos := by omega
      simp only [this]
      exact c2
    · simp only [BitWriter.bits]
      rw [← addBitByte, c3, List.append_assoc]

theorem emitZeros_spec (q : Nat) (w : BitWriter) (hw : w.WF) :
    (emitZeros q w).WF ∧ (emitZeros q w).bits = w.bits ++ List.replicate q 0 := by
  induction q generalizing w with
  | zero => simp [emitZeros, hw]
  | succ q ih =>
    obtain ⟨h1, h2⟩ := addBit_spec w 0 hw (by omega)
    obtain ⟨h3, h4⟩ := ih (addBit w 0) h1
    refine ⟨h3, ?_⟩
    simp only [emitZeros]
    rw [h4, h2, List.append_assoc]
    rfl

theorem emitRemainder_spec (r n : Nat) (w : BitWriter) (hw : w.WF) :
    (emitRemainder r n w).WF ∧ (emitRemainder r n w).bits = w.bits ++ remBits r n := by
  induction n generalizing w with
  | zero => simp [emitRemainder, remBits, hw]
  | succ n ih =>
    have hbit : (if (r >>> n) &&& 1 = 1 then 1 else 0) = r / 2 ^ n % 2 := by
      rw [Nat.and_one_is_mod, Nat.shiftRight_eq_div_pow]
      split <;> omega
    have hle : r / 2 ^ n % 2 ≤ 1 := by omega
    obtain ⟨h1, h2⟩ := addBit_spec w (r / 2 ^ n % 2) hw hle
    obtain ⟨h3, h4⟩ := ih (addBit w (r / 2 ^ n % 2)) h1
    simp only [emitRemainder, hbit]
    refine ⟨h3, ?_⟩
    rw [h4, h2, List.append_assoc]
    rfl

theorem encodeValue_spec (m : Int) (w : BitWriter) (x : Nat) (hw : w.WF) :
    (encodeValue m w x).WF ∧ (encodeValue m w x).bits = w.bits ++ codeword m x := by
  obtain ⟨h1, h2⟩ := emitZeros_spec (riceQuot m x) w hw
  obtain ⟨h3, h4⟩ := addBit_spec _ 1 h1 (le_refl 1)
  obtain ⟨h5, h6⟩ := emitRemainder_spec (riceRem m x) (bitsNeeded m) _ h3
  refine ⟨h5, ?_⟩
  unfold encodeValue codeword
  rw [h6, h4, h2]
  simp [List.append_assoc]

theorem foldl_encodeValue_spec (m : Int) (input : List Nat) (w : BitWriter) (hw : w.WF) :
    (input.foldl (encodeValue m) w).WF ∧
      (input.foldl (encodeValue m) w).bits = w.bits ++ codewords m input := by
  induction input generalizing w with
  | nil => simp [codewords, hw]
  | cons x xs ih =>
    obtain ⟨h1, h2⟩ := encodeValue_spec m w x hw
    obtain ⟨h3, h4⟩ := ih (encodeValue m w x) h1
    refine ⟨h3, ?_⟩
    simp only [List.foldl_cons, codewords]
    rw [h4, h2, List.append_assoc]

theorem flush_spec (w : BitWriter) (hw : w.WF) :
    ∃ pad, bitsOf (flush w) = w.bits ++ List.replicate pad 0 := by
  obtain ⟨h1, h2, h3⟩ := hw
  unfold flush
  by_cases hp : w.bitPos > 0
  · rw [if_pos hp]
    refine ⟨8 - w.bitPos, ?_⟩
    simp only [BitWriter.bits, bitsOf_append, bitsOf, List.append_nil]
    rw [flushByte_fin w.bitPos h1 w.currentByte h2 h3, List.append_assoc]
  · rw [if_neg hp]
    refine ⟨0, ?_⟩
    have : w.bitPos = 0 := by omega
    simp [BitWriter.bits, this]

theorem encode_bits (m : Int) (input : List Nat) :
    ∃ pad, bitsOf (flush (input.foldl (encodeValue m) BitWriter.init)) =
      codewords m input ++ List.replicate pad 0 := by
  have hw0 : BitWriter.WF BitWriter.init := ⟨by decide, by decide, by decide⟩
  obtain ⟨h1, h2⟩ := foldl_encodeValue_spec m input _ hw0
  obtain ⟨pad, h3⟩ := flush_spec _ h1
  refine ⟨pad, ?_⟩
  rw [h3, h2]
  simp [BitWriter.bits, BitWriter.init, bitsOf]

/-! ## Golomb-Rice: the bit reader -/

theorem getBit_cons_succ (b : Nat) (bs : List Nat) (pos : Nat) :
    getBit (b :: bs) (pos + 8) = getBit bs pos := by
  unfold getBit
  have h1 : (pos + 8) / 8 = pos / 8 + 1 := by omega
  have h2 : (pos + 8) % 8 = pos % 8 := by omega
  rw [h1, h2]
  simp

theorem getBit_cons_lt (b : Nat) (bs : List Nat) (pos : Nat) (h : pos < 8) :
    (byteBits b)[pos]? = some (getBit (b :: bs) pos) := by
  unfold getBit byteBits
  have h1 : pos / 8 = 0 := by omega
  rw [h1]
  interval_cases pos <;> simp

theorem bitsOf_getElem? (data : List Nat) (pos : Nat) (h : pos < 8 * data.length) :
    (bitsOf data)[pos]? = some (getBit data pos) := by
  induction data generalizing pos with
  | nil => simp at h
  | cons b bs ih =>
    simp only [bitsOf]
    by_cases hp : pos < 8
    · rw [List.getElem?_append_left (by simp [byteBits]; omega)]
      exact getBit_cons_lt b bs pos hp
    · rw [List.getElem?_append_right (by simp [byteBits]; omega)]
      have hl : (byteBits b).length = 8 := by simp [byteBits]
      rw [hl]
      have : pos = (pos - 8) + 8 := by omega
      rw [ih (pos - 8) (by simp at h; omega)]
      conv_rhs => rw [this, getBit_cons_succ]

theorem drop_bitsOf_cons {data : List Nat} {pos b : Nat} {rest : List Nat}
    (h : (bitsOf data).drop pos = b :: rest) :
    pos < 8 * data.length ∧ b = getBit data pos ∧ (bitsOf data).drop (pos + 1) = rest := by
  have hlt : pos < (bitsOf data).length := by
    by_contra hc
    rw [List.drop_of_length_le (by omega)] at h
    cases h
  have hlt8 : pos < 8 * data.length := by rw [bitsOf_length] at hlt; exact hlt
  refine ⟨hlt8, ?_, ?_⟩
  · have h1 := bitsOf_getElem? data pos hlt8
    have h2 : (bitsOf data)[pos]? = ((bitsOf data).drop pos)[0]? := by
      rw [List.getElem?_drop]; simp
    rw [h2, h] at h1
    simpa using h1
  · have : (bitsOf data).drop (pos + 1) = ((bitsOf data).drop pos).drop 1 := by
      rw [List.drop_drop]
    rw [this, h]
    rfl

theorem readBit_spec {data : List Nat} {rd : BitReader} {b : Nat} {rest : List Nat}
    (hrd : rd.bitIdx < 8) (h : (bitsOf data).drop rd.pos = b :: rest) :
    ∃ rd1, readBit data rd = .ok (b, rd1) ∧ rd1.bitIdx < 8 ∧
      (bitsOf data).drop rd1.pos = rest := by
  obtain ⟨h1, h2, h3⟩ := drop_bitsOf_cons h
  unfold BitReader.pos at h1 h2 h3
  have hidx : ¬ rd.byteIdx ≥ data.length := by omega
  have hbit : (data.getD rd.byteIdx 0 >>> (7 - rd.bitIdx)) &&& 1 = b := by
    rw [h2, Nat.and_one_is_mod, Nat.shiftRight_eq_div_pow]
    unfold getBit
    have e1 : (8 * rd.byteIdx + rd.bitIdx) / 8 = rd.byteIdx := by omega
    have e2 : (8 * rd.byteIdx + rd.bitIdx) % 8 = rd.bitIdx := by omega
    rw [e1, e2]
  unfold readBit
  rw [if_neg hidx]
  simp only [hbit]
  by_cases h8 : rd.bitIdx + 1 = 8
  · rw [if_pos h8]
    refine ⟨_, rfl, by simp, ?_⟩
    simp only [BitReader.pos]
    have : 8 * (rd.byteIdx + 1) + 0 = 8 * rd.byteIdx + rd.bitIdx + 1 := by omega
    rw [this]; exact h3
  · rw [if_neg h8]
    refine ⟨_, rfl, by simp; omega, ?_⟩
    simp only [BitReader.pos]
    have : 8 * rd.byteIdx + (rd.bitIdx + 1) = 8 * rd.byteIdx + rd.bitIdx + 1 := by omega
    rw [this]; exact h3

theorem readQuotient_spec {data : List Nat} (q : Nat) {rd : BitReader} {rest : List Nat}
    (fuel q0 : Nat) (hrd : rd.bitIdx < 8)
    (h : (bitsOf data).drop rd.pos = List.replicate q 0 ++ 1 :: rest)
    (hfuel : q + 1 ≤ fuel) (hq : q0 + q < 18446744073709551616) :
    ∃ rd1, readQuotient data fuel rd q0 = .ok (q0 + q, rd1) ∧ rd1.bitIdx < 8 ∧
      (bitsOf data).drop rd1.pos = rest := by
  induction q generalizing rd fuel q0 with
  | zero =>
    obtain ⟨f, rfl⟩ : ∃ f, fuel = f + 1 := ⟨fuel - 1, by omega⟩
    simp only [List.replicate_zero, List.nil_append] at h
    obtain ⟨rd1, e1, e2, e3⟩ := readBit_spec hrd h
    exact ⟨rd1, by simp [readQuotient, e1], e2, e3⟩
  | succ q ih =>
    obtain ⟨f, rfl⟩ : ∃ f, fuel = f + 1 := ⟨fuel - 1, by omega⟩
    simp only [List.replicate_succ, List.cons_append] at h
    obtain ⟨rd1, e1, e2, e3⟩ := readBit_spec hrd h
    obtain ⟨rd2, g1, g2, g3⟩ := ih f (q0 + 1) e2 e3 (by omega) (by omega)
    refine ⟨rd2, ?_, g2, g3⟩
    simp only [readQuotient, e1]
    rw [if_neg (by decide), Nat.mod_eq_of_lt (by omega), g1]
    congr 2; omega

theorem lor_bit (a b : Nat) (hb : b ≤ 1) : (a <<< 1) ||| b = 2 * a + b := by
  have h := Nat.mul_add_lt_is_or (by omega : b < 2 ^ 1) a
  rw [Nat.shiftLeft_eq, Nat.mul_comm a (2 ^ 1), ← h]

theorem readRemainder_spec {data : List Nat} (r n : Nat) {rd : BitReader} {rest : List Nat}
    (r0 : Nat) (hrd : rd.bitIdx < 8)
    (h : (bitsOf data).drop rd.pos = remBits r n ++ rest)
    (hr : r0 * 2 ^ n + r % 2 ^ n < 18446744073709551616) :
    ∃ rd1, readRemainder data n rd r0 = .ok (r0 * 2 ^ n + r % 2 ^ n, rd1) ∧ rd1.bitIdx < 8 ∧
      (bitsOf data).drop rd1.pos = rest := by
  induction n generalizing rd r0 with
  | zero =>
    simp only [remBits, List.nil_append] at h
    exact ⟨rd, by simp [readRemainder, Nat.mod_one], hrd, h⟩
  | succ n ih =>
    simp only [remBits, List.cons_append] at h
    obtain ⟨rd1, e1, e2, e3⟩ := readBit_spec hrd h
    have hmod : r % 2 ^ (n + 1) = r % 2 ^ n + 2 ^ n * (r / 2 ^ n % 2) := Nat.mod_pow_succ
    have hpos : 0 < 2 ^ n := Nat.two_pow_pos n
    have hexp : r0 * 2 ^ (n + 1) = 2 * r0 * 2 ^ n := by rw [pow_succ]; ring
    have hsmall : 2 * r0 < 18446744073709551616 := by
      rw [hexp] at hr
      have : 2 * r0 ≤ 2 * r0 * 2 ^ n := Nat.le_mul_of_pos_right _ hpos
      omega
    have hacc : ((r0 <<< 1) % 18446744073709551616) ||| (r / 2 ^ n % 2) =
        2 * r0 + r / 2 ^ n % 2 := by
      have : r0 <<< 1 = 2 * r0 := by rw [Nat.shiftLeft_eq]; omega
      rw [Nat.mod_eq_of_lt (by omega)]
      exact lor_bit r0 _ (by omega)
    have hval : (2 * r0 + r / 2 ^ n % 2) * 2 ^ n + r % 2 ^ n =
        r0 * 2 ^ (n + 1) + r % 2 ^ (n + 1) := by
      rw [hmod, hexp]; ring
    obtain ⟨rd2, g1, g2, g3⟩ := ih (2 * r0 + r / 2 ^ n % 2) e2 e3 (by rw [hval]; exact hr)
    refine ⟨rd2, ?_, g2, g3⟩
    simp only [readRemainder, e1, hacc]
    rw [g1, hval]

/-! ## float64: bit lengths and exponents -/

theorem lenAux_spec (fuel n : Nat) (h : n < 2 ^ fuel) (hn : 0 < n) :
    1 ≤ lenAux fuel n ∧ 2 ^ lenAux fuel n ≤ 2 * n ∧ n < 2 ^ lenAux fuel n := by
  induction fuel generalizing n with
  | zero => simp at h; omega
  | succ fuel ih =>
    unfold lenAux
    rw [if_neg (by omega)]
    by_cases h2 : n / 2 = 0
    · have h1 : n = 1 := by omega
      subst h1
      have : lenAux fuel (1 / 2) = 0 := by
        cases fuel with
        | zero => rfl
        | succ f => simp [lenAux]
      rw [this]
      decide
    · have hlt : n / 2 < 2 ^ fuel := by
        rw [pow_succ] at h; omega
      obtain ⟨i1, i2, i3⟩ := ih (n / 2) hlt (by omega)
      refine ⟨by omega, ?_, ?_⟩
      · rw [Nat.add_comm, pow_succ]; omega
      · rw [Nat.add_comm, pow_succ]; omega

theorem bitLenStep_eq (k n : Nat) : bitLenStep k n = if n / 2 ^ k = 0 then 0 else k := by
  have h : bitLenStep k n = k * (1 - (1 - (n >>> k))) := rfl
  rw [h, Nat.shiftRight_eq_div_pow]
  clear h
  generalize n / 2 ^ k = q
  by_cases h0 : q = 0
  · rw [if_pos h0, h0]
    rfl
  · rw [if_neg h0]
    have : 1 - (1 - q) = 1 := by omega
    rw [this, Nat.mul_one]

theorem bitLenStep_spec (n k m a x : Nat) (hm : m = k + k) (h1 : 1 ≤ x)
    (h2 : x = n / 2 ^ a) (h3 : x < 2 ^ m) :
    1 ≤ Nat.shiftRight x (bitLenStep k x) ∧
      Nat.shiftRight x (bitLenStep k x) = n / 2 ^ (Nat.add a (bitLenStep k x)) ∧
      Nat.shiftRight x (bitLenStep k x) < 2 ^ k := by
  subst hm
  have hs : ∀ s, Nat.shiftRight x s = x / 2 ^ s := fun s => Nat.shiftRight_eq_div_pow x s
  have ha : ∀ s, Nat.add a s = a + s := fun _ => rfl
  rw [hs, ha, bitLenStep_eq]
  by_cases h : x / 2 ^ k = 0
  · rw [if_pos h]
    simp only [pow_zero, Nat.div_one, Nat.add_zero]
    refine ⟨h1, h2, ?_⟩
    by_contra hge
    have := Nat.div_pos (Nat.le_of_not_lt hge) (Nat.two_pow_pos k)
    omega
  · rw [if_neg h]
    refine ⟨Nat.pos_of_ne_zero h, ?_, ?_⟩
    · rw [h2, Nat.div_div_eq_div_mul, ← pow_add]
    · rw [Nat.div_lt_iff_lt_mul (Nat.two_pow_pos k), ← pow_add]
      exact h3

theorem bitLen_spec (n : Nat) (h : n < 2 ^ 8192) (hn : 0 < n) :
    1 ≤ bitLen n ∧ 2 ^ bitLen n ≤ 2 * n ∧ n < 2 ^ bitLen n := by
  have s1 := bitLenStep_spec n 4096 8192 0 n (by norm_num) hn (by simp) h
  rw [show Nat.add 0 (bitLenStep 4096 n) = bitLenStep 4096 n from Nat.zero_add _] at s1
  have s2 := bitLenStep_spec n 2048 4096 _ _ (by norm_num) s1.1 s1.2.1 s1.2.2
  have s3 := bitLenStep_spec n 1024 2048 _ _ (by norm_num) s2.1 s2.2.1 s2.2.2
  have s4 := bitLenStep_spec n 512 1024 _ _ (by norm_num) s3.1 s3.2.1 s3.2.2
  have s5 := bitLenStep_spec n 256 512 _ _ (by norm_num) s4.1 s4.2.1 s4.2.2
  have s6 := bitLenStep_spec n 128 256 _ _ (by norm_num) s5.1 s5.2.1 s5.2.2
  have s7 := bitLenStep_spec n 64 128 _ _ (by norm_num) s6.1 s6.2.1 s6.2.2
  have s8 := bitLenStep_spec n 32 64 _ _ (by norm_num) s7.1 s7.2.1 s7.2.2
  have s9 := bitLenStep_spec n 16 32 _ _ (by norm_num) s8.1 s8.2.1 s8.2.2
  have s10 := bitLenStep_spec n 8 16 _ _ (by norm_num) s9.1 s9.2.1 s9.2.2
  have s11 := bitLenStep_spec n 4 8 _ _ (by norm_num) s10.1 s10.2.1 s10.2.2
  have s12 := bitLenStep_spec n 2 4 _ _ (by norm_num) s11.1 s11.2.1 s11.2.2
  have s13 := bitLenStep_spec n 1 2 _ _ (by norm_num) s12.1 s12.2.1 s12.2.2
  clear s1 s2 s3 s4 s5 s6 s7 s8 s9 s10 s11 s12
  unfold bitLen
  dsimp only
  obtain ⟨a, b, c⟩ := s13
  generalize Nat.shiftRight _ (bitLenStep 1 _) = x at a b c ⊢
  have hx : x = 1 := by omega
  subst hx
  have e1 : Nat.sub 1 (Nat.sub 1 1) = 1 := rfl
  rw [e1]
  generalize hA : Nat.add _ (bitLenStep 1 _) = A at b ⊢
  have hdm := Nat.div_add_mod n (2 ^ A)
  have hml := Nat.mod_lt n (Nat.two_pow_pos A)
  rw [← b] at hdm
  have e2 : Nat.add A 1 = A + 1 := rfl
  rw [e2, pow_succ]
  generalize 2 ^ A = P at hdm hml
  generalize n % P = r at hdm hml
  omega

theorem scaleDen_pos (d : Nat) (e : Int) (hd : 0 < d) : 0 < F64.scaleDen d e := by
  unfold F64.scaleDen
  split
  · exact Nat.mul_pos hd (Nat.two_pow_pos _)
  · exact hd

/-- Raising the exponent by one halves the integer quotient. -/
theorem scaledQuot_succ (n d : Nat) (e : Int) :
    F64.scaleNum n (e + 1) / F64.scaleDen d (e + 1) =
      F64.scaleNum n e / F64.scaleDen d e / 2 := by
  unfold F64.scaleNum F64.scaleDen
  by_cases h0 : e ≥ 0
  · rw [if_pos (by omega), if_pos (by omega), if_pos h0, if_pos h0]
    have : (e + 1).toNat = e.toNat + 1 := by omega
    rw [this, pow_succ, Nat.div_div_eq_div_mul, Nat.mul_assoc]
  · by_cases h1 : e = -1
    · subst h1
      rw [if_pos (by decide), if_pos (by decide), if_neg (by decide), if_neg (by decide)]
      have e1 : ((-1 : Int) + 1).toNat = 0 := by decide
      have e2 : (-(-1 : Int)).toNat = 1 := by decide
      rw [e1, e2, pow_zero, pow_one, Nat.mul_one, Nat.div_div_eq_div_mul,
        Nat.mul_div_mul_right _ _ (by decide : 0 < 2)]
    · rw [if_neg (by omega), if_neg (by omega), if_neg h0, if_neg h0]
      have : (-e).toNat = (-(e + 1)).toNat + 1 := by omega
      rw [this, pow_succ, Nat.div_div_eq_div_mul, ← Nat.mul_assoc,
        Nat.mul_div_mul_right _ _ (by decide : 0 < 2)]

theorem scaledQuot_add (n d : Nat) (e : Int) (j : Nat) :
    F64.scaleNum n (e + j) / F64.scaleDen d (e + j) =
      F64.scaleNum n e / F64.scaleDen d e / 2 ^ j := by
  induction j with
  | zero => simp
  | succ j ih =>
    have : e + ((j + 1 : Nat) : Int) = (e + (j : Int)) + 1 := by push_cast; ring
    rw [this, scaledQuot_succ, ih, Nat.div_div_eq_div_mul, pow_succ]

theorem scaledQuot_e0_bounds (n d : Nat) (hn : 0 < n) (hd : 0 < d) (hn8 : n < 2 ^ 8192)
    (hd8 : d < 2 ^ 8192) :
    4503599627370496 ≤
        F64.scaleNum n ((bitLen n : Int) - (bitLen d : Int) - 53) /
          F64.scaleDen d ((bitLen n : Int) - (bitLen d : Int) - 53) ∧
      F64.scaleNum n ((bitLen n : Int) - (bitLen d : Int) - 53) /
          F64.scaleDen d ((bitLen n : Int) - (bitLen d : Int) - 53) < 18014398509481984 := by
  obtain ⟨a1, a2, a3⟩ := bitLen_spec n hn8 hn
  obtain ⟨b1, b2, b3⟩ := bitLen_spec d hd8 hd
  generalize bitLen n = a at a1 a2 a3
  generalize bitLen d = b at b1 b2 b3
  unfold F64.scaleNum F64.scaleDen
  by_cases h0 : (a : Int) - (b : Int) - 53 ≥ 0
  · rw [if_pos h0, if_pos h0]
    obtain ⟨k, hk⟩ : ∃ k : Nat, ((a : Int) - (b : Int) - 53).toNat = k := ⟨_, rfl⟩
    rw [hk]
    have hak : a = 53 + (b + k) := by omega
    have hpow : 2 ^ a = 9007199254740992 * (2 ^ b * 2 ^ k) := by
      rw [hak, pow_add, pow_add]; norm_num
    have hX : d * 2 ^ k ≤ 2 ^ b * 2 ^ k := Nat.mul_le_mul_right _ (le_of_lt b3)
    have hY : 2 ^ b * 2 ^ k ≤ 2 * (d * 2 ^ k) := by
      rw [← Nat.mul_assoc]; exact Nat.mul_le_mul_right _ b2
    have hpos : 0 < d * 2 ^ k := Nat.mul_pos hd (Nat.two_pow_pos _)
    rw [hpow] at a2 a3
    generalize d * 2 ^ k = X at hX hY hpos
    generalize 2 ^ b * 2 ^ k = Y at hX hY a2 a3
    constructor
    · rw [Nat.le_div_iff_mul_le hpos]; omega
    · rw [Nat.div_lt_iff_lt_mul hpos]; omega
  · rw [if_neg h0, if_neg h0]
    obtain ⟨k, hk⟩ : ∃ k : Nat, (-((a : Int) - (b : Int) - 53)).toNat = k := ⟨_, rfl⟩
    rw [hk]
    have hak : a + k = 53 + b := by omega
    have hpow : 2 ^ a * 2 ^ k = 9007199254740992 * 2 ^ b := by
      rw [← pow_add, hak, pow_add]; norm_num
    have hX1 : n * 2 ^ k < 2 ^ a * 2 ^ k := Nat.mul_lt_mul_of_pos_right a3 (Nat.two_pow_pos _)
    have hX2 : 2 ^ a * 2 ^ k ≤ 2 * (n * 2 ^ k) := by
      rw [← Nat.mul_assoc]; exact Nat.mul_le_mul_right _ a2
    rw [hpow] at hX1 hX2
    generalize n * 2 ^ k = X at hX1 hX2
    generalize 2 ^ b = B at hX1 hX2 b2 b3
    constructor
    · rw [Nat.le_div_iff_mul_le hd]; omega
    · rw [Nat.div_lt_iff_lt_mul hd]; omega

/-- The exponent chosen by `F64.exponentOf` puts the integer quotient below `2^53`, and at or
above `2^52` unless the exponent is the least one. -/
theorem exponentOf_spec (n d : Nat) (hn : 0 < n) (hd : 0 < d) (hn8 : n < 2 ^ 8192)
    (hd8 : d < 2 ^ 8192) :
    -1074 ≤ F64.exponentOf n d ∧
      F64.scaleNum n (F64.exponentOf n d) / F64.scaleDen d (F64.exponentOf n d) <
        9007199254740992 ∧
      (4503599627370496 ≤
          F64.scaleNum n (F64.exponentOf n d) / F64.scaleDen d (F64.exponentOf n d) ∨
        F64.exponentOf n d = -1074) := by
  obtain ⟨q1, q2⟩ := scaledQuot_e0_bounds n d hn hd hn8 hd8
  unfold F64.exponentOf
  dsimp only
  generalize (bitLen n : Int) - (bitLen d : Int) - 53 = e0 at q1 q2 ⊢
  have hB : ∃ e1 : Int,
      (if F64.scaleNum n e0 / F64.scaleDen d e0 < 9007199254740992 then e0 else e0 + 1) = e1 ∧
      4503599627370496 ≤ F64.scaleNum n e1 / F64.scaleDen d e1 ∧
      F64.scaleNum n e1 / F64.scaleDen d e1 < 9007199254740992 := by
    by_cases hq : F64.scaleNum n e0 / F64.scaleDen d e0 < 9007199254740992
    · exact ⟨e0, if_pos hq, q1, hq⟩
    · refine ⟨e0 + 1, if_neg hq, ?_, ?_⟩
      · rw [scaledQuot_succ]; omega
      · rw [scaledQuot_succ]; omega
  obtain ⟨e1, he1, r1, r2⟩ := hB
  rw [he1]
  by_cases hc : -1074 ≤ e1
  · rw [max_eq_left hc]
    exact ⟨hc, r2, Or.inl r1⟩
  · rw [max_eq_right (by omega)]
    refine ⟨le_refl _, ?_, Or.inr rfl⟩
    obtain ⟨j, hj⟩ : ∃ j : Nat, (-1074 : Int) = e1 + (j : Int) ∧ 1 ≤ j :=
      ⟨(-1074 - e1).toNat, by omega, by omega⟩
    rw [hj.1, scaledQuot_add]
    have h2 : 2 ^ 1 ≤ 2 ^ j := Nat.pow_le_pow_right (by decide) hj.2
    have : F64.scaleNum n e1 / F64.scaleDen d e1 / 2 ^ j ≤
        F64.scaleNum n e1 / F64.scaleDen d e1 / 2 ^ 1 :=
      Nat.div_le_div_left h2 (by decide)
    omega

/-- The result of `F64.roundNE` is the representation of a float64. -/
theorem roundNE_isFloat64 (neg : Bool) (n d : Nat) (hd : 0 < d) (hn8 : n < 2 ^ 8192)
    (hd8 : d < 2 ^ 8192) : IsFloat64 (F64.roundNE neg n d) := by
  unfold F64.roundNE
  by_cases hn : n = 0
  · rw [if_pos hn]; simp [IsFloat64]
  · rw [if_neg hn]
    dsimp only
    obtain ⟨s1, s2, s3⟩ := exponentOf_spec n d (by omega) hd hn8 hd8
    clear hn8 hd8
    generalize F64.exponentOf n d = e at s1 s2 s3 ⊢
    generalize F64.scaleNum n e / F64.scaleDen d e = q at s2 s3 ⊢
    generalize F64.scaleNum n e % F64.scaleDen d e = r
    generalize F64.scaleDen d e = den
    by_cases hup : 2 * r > den ∨ (2 * r = den ∧ q % 2 = 1)
    · rw [if_pos hup]
      by_cases hm : q + 1 = 9007199254740992
      · rw [if_pos hm, if_pos hm]
        by_cases he : e + 1 > 971
        · rw [if_pos he]; trivial
        · rw [if_neg he]; simp only [IsFloat64]; omega
      · rw [if_neg hm, if_neg hm]
        by_cases he : e > 971
        · rw [if_pos he]; trivial
        · rw [if_neg he]; simp only [IsFloat64]; omega
    · rw [if_neg hup]
      have hq : ¬ q = 9007199254740992 := by omega
      rw [if_neg hq, if_neg hq]
      by_cases he : e > 971
      · rw [if_pos he]; trivial
      · rw [if_neg he]; simp only [IsFloat64]; omega

/-- The exponent of `F64.exponentOf` is the only one that meets its specification. -/
theorem exponentOf_unique (n d : Nat) (hn : 0 < n) (hd : 0 < d) (hn8 : n < 2 ^ 8192)
    (hd8 : d < 2 ^ 8192) (e' : Int) (h1 : -1074 ≤ e')
    (h2 : F64.scaleNum n e' / F64.scaleDen d e' < 9007199254740992)
    (h3 : 4503599627370496 ≤ F64.scaleNum n e' / F64.scaleDen d e' ∨ e' = -1074) :
    F64.exponentOf n d = e' := by
  obtain ⟨s1, s2, s3⟩ := exponentOf_spec n d hn hd hn8 hd8
  clear hn8 hd8
  generalize F64.exponentOf n d = e at s1 s2 s3 ⊢
  have hhalf : ∀ (x : Nat) (j : Nat), 1 ≤ j → x < 9007199254740992 →
      x / 2 ^ j < 4503599627370496 := by
    intro x j hj hx
    have h2 : 2 ^ 1 ≤ 2 ^ j := Nat.pow_le_pow_right (by decide) hj
    have : x / 2 ^ j ≤ x / 2 ^ 1 := Nat.div_le_div_left h2 (by decide)
    omega
  rcases lt_trichotomy e e' with hlt | heq | hgt
  · exfalso
    obtain ⟨j, hj1, hj2⟩ : ∃ j : Nat, e' = e + (j : Int) ∧ 1 ≤ j :=
      ⟨(e' - e).toNat, by omega, by omega⟩
    have := hhalf _ j hj2 s2
    rw [← scaledQuot_add, ← hj1] at this
    omega
  · exact heq
  · exfalso
    obtain ⟨j, hj1, hj2⟩ : ∃ j : Nat, e = e' + (j : Int) ∧ 1 ≤ j :=
      ⟨(e - e').toNat, by omega, by omega⟩
    have := hhalf _ j hj2 h2
    rw [← scaledQuot_add, ← hj1] at this
    omega

/-- A rational that is the value `M * 2^e` of a float64 representation rounds to it. -/
theorem roundNE_exact (neg : Bool) (n d M : Nat) (e' : Int) (hn : 0 < n) (hd : 0 < d)
    (hn8 : n < 2 ^ 8192) (hd8 : d < 2 ^ 8192) (he1 : -1074 ≤ e') (he2 : e' ≤ 971)
    (hM : M < 9007199254740992) (hM2 : 4503599627370496 ≤ M ∨ e' = -1074)
    (hex : F64.scaleNum n e' = M * F64.scaleDen d e') :
    F64.roundNE neg n d = .fin neg M e' := by
  have hden := scaleDen_pos d e' hd
  have hq : F64.scaleNum n e' / F64.scaleDen d e' = M := by
    rw [hex, Nat.mul_div_cancel _ hden]
  have hr : F64.scaleNum n e' % F64.scaleDen d e' = 0 := by
    rw [hex, Nat.mul_mod_left]
  have hexp := exponentOf_unique n d hn hd hn8 hd8 e' he1 (by rw [hq]; exact hM)
    (by rw [hq]; exact hM2)
  unfold F64.roundNE
  rw [if_neg (by omega)]
  dsimp only
  rw [hexp, hq, hr]
  have hno : ¬ (2 * 0 > F64.scaleDen d e' ∨ (2 * 0 = F64.scaleDen d e' ∧ M % 2 = 1)) := by
    omega
  rw [if_neg hno]
  have hm : ¬ M = 9007199254740992 := by omega
  rw [if_neg hm, if_neg hm, if_neg (by omega)]

set_option exponentiation.threshold 10000 in
/-- `float64(i)` of a non-zero integer below `2^53` in magnitude is exact: converting back gives
`i`. -/
theorem toInt64_roundNE_small (neg : Bool) (n : Nat) (hn : 0 < n) (hn2 : n < 9007199254740992) :
    F64.toInt64 (F64.roundNE neg n 1) = if neg then -(n : Int) else (n : Int) := by
  have hn8 : n < 2 ^ 8192 :=
    lt_of_lt_of_le hn2 (by
      have : (9007199254740992 : Nat) = 2 ^ 53 := by norm_num
      rw [this]; exact Nat.pow_le_pow_right (by decide) (by decide))
  obtain ⟨a1, a2, a3⟩ := bitLen_spec n hn8 hn
  have hL : bitLen n ≤ 53 := by
    by_contra hc
    have h54 : 2 ^ 54 ≤ 2 ^ bitLen n := Nat.pow_le_pow_right (by decide) (by omega)
    have : (2 : Nat) ^ 54 = 18014398509481984 := by norm_num
    omega
  obtain ⟨k, hk⟩ : ∃ k : Nat, bitLen n + k = 53 := ⟨53 - bitLen n, by omega⟩
  have hpow : 2 ^ bitLen n * 2 ^ k = 9007199254740992 := by
    rw [← pow_add, hk]; norm_num
  have hkpos : 0 < 2 ^ k := Nat.two_pow_pos k
  have hM1 : n * 2 ^ k < 9007199254740992 := by
    rw [← hpow]; exact Nat.mul_lt_mul_of_pos_right a3 hkpos
  have hM2 : 4503599627370496 ≤ n * 2 ^ k := by
    have : 2 ^ bitLen n * 2 ^ k ≤ 2 * n * 2 ^ k := Nat.mul_le_mul_right _ a2
    rw [hpow, Nat.mul_assoc] at this
    omega
  have hone : (1 : Nat) < 2 ^ 8192 := Nat.one_lt_two_pow (by decide)
  have hexact := roundNE_exact neg n 1 (n * 2 ^ k) (-(k : Int)) hn (by decide) hn8 hone
    (by omega) (by omega) hM1 (Or.inl hM2) (by
      unfold F64.scaleNum F64.scaleDen
      by_cases hk0 : k = 0
      · subst hk0; simp
      · rw [if_neg (by omega), if_neg (by omega)]
        simp)
  rw [hexact]
  unfold F64.toInt64
  dsimp only
  have hval : (if -(k : Int) ≥ 0 then n * 2 ^ k * 2 ^ (-(k : Int)).toNat
      else n * 2 ^ k / 2 ^ (-(-(k : Int))).toNat) = n := by
    by_cases hk0 : k = 0
    · subst hk0; simp
    · rw [if_neg (by omega)]
      have : (-(-(k : Int))).toNat = k := by omega
      rw [this, Nat.mul_div_cancel _ hkpos]
  rw [hval]
  cases neg
  · simp only [Bool.false_eq_true, if_false]
    rw [if_pos (by omega)]
  · simp only [if_true]
    rw [if_pos (by omega)]

set_option exponentiation.threshold 10000 in
/-- `float64` of the integer `M * 2^k` with a full 53-bit `M` is exact. -/
theorem roundNE_normal (neg : Bool) (M k : Nat) (hM1 : 4503599627370496 ≤ M)
    (hM2 : M < 9007199254740992) (hk : k ≤ 971) :
    F64.roundNE neg (M * 2 ^ k) 1 = .fin neg M (k : Int) := by
  have hkpos : 0 < 2 ^ k := Nat.two_pow_pos k
  have hone : (1 : Nat) < 2 ^ 8192 := Nat.one_lt_two_pow (by decide)
  have hn8 : M * 2 ^ k < 2 ^ 8192 := by
    have h1 : M * 2 ^ k < 2 ^ 53 * 2 ^ k :=
      Nat.mul_lt_mul_of_pos_right (by norm_num; exact hM2) hkpos
    rw [← pow_add] at h1
    exact lt_of_lt_of_le h1 (Nat.pow_le_pow_right (by decide) (by omega))
  exact roundNE_exact neg (M * 2 ^ k) 1 M (k : Int) (Nat.mul_pos (by omega) hkpos) (by decide)
    hn8 hone (by omega) (by omega) hM2 (Or.inl hM1) (by
      unfold F64.scaleNum F64.scaleDen
      rw [if_pos (by omega), if_pos (by omega)]
      simp)

/-! ## Golomb-Rice: round trip -/

theorem riceRem_lt {m : Int} (hm : RiceOK m) (x : Nat) : riceRem m x < 2 ^ bitsNeeded m := by
  obtain ⟨h1, h2, h3, h4⟩ := hm
  have hpos : 0 < toUint64 m := by unfold toUint64; omega
  unfold riceRem
  split
  · rename_i hp
    have hk := h4 hp
    have hm1 : toUint64 (m - 1) = 2 ^ TrailingZeros m - 1 := by
      rw [← hk]; unfold toUint64; omega
    rw [hm1, Nat.and_pow_two_sub_one_eq_mod, ← hk]
    exact lt_of_lt_of_le (Nat.mod_lt _ hpos) h3
  · exact lt_of_lt_of_le (Nat.mod_lt _ hpos) h3

theorem rice_value {m : Int} (hm : RiceOK m) {x : Nat} (hx : IsUint64 x) :
    (if isPow2 m then
        ((riceQuot m x <<< TrailingZeros m) % 18446744073709551616) ||| riceRem m x
      else (riceQuot m x * toUint64 m + riceRem m x) % 18446744073709551616) = x := by
  obtain ⟨h1, h2, h3, h4⟩ := hm
  unfold IsUint64 at hx
  have hpos : 0 < toUint64 m := by unfold toUint64; omega
  unfold riceQuot riceRem
  split
  · rename_i hp
    have hk := h4 hp
    have hm1 : toUint64 (m - 1) = 2 ^ TrailingZeros m - 1 := by
      rw [← hk]; unfold toUint64; omega
    rw [hm1, Nat.and_pow_two_sub_one_eq_mod, Nat.shiftRight_eq_div_pow, Nat.shiftLeft_eq]
    have hle : x / 2 ^ TrailingZeros m * 2 ^ TrailingZeros m ≤ x := Nat.div_mul_le_self _ _
    rw [Nat.mod_eq_of_lt (by omega), Nat.mul_comm,
      ← Nat.mul_add_lt_is_or (Nat.mod_lt _ (Nat.two_pow_pos _))]
    exact Nat.div_add_mod _ _
  · have : x / toUint64 m * toUint64 m + x % toUint64 m = x := by
      rw [Nat.mul_comm]; exact Nat.div_add_mod _ _
    rw [this, Nat.mod_eq_of_lt hx]

theorem decodeLoop_spec {data : List Nat} {m : Int} (hm : RiceOK m) (u : List Nat)
    (hu : ∀ x ∈ u, IsUint64 x) {rd : BitReader} (acc rest : List Nat) (hrd : rd.bitIdx < 8)
    (h : (bitsOf data).drop rd.pos = codewords m u ++ rest) :
    decodeLoop data m u.length rd acc = .ok (acc ++ u) := by
  induction u generalizing rd acc with
  | nil => simp [decodeLoop]
  | cons x xs ih =>
    have hx : IsUint64 x := hu x (List.mem_cons_self _ _)
    have hq : riceQuot m x ≤ x := by
      unfold riceQuot
      split
      · rw [Nat.shiftRight_eq_div_pow]; exact Nat.div_le_self _ _
      · exact Nat.div_le_self _ _
    simp only [codewords, codeword, List.append_assoc, List.cons_append] at h
    have hlen : riceQuot m x + 1 ≤ 8 * data.length + 1 := by
      have := congrArg List.length h
      simp only [List.length_drop, bitsOf_length, List.length_append, List.length_replicate,
        List.length_cons] at this
      omega
    unfold IsUint64 at hx
    obtain ⟨rd1, e1, e2, e3⟩ := readQuotient_spec (riceQuot m x) (8 * data.length + 1) 0 hrd h
      hlen (by omega)
    have hrem := riceRem_lt hm x
    have hr0 : 0 * 2 ^ bitsNeeded m + riceRem m x % 2 ^ bitsNeeded m = riceRem m x := by
      rw [Nat.mod_eq_of_lt hrem]; omega
    have hrle : riceRem m x ≤ x := by
      unfold riceRem
      split
      · exact Nat.and_le_left
      · exact Nat.mod_le _ _
    obtain ⟨rd2, g1, g2, g3⟩ := readRemainder_spec (riceRem m x) (bitsNeeded m) 0 e2 e3
      (by rw [hr0]; omega)
    rw [hr0] at g1
    simp only [List.length_cons, decodeLoop, e1, Nat.zero_add, g1]
    rw [rice_value hm (by unfold IsUint64; exact hx),
      ih (fun y hy => hu y (List.mem_cons_of_mem _ hy)) (acc ++ [x]) g2 g3]
    simp

/-- Golomb-Rice round trip on the parameters of `RiceOK`, for an array that the allocator can
hold (at most `2^45` values). -/
theorem golombRice_round_trip_of_riceOK {m : Int} (hm : RiceOK m) (u : List Nat)
    (hne : u ≠ []) (hu : ∀ x ∈ u, IsUint64 x) (hcap : u.length ≤ 35184372088832) :
    ∃ p, GolombRiceEncode u m = .ok p ∧ p.ValueCount = (u.length : Int) ∧ p.Data ≠ [] ∧
      GolombRiceDecode p.Data p.BitCount p.ValueCount m = .ok u := by
  have hlen : ¬ u.length = 0 := by simpa using hne
  have hmpos : ¬ m ≤ 0 := by have := hm.1; omega
  obtain ⟨pad, hbits⟩ := encode_bits m u
  refine ⟨⟨flush (List.foldl (encodeValue m) BitWriter.init u),
      (List.foldl (encodeValue m) BitWriter.init u).totalBits, (u.length : Int)⟩,
    by simp only [GolombRiceEncode, if_neg hlen, if_neg hmpos], rfl, ?_, ?_⟩
  · intro hnil
    simp only [] at hnil
    rw [hnil] at hbits
    match u, hne with
    | x :: xs, _ =>
      have := congrArg List.length hbits
      simp [bitsOf, codewords, codeword] at this
      omega
  · simp only []
    have hdata : ¬ (flush (List.foldl (encodeValue m) BitWriter.init u)).length = 0 := by
      intro h0
      rw [List.length_eq_zero] at h0
      rw [h0] at hbits
      match u, hne with
      | x :: xs, _ =>
        have := congrArg List.length hbits
        simp [bitsOf, codewords, codeword] at this
        omega
    have hcnt : ¬ (u.length : Int) ≤ 0 := by omega
    have hmem : ¬ 8 * (u.length : Int) > maxAlloc := by unfold maxAlloc; omega
    simp only [GolombRiceDecode, if_neg hdata, if_neg hmpos, if_neg hcnt, if_neg hmem,
      Int.toNat_ofNat]
    have := @decodeLoop_spec (flush (List.foldl (encodeValue m) BitWriter.init u)) m hm u hu
      ⟨0, 0⟩ [] (List.replicate pad 0) (by decide)
      (by simpa [BitReader.pos] using hbits)
    simpa using this

set_option maxRecDepth 100000 in
/-- Evaluation of the library logarithm on the odd values `x` with `0 ≤ x < 32`
(`x ≠ 1`), see `log2_odd`. -/
theorem log2_odd_0 : ∀ i < 32, (0 + i) % 2 = 1 → (0 + i) ≠ 1 → ∀ e < 9, bitLen (0 + i) ≤ e →
    (F64.toInt64 (F64.ceil (F64.add
      (F64.mul (Log (.fin false ((0 + i) * 2 ^ (53 - bitLen (0 + i))) (-53))) invLn2)
      (F64.ofInt64 (Int.ofNat e))))).toNat = e := by
  decide!

set_option maxRecDepth 100000 in
/-- Evaluation of the library logarithm on the odd values `x` with `32 ≤ x < 64`
(`x ≠ 1`), see `log2_odd`. -/
theorem log2_odd_1 : ∀ i < 32, (32 + i) % 2 = 1 → (32 + i) ≠ 1 → ∀ e < 9, bitLen (32 + i) ≤ e →
    (F64.toInt64 (F64.ceil (F64.add
      (F64.mul (Log (.fin false ((32 + i) * 2 ^ (53 - bitLen (32 + i))) (-53))) invLn2)
      (F64.ofInt64 (Int.ofNat e))))).toNat = e := by
  decide!

set_option maxRecDepth 100000 in
/-- Evaluation of the library logarithm on the odd values `x` with `64 ≤ x < 96`
(`x ≠ 1`), see `log2_odd`. -/
theorem log2_odd_2 : ∀ i < 32, (64 + i) % 2 = 1 → (64 + i) ≠ 1 → ∀ e < 9, bitLen (64 + i) ≤ e →
    (F64.toInt64 (F64.ceil (F64.add
      (F64.mul (Log (.fin false ((64 + i) * 2 ^ (53 - bitLen (64 + i))) (-53))) invLn2)
      (F64.ofInt64 (Int.ofNat e))))).toNat = e := by
  decide!

set_option maxRecDepth 100000 in
/-- Evaluation of the library logarithm on the odd values `x` with `96 ≤ x < 128`
(`x ≠ 1`), see `log2_odd`. -/
theorem log2_odd_3 : ∀ i < 32, (96 + i) % 2 = 1 → (96 + i) ≠ 1 → ∀ e < 9, bitLen (96 + i) ≤ e →
    (F64.toInt64 (F64.ceil (F64.add
      (F64.mul (Log (.fin false ((96 + i) * 2 ^ (53 - bitLen (96 + i))) (-53))) invLn2)
      (F64.ofInt64 (Int.ofNat e))))).toNat = e := by
  decide!

set_option maxRecDepth 100000 in
/-- Evaluation of the library logarithm on the odd values `x` with `128 ≤ x < 160`
(`x ≠ 1`), see `log2_odd`. -/
theorem log2_odd_4 : ∀ i < 32, (128 + i) % 2 = 1 → (128 + i) ≠ 1 → ∀ e < 9, bitLen (128 + i) ≤ e →
    (F64.toInt64 (F64.ceil (F64.add
      (F64.mul (Log (.fin false ((128 + i) * 2 ^ (53 - bitLen (128 + i))) (-53))) invLn2)
      (F64.ofInt64 (Int.ofNat e))))).toNat = e := by
  decide!

set_option maxRecDepth 100000 in
/-- Evaluation of the library logarithm on the odd values `x` with `160 ≤ x < 192`
(`x ≠ 1`), see `log2_odd`. -/
theorem log2_odd_5 : ∀ i < 32, (160 + i) % 2 = 1 → (160 + i) ≠ 1 → ∀ e < 9, bitLen (160 + i) ≤ e →
    (F64.toInt64 (F64.ceil (F64.add
      (F64.mul (Log (.fin false ((160 + i) * 2 ^ (53 - bitLen (160 + i))) (-53))) invLn2)
      (F64.ofInt64 (Int.ofNat e))))).toNat = e := by
  decide!

set_option maxRecDepth 100000 in
/-- Evaluation of the library logarithm on the odd values `x` with `192 ≤ x < 224`
(`x ≠ 1`), see `log2_odd`. -/
theorem log2_odd_6 : ∀ i < 32, (192 + i) % 2 = 1 → (192 + i) ≠ 1 → ∀ e < 9, bitLen (192 + i) ≤ e →
    (F64.toInt64 (F64.ceil (F64.add
      (F64.mul (Log (.fin false ((192 + i) * 2 ^ (53 - bitLen (192 + i))) (-53))) invLn2)
      (F64.ofInt64 (Int.ofNat e))))).toNat = e := by
  decide!

set_option maxRecDepth 100000 in
/-- Evaluation of the library logarithm on the odd values `x` with `224 ≤ x < 256`
(`x ≠ 1`), see `log2_odd`. -/
theorem log2_odd_7 : ∀ i < 32, (224 + i) % 2 = 1 → (224 + i) ≠ 1 → ∀ e < 9, bitLen (224 + i) ≤ e →
    (F64.toInt64 (F64.ceil (F64.add
      (F64.mul (Log (.fin false ((224 + i) * 2 ^ (53 - bitLen (224 + i))) (-53))) invLn2)
      (F64.ofInt64 (Int.ofNat e))))).toNat = e := by
  decide!

/-- For an odd `x` with `1 < x < 256`, the significand of `x` under `Frexp` and every exponent
`e` from the bit length of `x` to 8: the computed `Log(frac) * (1/Ln2) + e` lies above `e - 1`
and not above `e`, so its ceiling is `e`. -/
theorem log2_odd (x : Nat) (hx : x < 256) (hodd : x % 2 = 1) (h1 : x ≠ 1) (e : Nat) (he : e < 9)
    (hle : bitLen x ≤ e) :
    (F64.toInt64 (F64.ceil (F64.add
      (F64.mul (Log (.fin false (x * 2 ^ (53 - bitLen x)) (-53))) invLn2)
      (F64.ofInt64 (Int.ofNat e))))).toNat = e := by
  have hj : x / 32 < 8 := by omega
  interval_cases hq : x / 32
  · have e0 : x = 0 + (x - 0) := by omega
    rw [e0] at hodd h1 hle ⊢
    exact log2_odd_0 (x - 0) (by omega) hodd h1 e he hle
  · have e0 : x = 32 + (x - 32) := by omega
    rw [e0] at hodd h1 hle ⊢
    exact log2_odd_1 (x - 32) (by omega) hodd h1 e he hle
  · have e0 : x = 64 + (x - 64) := by omega
    rw [e0] at hodd h1 hle ⊢
    exact log2_odd_2 (x - 64) (by omega) hodd h1 e he hle
  · have e0 : x = 96 + (x - 96) := by omega
    rw [e0] at hodd h1 hle ⊢
    exact log2_odd_3 (x - 96) (by omega) hodd h1 e he hle
  · have e0 : x = 128 + (x - 128) := by omega
    rw [e0] at hodd h1 hle ⊢
    exact log2_odd_4 (x - 128) (by omega) hodd h1 e he hle
  · have e0 : x = 160 + (x - 160) := by omega
    rw [e0] at hodd h1 hle ⊢
    exact log2_odd_5 (x - 160) (by omega) hodd h1 e he hle
  · have e0 : x = 192 + (x - 192) := by omega
    rw [e0] at hodd h1 hle ⊢
    exact log2_odd_6 (x - 192) (by omega) hodd h1 e he hle
  · have e0 : x = 224 + (x - 224) := by omega
    rw [e0] at hodd h1 hle ⊢
    exact log2_odd_7 (x - 224) (by omega) hodd h1 e he hle

set_option maxRecDepth 100000 in
/-- `Frexp(float64(n))` for `1 ≤ n < 256`: the significand is that of the odd part `x` of `n`
and the exponent is the bit length of `n`; when `x = 1`, `n` is a power of two, on which
`math.Log2` returns the exponent. -/
theorem frexp_byte : ∀ n < 256, 1 ≤ n →
    Frexp (F64.ofInt64 (Int.ofNat n)) =
      (.fin false (n / 2 ^ trailingZerosAux 64 n *
        2 ^ (53 - bitLen (n / 2 ^ trailingZerosAux 64 n))) (-53), Int.ofNat (bitLen n)) ∧
    bitLen (n / 2 ^ trailingZerosAux 64 n) ≤ bitLen n ∧ bitLen n < 9 ∧
    n / 2 ^ trailingZerosAux 64 n < 256 ∧
    (n / 2 ^ trailingZerosAux 64 n) % 2 = 1 ∧
    (n / 2 ^ trailingZerosAux 64 n = 1 → bitsNeeded (Int.ofNat n) = ceilLog2 n) ∧
    (n / 2 ^ trailingZerosAux 64 n ≠ 1 → ceilLog2 n = bitLen n ∧
      F64.eq (.fin false (n / 2 ^ trailingZerosAux 64 n *
        2 ^ (53 - bitLen (n / 2 ^ trailingZerosAux 64 n))) (-53)) F64.half = false) := by
  decide!

/-- On the parameters that fit in the header byte the library logarithm gives the exact
`ceil(log2(m))`. -/
theorem bitsNeeded_byte (n : Nat) (hn : n < 256) (h1 : 1 ≤ n) :
    bitsNeeded (Int.ofNat n) = ceilLog2 n := by
  obtain ⟨g1, g2, g3, g4, g5, g6, g7⟩ := frexp_byte n hn h1
  by_cases hx : n / 2 ^ trailingZerosAux 64 n = 1
  · exact g6 hx
  · obtain ⟨g8, g9⟩ := g7 hx
    have hL := log2_odd _ g4 g5 hx (bitLen n) g3 g2
    unfold bitsNeeded Log2
    rw [g1]
    dsimp only
    rw [g9, g8, if_neg (by decide)]
    exact hL

set_option maxRecDepth 100000 in
theorem riceOK_fin : ∀ n < 256, 1 ≤ n →
    (toUint64 (Int.ofNat n) ≤ 2 ^ ceilLog2 n ∧
      (isPow2 (Int.ofNat n) = true → toUint64 (Int.ofNat n) = 2 ^ TrailingZeros (Int.ofNat n))) := by
  decide

theorem riceOK_of_le_255 {m : Int} (h1 : 1 ≤ m) (h2 : m ≤ 255) : RiceOK m := by
  obtain ⟨n, rfl⟩ := Int.eq_ofNat_of_zero_le (by omega : 0 ≤ m)
  have hn : n < 256 := by omega
  have h := riceOK_fin n hn (by omega)
  have hb : bitsNeeded (n : Int) = ceilLog2 n := bitsNeeded_byte n hn (by omega)
  exact ⟨h1, by omega, by rw [hb]; exact h.1, h.2⟩

set_option maxRecDepth 100000 in
/-- On the powers of two that are `int` values the library logarithm is exact. -/
theorem bitsNeeded_pow2 : ∀ k < 63, bitsNeeded ((2 : Int) ^ k) = k := by
  decide!

set_option maxRecDepth 100000 in
/-- The library logarithm is not exact everywhere: at `m = 2^49 + 1` the sum
`Log(frac) * (1/Ln2) + 50` rounds to `49`, so `bitsNeeded` is 49 where `ceil(log2(m))` is 50;
at `m = 2^49 + 2` it is 50. -/
theorem bitsNeeded_two_pow_49_succ :
    Log2 (F64.ofInt64 562949953421313) = F64.ofInt64 49 ∧
    bitsNeeded 562949953421313 = 49 ∧ ceilLog2 562949953421313 = 50 ∧
    bitsNeeded 562949953421314 = 50 := by
  decide!

/-! ## Header -/

theorem marshal_length (h : Header) : h.Marshal.length = 24 := by
  simp [Header.Marshal, putUint64, putUint32]

theorem getUint64_putUint64 (pre post : List Nat) (v : Nat) (hv : v < 18446744073709551616) :
    getUint64 (pre ++ putUint64 v ++ post) pre.length = v := by
  unfold getUint64 putUint64
  simp only [List.append_assoc, List.getD_eq_getElem?_getD, List.getElem?_append_right,
    Nat.le_add_right, Nat.le_refl, Nat.sub_self, Nat.add_sub_cancel_left, List.cons_append,
    List.getElem?_cons_zero, List.getElem?_cons_succ, Option.getD_some]
  omega

theorem getUint32_putUint32 (pre post : List Nat) (v : Nat) (hv : v < 4294967296) :
    getUint32 (pre ++ putUint32 v ++ post) pre.length = v := by
  unfold getUint32 putUint32
  simp only [List.append_assoc, List.getD_eq_getElem?_getD, List.getElem?_append_right,
    Nat.le_add_right, Nat.le_refl, Nat.sub_self, Nat.add_sub_cancel_left, List.cons_append,
    List.getElem?_cons_zero, List.getElem?_cons_succ, Option.getD_some]
  omega

theorem toInt64_toUint64 {x : Int} (h : IsInt64 x) : toInt64 (toUint64 x) = x := by
  unfold IsInt64 at h
  unfold toInt64 toUint64 wrap64
  omega

theorem toUint64_lt (x : Int) : toUint64 x < 18446744073709551616 := by
  unfold toUint64; omega

/-- What `Unmarshal` reads from a buffer that starts with a marshalled header, whatever the
fields of the header: the low bytes of `Mode`, `RiceParam` and `ALPExp`, the `int64` values of
`First` and `Second`, and `ValueCount` modulo `2^32`. -/
theorem unmarshal_marshal_raw (h : Header) (payload : List Nat) :
    Unmarshal (h.Marshal ++ payload) =
      .ok ⟨ModeFromByte (toByte h.Mode), (toByte h.RiceParam : Int), (toByte h.ALPExp : Int),
        toInt64 (toUint64 h.First), toInt64 (toUint64 h.Second),
        ((h.ValueCount % 4294967296).toNat : Int)⟩ := by
  have hlen : ¬ (h.Marshal ++ payload).length < HeaderSize := by
    simp [marshal_length, HeaderSize]
  unfold Unmarshal
  rw [if_neg hlen]
  have h0 : (h.Marshal ++ payload).getD 0 0 = toByte h.Mode := by
    simp [Header.Marshal, Mode.Byte]
  have h1 : (h.Marshal ++ payload).getD 1 0 = toByte h.RiceParam := by
    simp [Header.Marshal]
  have h2 : (h.Marshal ++ payload).getD 2 0 = toByte h.ALPExp := by
    simp [Header.Marshal]
  have h4 : getUint64 (h.Marshal ++ payload) 4 = toUint64 h.First := by
    have := getUint64_putUint64 [Mode.Byte h.Mode, toByte h.RiceParam, toByte h.ALPExp, 0]
      (putUint64 (toUint64 h.Second) ++ putUint32 ((h.ValueCount % 4294967296).toNat) ++ payload)
      (toUint64 h.First) (toUint64_lt _)
    simpa [Header.Marshal, List.append_assoc] using this
  have h12 : getUint64 (h.Marshal ++ payload) 12 = toUint64 h.Second := by
    have := getUint64_putUint64
      ([Mode.Byte h.Mode, toByte h.RiceParam, toByte h.ALPExp, 0] ++ putUint64 (toUint64 h.First))
      (putUint32 ((h.ValueCount % 4294967296).toNat) ++ payload)
      (toUint64 h.Second) (toUint64_lt _)
    simpa [Header.Marshal, List.append_assoc, putUint64] using this
  have h20 : getUint32 (h.Marshal ++ payload) 20 = (h.ValueCount % 4294967296).toNat := by
    have := getUint32_putUint32
      ([Mode.Byte h.Mode, toByte h.RiceParam, toByte h.ALPExp, 0] ++ putUint64 (toUint64 h.First)
        ++ putUint64 (toUint64 h.Second))
      payload ((h.ValueCount % 4294967296).toNat) (by omega)
    simpa [Header.Marshal, List.append_assoc, putUint64] using this
  rw [h0, h1, h2, h4, h12, h20]

/-- The header is read back from any buffer that starts with its marshalled form. -/
theorem unmarshal_marshal_append (h : Header) (payload : List Nat)
    (hmode : 0 ≤ h.Mode ∧ h.Mode < 256) (hrice : 0 ≤ h.RiceParam ∧ h.RiceParam < 256)
    (halp : 0 ≤ h.ALPExp ∧ h.ALPExp < 256) (hfirst : IsInt64 h.First)
    (hsecond : IsInt64 h.Second) (hcount : 0 ≤ h.ValueCount ∧ h.ValueCount < 4294967296) :
    Unmarshal (h.Marshal ++ payload) = .ok h := by
  rw [unmarshal_marshal_raw, toInt64_toUint64 hfirst, toInt64_toUint64 hsecond]
  have e0 : ModeFromByte (toByte h.Mode) = h.Mode := by
    unfold ModeFromByte toByte; omega
  have e1 : ((toByte h.RiceParam : Nat) : Int) = h.RiceParam := by unfold toByte; omega
  have e2 : ((toByte h.ALPExp : Nat) : Int) = h.ALPExp := by unfold toByte; omega
  have e3 : (((h.ValueCount % 4294967296).toNat : Nat) : Int) = h.ValueCount := by omega
  rw [e0, e1, e2, e3]

/-- C6. Header round trip: for every header whose fields are in the data-model ranges (mode 0 or
1, Rice parameter in 1..255, ALP exponent in 0..17, `int64` first and second values, value count
below 2^32), `Unmarshal` of `Marshal` succeeds and returns the header, equal in every field. -/
theorem header_round_trip (h : Header) (hmode : h.Mode = 0 ∨ h.Mode = 1)
    (hrice : 1 ≤ h.RiceParam ∧ h.RiceParam ≤ 255) (halp : 0 ≤ h.ALPExp ∧ h.ALPExp ≤ 17)
    (hfirst : IsInt64 h.First) (hsecond : IsInt64 h.Second)
    (hcount : 0 ≤ h.ValueCount ∧ h.ValueCount < 4294967296) :
    Unmarshal h.Marshal = .ok h := by
  have := unmarshal_marshal_append h [] (by omega) (by omega) (by omega) hfirst hsecond hcount
  simpa using this

/-- Witness for C6 on a header with boundary field values. -/
theorem header_round_trip_witness :
    Unmarshal (Header.Marshal ⟨1, 255, 17, -9223372036854775808, 9223372036854775807,
      4294967295⟩) =
      .ok ⟨1, 255, 17, -9223372036854775808, 9223372036854775807, 4294967295⟩ :=
  header_round_trip ⟨1, 255, 17, -9223372036854775808, 9223372036854775807, 4294967295⟩
    (by decide) (by decide) (by decide) (by decide) (by decide) (by decide)

/-! ## The integer pipeline -/

theorem deltaLoop_length (a b : Int) (rest : List Int) :
    (deltaLoop (a :: b :: rest)).length = rest.length := by
  induction rest generalizing a b with
  | nil => simp [deltaLoop]
  | cons c rest ih => simp [deltaLoop, ih]

theorem deltaLoop_isInt64 (v : List Int) : ∀ n ∈ deltaLoop v, IsInt64 n := by
  match v with
  | [] => simp [deltaLoop]
  | [_] => simp [deltaLoop]
  | [_, _] => simp [deltaLoop]
  | a :: b :: c :: rest =>
    intro n hn
    simp only [deltaLoop, List.mem_cons] at hn
    rcases hn with rfl | hn
    · exact wrap64_isInt64 _
    · exact deltaLoop_isInt64 (b :: c :: rest) n hn

theorem autoRiceParam_range (deltas : List Int) :
    1 ≤ AutoRiceParam deltas ∧ AutoRiceParam deltas ≤ 64 := by
  unfold AutoRiceParam
  split
  · omega
  · constructor
    · exact le_min (le_max_right _ _) (by decide)
    · exact min_le_right _ _

theorem golombRiceDecode_bitCount (data : List Nat) (b1 b2 c m : Int) :
    GolombRiceDecode data b1 c m = GolombRiceDecode data b2 c m := rfl

/-- `decodeScaled` on a buffer that starts with a marshalled valid header: the checks on the
header pass or fail on the mode and the remaining stages run on the payload. -/
theorem decodeScaled_marshal_append (mode : Int) (h : Header) (payload : List Nat)
    (hmode : 0 ≤ h.Mode ∧ h.Mode < 256) (hrice : 1 ≤ h.RiceParam ∧ h.RiceParam < 256)
    (halp : 0 ≤ h.ALPExp ∧ h.ALPExp < 256) (hfirst : IsInt64 h.First)
    (hsecond : IsInt64 h.Second) (hcount : 2 ≤ h.ValueCount ∧ h.ValueCount < 4294967296) :
    decodeScaled mode (h.Marshal ++ payload) =
      if h.Mode ≠ mode then .error .modeMismatch
      else
        match (if h.ValueCount - 2 > 0 then
            GolombRiceDecode payload 0 (h.ValueCount - 2) h.RiceParam
          else .ok []) with
        | .error e => .error e
        | .ok zigzagged =>
          match (if zigzagged.length > 0 then ZigZagDecode zigzagged else .ok []) with
          | .error e => .error e
          | .ok deltas =>
            match DeltaDecode deltas h.First h.Second with
            | .error e => .error e
            | .ok scaled => .ok (h, scaled) := by
  have hsize : ¬ (h.Marshal ++ payload).length < HeaderSize := by
    simp [marshal_length, HeaderSize]
  have hum := unmarshal_marshal_append h payload hmode (by omega) halp hfirst hsecond
    (by omega)
  have hval : h.Validate = .ok () := by
    unfold Header.Validate
    rw [if_neg (by omega), if_neg (by omega)]
  have hdrop : (h.Marshal ++ payload).drop HeaderSize = payload := by
    rw [List.drop_append_of_le_length (by simp [marshal_length, HeaderSize])]
    rw [List.drop_of_length_le (by simp [marshal_length, HeaderSize])]
    rfl
  unfold decodeScaled
  rw [if_neg hsize, hum]
  simp only []
  rw [hval]
  simp only [hdrop]

/-- The bytes produced by `encodeTail` from the residuals of an `int64` sequence are decoded by
`decodeScaled` to the header that was written and to the sequence itself. -/
theorem decodeScaled_encodeTail (mode rice alpExp a b : Int) (rest : List Int)
    (hmode : 0 ≤ mode ∧ mode < 256) (hrice : 1 ≤ rice ∧ rice ≤ 255)
    (halp : 0 ≤ alpExp ∧ alpExp < 256) (hv : ∀ n ∈ a :: b :: rest, IsInt64 n)
    (hlen : (a :: b :: rest).length < 4294967296) :
    ∃ out,
      encodeTail mode rice alpExp a b ((a :: b :: rest).length : Int)
        (deltaLoop (a :: b :: rest)) = .ok out ∧
      decodeScaled mode out =
        .ok (⟨mode, rice, alpExp, a, b, ((a :: b :: rest).length : Int)⟩, a :: b :: rest) := by
  have ha : IsInt64 a := hv a (by simp)
  have hb : IsInt64 b := hv b (by simp)
  have hrest : ∀ n ∈ rest, IsInt64 n := fun n hn => hv n (by simp [hn])
  have hcnt : (2 : Int) ≤ ((a :: b :: rest).length : Int) ∧
      ((a :: b :: rest).length : Int) < 4294967296 := by
    constructor
    · simp only [List.length_cons]; omega
    · omega
  have hds := fun payload => decodeScaled_marshal_append mode
    ⟨mode, rice, alpExp, a, b, ((a :: b :: rest).length : Int)⟩ payload hmode
    (by simp only; omega) halp ha hb hcnt
  simp only [ne_eq, not_true_eq_false, if_false] at hds
  have hund := undeltaLoop_deltaLoop a b rest ha hb hrest
  have hdl := deltaLoop_length a b rest
  have hvc : ((a :: b :: rest).length : Int) - 2 = (rest.length : Int) := by
    simp only [List.length_cons]; omega
  rw [hvc] at hds
  generalize ((a :: b :: rest).length : Int) = cnt at hds ⊢
  by_cases hnil : rest = []
  · subst hnil
    refine ⟨Header.Marshal ⟨mode, rice, alpExp, a, b, cnt⟩ ++ [], ?_, ?_⟩
    · simp only [encodeTail, deltaLoop, List.length_nil, gt_iff_lt, lt_self_iff_false, if_false]
    · rw [hds]
      simp only [List.length_nil, Nat.cast_zero, gt_iff_lt, lt_self_iff_false, if_false,
        DeltaDecode, undeltaLoop]
  · have hdne : deltaLoop (a :: b :: rest) ≠ [] := by
      intro h0
      have := congrArg List.length h0
      rw [hdl] at this
      simp at this
      exact hnil this
    have hzne : (deltaLoop (a :: b :: rest)).map zigZagEncode1 ≠ [] := by
      simpa using hdne
    have hzu : ∀ x ∈ (deltaLoop (a :: b :: rest)).map zigZagEncode1, IsUint64 x := by
      intro x hx
      obtain ⟨n, -, rfl⟩ := List.mem_map.mp hx
      exact zigZagEncode1_lt n
    obtain ⟨p, hp1, hp2, hp3, hp4⟩ := golombRice_round_trip_of_riceOK
      (riceOK_of_le_255 hrice.1 hrice.2) _ hzne hzu
      (by rw [List.length_map, hdl]; simp only [List.length_cons] at hlen; omega)
    have hdpos : (deltaLoop (a :: b :: rest)).length > 0 := List.length_pos.mpr hdne
    have hzpos : ((deltaLoop (a :: b :: rest)).map zigZagEncode1).length > 0 :=
      List.length_pos.mpr hzne
    have henc : ZigZagEncode (deltaLoop (a :: b :: rest)) =
        .ok ((deltaLoop (a :: b :: rest)).map zigZagEncode1) := by
      unfold ZigZagEncode
      rw [if_neg (by omega)]
    refine ⟨Header.Marshal ⟨mode, rice, alpExp, a, b, cnt⟩ ++ p.Data, ?_, ?_⟩
    · unfold encodeTail
      rw [if_pos hdpos, henc]
      simp only []
      rw [if_pos hzpos, hp1]
    · have hrl : rest.length > 0 := by rw [← hdl]; exact hdpos
      have hp2' : p.ValueCount = (rest.length : Int) := by
        rw [hp2]; simp [hdl]
      have hdec : GolombRiceDecode p.Data 0 (rest.length : Int) rice =
          .ok ((deltaLoop (a :: b :: rest)).map zigZagEncode1) := by
        rw [← hp2', golombRiceDecode_bitCount p.Data 0 p.BitCount]
        exact hp4
      have hzd : ZigZagDecode ((deltaLoop (a :: b :: rest)).map zigZagEncode1) =
          .ok (deltaLoop (a :: b :: rest)) := by
        unfold ZigZagDecode
        rw [if_neg (by omega), map_zigZag_decode_encode (deltaLoop_isInt64 _)]
      rw [hds]
      rw [if_pos (by omega), hdec]
      simp only []
      rw [if_pos hzpos, hzd]
      simp only [DeltaDecode, hund]

/-- C1. Integer round trip: for every `int64` sequence `v` with `2 ≤ len(v) < 2^32` and every
Rice option that is auto (`≤ 0`) or explicit in `1..255`,
`NewIntEncoder(v).WithRiceParam(r).Encode()` succeeds and `NewDecoder(out).DecodeInt()` succeeds
and returns exactly `v`. -/
theorem int_round_trip (v : List Int) (r : Int) (hlen : 2 ≤ v.length)
    (hlen2 : v.length < 4294967296) (hv : ∀ n ∈ v, IsInt64 n)
    (hr : r ≤ 0 ∨ (1 ≤ r ∧ r ≤ 255)) :
    ∃ out, ((NewIntEncoder v).WithRiceParam r).Encode = .ok out ∧
      (NewDecoder out).DecodeInt = .ok v := by
  match v, hlen, hlen2, hv with
  | a :: b :: rest, _, hlen2, hv =>
    have hrange : 1 ≤ (if r ≤ 0 ∨ false = true then AutoRiceParam (a :: b :: rest) else r) ∧
        (if r ≤ 0 ∨ false = true then AutoRiceParam (a :: b :: rest) else r) ≤ 255 := by
      have := autoRiceParam_range (a :: b :: rest)
      split <;> omega
    obtain ⟨out, h1, h2⟩ := decodeScaled_encodeTail ModeInt
      (if r ≤ 0 ∨ false = true then AutoRiceParam (a :: b :: rest) else r) 0 a b rest
      (by decide) hrange (by decide) hv hlen2
    refine ⟨out, ?_, ?_⟩
    · simp only [IntEncoder.Encode, NewIntEncoder, IntEncoder.WithRiceParam, encodeScaled,
        DeltaEncode]
      rw [if_neg (by simp)]
      exact h1
    · simp only [Decoder.DecodeInt, NewDecoder, h2]

/-- Witness for C1 on a sequence with `INT64_MAX`, with an explicit Rice parameter. -/
theorem int_round_trip_witness :
    ∃ out, ((NewIntEncoder [9223372036854775807, 9223372036854775806, 9223372036854775807]
        ).WithRiceParam 255).Encode = .ok out ∧
      (NewDecoder out).DecodeInt =
        .ok [9223372036854775807, 9223372036854775806, 9223372036854775807] :=
  int_round_trip [9223372036854775807, 9223372036854775806, 9223372036854775807] 255
    (by decide) (by decide) (by decide) (by decide)

set_option maxRecDepth 100000 in
/-- C3 (evaluation at the failing input). With `m = 2^53 + 1` the conversion `float64(m)` rounds to
`2^53`, so `bitsNeeded` is 53 although remainders modulo `m` need 54 bits: the value `2^53` is
encoded as a one followed by 53 zero bits and decoded as `0`. -/
theorem golombRice_round_trip_fails :
    bitsNeeded 9007199254740993 = 53 ∧
    GolombRiceEncode [9007199254740992] 9007199254740993 =
      .ok ⟨[128, 0, 0, 0, 0, 0, 0], 54, 1⟩ ∧
    GolombRiceDecode [128, 0, 0, 0, 0, 0, 0] 54 1 9007199254740993 = .ok [0] := by
  decide

/-! ## Encoders: the shape of the output -/

theorem golombRiceEncode_ok (zz : List Nat) (m : Int) (hne : zz ≠ []) (hm : 1 ≤ m) :
    ∃ p, GolombRiceEncode zz m = .ok p := by
  unfold GolombRiceEncode
  rw [if_neg (by simpa using hne), if_neg (by omega)]
  exact ⟨_, rfl⟩

/-- `encodeTail` never fails for a positive Rice parameter; without residuals the output is the
header alone, otherwise the header is followed by the Golomb-Rice coding, with the given
parameter, of the ZigZag-mapped residuals. -/
theorem encodeTail_ok (mode rice alpExp first second cnt : Int) (deltas : List Int)
    (hr : 1 ≤ rice) :
    ∃ payload,
      encodeTail mode rice alpExp first second cnt deltas =
        .ok (Header.Marshal ⟨mode, rice, alpExp, first, second, cnt⟩ ++ payload) ∧
      (deltas = [] → payload = []) ∧
      (deltas ≠ [] → ∃ zz p, ZigZagEncode deltas = .ok zz ∧
        GolombRiceEncode zz rice = .ok p ∧ payload = p.Data) := by
  by_cases hd : deltas = []
  · subst hd
    refine ⟨[], ?_, fun _ => rfl, fun h => absurd rfl h⟩
    simp only [encodeTail, List.length_nil, gt_iff_lt, lt_self_iff_false, if_false]
  · have hdpos : deltas.length > 0 := List.length_pos.mpr hd
    have hzne : deltas.map zigZagEncode1 ≠ [] := by simpa using hd
    have hzpos : (deltas.map zigZagEncode1).length > 0 := List.length_pos.mpr hzne
    have henc : ZigZagEncode deltas = .ok (deltas.map zigZagEncode1) := by
      unfold ZigZagEncode
      rw [if_neg (by omega)]
    obtain ⟨p, hp⟩ := golombRiceEncode_ok _ rice hzne hr
    refine ⟨p.Data, ?_, fun h => absurd h hd, fun _ => ⟨_, p, henc, hp, rfl⟩⟩
    unfold encodeTail
    rw [if_pos hdpos, henc]
    simp only []
    rw [if_pos hzpos, hp]

theorem deltaEncode_ok (a b : Int) (rest : List Int) :
    DeltaEncode (a :: b :: rest) = .ok (deltaLoop (a :: b :: rest), a, b) := rfl

theorem deltaLoop_ne_nil (a b c : Int) (rest : List Int) :
    deltaLoop (a :: b :: c :: rest) ≠ [] := by
  simp [deltaLoop]

theorem alpEncode_length {input : List F64} {exponent : Int} {scaled : List Int} {exp : Int}
    (h : ALPEncode input exponent = .ok (scaled, exp)) : scaled.length = input.length := by
  unfold ALPEncode at h
  by_cases h0 : input.length = 0
  · rw [if_pos h0] at h; cases h
  · rw [if_neg h0] at h
    dsimp only at h
    by_cases h1 : (if exponent < 0 then detectPrecision input else exponent) ≥ 18
    · rw [if_pos h1] at h; cases h
    · rw [if_neg h1] at h
      simp only [Except.ok.injEq, Prod.mk.injEq] at h
      rw [← h.1]
      simp

theorem marshal_getD_one (h : Header) (payload : List Nat) :
    (h.Marshal ++ payload).getD 1 0 = toByte h.RiceParam := by
  simp [Header.Marshal]

theorem toByte_of_le_255 {r : Int} (h1 : 1 ≤ r) (h2 : r ≤ 255) : toByte r = r.toNat := by
  unfold toByte; omega

/-- The output of `encodeScaled` on at least three values when the Rice parameter is the
explicit value `r` in `1..255`. -/
theorem encodeScaled_explicit (mode r exp : Int) (scaled : List Int) (cnt : Int)
    (rice : List Int → Int) (hrice : ∀ d, rice d = r)
    (hlen : 3 ≤ scaled.length) (hr1 : 1 ≤ r) (hr2 : r ≤ 255) :
    ∃ deltas first second zz p,
      DeltaEncode scaled = .ok (deltas, first, second) ∧ ZigZagEncode deltas = .ok zz ∧
      GolombRiceEncode zz r = .ok p ∧
      encodeScaled mode exp scaled cnt rice =
        .ok (Header.Marshal ⟨mode, r, exp, first, second, cnt⟩ ++ p.Data) ∧
      (Header.Marshal ⟨mode, r, exp, first, second, cnt⟩ ++ p.Data).getD 1 0 = r.toNat := by
  match scaled, hlen with
  | a :: b :: c :: rest, _ =>
    obtain ⟨payload, h1, -, h3⟩ := encodeTail_ok mode r exp a b cnt
      (deltaLoop (a :: b :: c :: rest)) hr1
    obtain ⟨zz, p, hz, hp, rfl⟩ := h3 (deltaLoop_ne_nil a b c rest)
    refine ⟨_, a, b, zz, p, deltaEncode_ok a b (c :: rest), hz, hp, ?_, ?_⟩
    · unfold encodeScaled
      rw [deltaEncode_ok]
      dsimp only
      rw [hrice]
      exact h1
    · rw [marshal_getD_one]; exact toByte_of_le_255 hr1 hr2

/-- Explicit Rice hints in `1..255` are used unchanged: for every input of at least three samples
the encoders `IntEncoder.Encode`, `Encode` and `FloatEncoder.Encode` (the latter two when they
succeed) code the ZigZag-mapped residuals with the hint itself and write the hint in the header's
`rice_param` byte. -/
theorem explicit_rice_used :
    (∀ (v : List Int) (r : Int), 3 ≤ v.length → 1 ≤ r → r ≤ 255 →
      ∃ deltas first second zz p,
        DeltaEncode v = .ok (deltas, first, second) ∧ ZigZagEncode deltas = .ok zz ∧
        GolombRiceEncode zz r = .ok p ∧
        ((NewIntEncoder v).WithRiceParam r).Encode =
          .ok (Header.Marshal ⟨ModeInt, r, 0, first, second, (v.length : Int)⟩ ++ p.Data) ∧
        (Header.Marshal ⟨ModeInt, r, 0, first, second, (v.length : Int)⟩ ++ p.Data).getD 1 0 =
          r.toNat) ∧
    (∀ (v : List F64) (opts : Options) (out : List Nat), 3 ≤ v.length →
      1 ≤ opts.RiceParam → opts.RiceParam ≤ 255 → Encode v opts = .ok out →
      ∃ scaled exp deltas first second zz p,
        ALPEncode v (if opts.ALPExponent = 0 then -1 else opts.ALPExponent) = .ok (scaled, exp) ∧
        DeltaEncode scaled = .ok (deltas, first, second) ∧ ZigZagEncode deltas = .ok zz ∧
        GolombRiceEncode zz opts.RiceParam = .ok p ∧
        out = Header.Marshal ⟨ModeFloat, opts.RiceParam, exp, first, second, (v.length : Int)⟩ ++
          p.Data ∧
        out.getD 1 0 = opts.RiceParam.toNat) ∧
    (∀ (e : FloatEncoder) (out : List Nat), 3 ≤ e.data.length →
      1 ≤ e.riceParam → e.riceParam ≤ 255 → e.autoRiceParam = false → e.Encode = .ok out →
      ∃ scaled exp deltas first second zz p,
        ALPEncode e.data
          (if e.autoPrecision then -1 else if e.precision = 0 then -1 else e.precision) =
          .ok (scaled, exp) ∧
        DeltaEncode scaled = .ok (deltas, first, second) ∧ ZigZagEncode deltas = .ok zz ∧
        GolombRiceEncode zz e.riceParam = .ok p ∧
        out = Header.Marshal ⟨ModeFloat, e.riceParam, exp, first, second,
          (e.data.length : Int)⟩ ++ p.Data ∧
        out.getD 1 0 = e.riceParam.toNat) := by
  refine ⟨?_, ?_, ?_⟩
  · intro v r hlen hr1 hr2
    obtain ⟨deltas, first, second, zz, p, g1, g2, g3, g4, g5⟩ :=
      encodeScaled_explicit ModeInt r 0 v (v.length : Int) (fun _ => r) (fun _ => rfl)
        hlen hr1 hr2
    refine ⟨deltas, first, second, zz, p, g1, g2, g3, ?_, g5⟩
    simp only [IntEncoder.Encode, NewIntEncoder, IntEncoder.WithRiceParam]
    rw [if_neg (by omega), if_neg (by simp; omega)]
    exact g4
  · intro v opts out hlen hr1 hr2 h
    unfold Encode at h
    rw [if_neg (by omega)] at h
    dsimp only at h
    by_cases hmode : (if opts.Mode = 0 then ModeFloat else opts.Mode) ≠ ModeFloat
    · rw [if_pos hmode] at h; cases h
    · rw [if_neg hmode] at h
      have hm := not_not.mp hmode
      rw [hm] at h
      cases halp : ALPEncode v (if opts.ALPExponent = 0 then -1 else opts.ALPExponent) with
      | error err => rw [halp] at h; cases h
      | ok pr =>
        obtain ⟨scaled, exp⟩ := pr
        rw [halp] at h
        dsimp only at h
        have hsl : 3 ≤ scaled.length := by rw [alpEncode_length halp]; exact hlen
        obtain ⟨deltas, first, second, zz, p, g1, g2, g3, g4, g5⟩ :=
          encodeScaled_explicit ModeFloat opts.RiceParam exp scaled (v.length : Int)
            (fun deltas => if opts.RiceParam ≤ 0 then AutoRiceParam deltas else opts.RiceParam)
            (fun d => if_neg (by omega)) hsl hr1 hr2
        rw [g4] at h
        simp only [Except.ok.injEq] at h
        subst h
        exact ⟨scaled, exp, deltas, first, second, zz, p, rfl, g1, g2, g3, rfl, g5⟩
  · intro e out hlen hr1 hr2 hauto h
    unfold FloatEncoder.Encode at h
    rw [if_neg (by omega)] at h
    dsimp only at h
    cases halp : ALPEncode e.data
        (if e.autoPrecision then -1 else if e.precision = 0 then -1 else e.precision) with
    | error err => rw [halp] at h; cases h
    | ok pr =>
      obtain ⟨scaled, exp⟩ := pr
      rw [halp] at h
      dsimp only at h
      have hsl : 3 ≤ scaled.length := by rw [alpEncode_length halp]; exact hlen
      obtain ⟨deltas, first, second, zz, p, g1, g2, g3, g4, g5⟩ :=
        encodeScaled_explicit ModeFloat e.riceParam exp scaled (e.data.length : Int)
          (fun deltas =>
            if e.riceParam ≤ 0 ∨ e.autoRiceParam = true then AutoRiceParam deltas
            else e.riceParam)
          (fun d => if_neg (by rw [hauto]; simp; omega)) hsl hr1 hr2
      rw [g4] at h
      simp only [Except.ok.injEq] at h
      subst h
      exact ⟨scaled, exp, deltas, first, second, zz, p, rfl, g1, g2, g3, rfl, g5⟩

set_option exponentiation.threshold 10000 in
set_option maxRecDepth 100000 in
/-- The three encoders on three samples with the Rice hints 255 and 5. -/
theorem explicit_rice_used_witness :
    (∃ deltas first second zz p,
        DeltaEncode [0, 0, -128] = .ok (deltas, first, second) ∧
        ZigZagEncode deltas = .ok zz ∧ GolombRiceEncode zz 255 = .ok p ∧
        ((NewIntEncoder [0, 0, -128]).WithRiceParam 255).Encode =
          .ok (Header.Marshal ⟨ModeInt, 255, 0, first, second,
            (([0, 0, -128] : List Int).length : Int)⟩ ++ p.Data) ∧
        (Header.Marshal ⟨ModeInt, 255, 0, first, second,
          (([0, 0, -128] : List Int).length : Int)⟩ ++ p.Data).getD 1 0 = (255 : Int).toNat) ∧
    (∃ scaled exp deltas first second zz p,
        ALPEncode [F64.one, F64.ten, F64.one] (if (0 : Int) = 0 then -1 else 0) =
          .ok (scaled, exp) ∧
        DeltaEncode scaled = .ok (deltas, first, second) ∧ ZigZagEncode deltas = .ok zz ∧
        GolombRiceEncode zz 5 = .ok p ∧
        [0, 5, 1, 0, 0, 0, 0, 0, 0, 0, 0, 10, 0, 0, 0, 0, 0, 0, 0, 100, 0, 0, 0, 3,
          0, 0, 0, 0, 0, 0, 0, 0, 1, 128] =
          Header.Marshal ⟨ModeFloat, 5, exp, first, second,
            (([F64.one, F64.ten, F64.one] : List F64).length : Int)⟩ ++ p.Data ∧
        ([0, 5, 1, 0, 0, 0, 0, 0, 0, 0, 0, 10, 0, 0, 0, 0, 0, 0, 0, 100, 0, 0, 0, 3,
          0, 0, 0, 0, 0, 0, 0, 0, 1, 128] : List Nat).getD 1 0 = (5 : Int).toNat) ∧
    (∃ scaled exp deltas first second zz p,
        ALPEncode [F64.one, F64.ten, F64.one] (if false = true then -1 else
          if (0 : Int) = 0 then -1 else 0) = .ok (scaled, exp) ∧
        DeltaEncode scaled = .ok (deltas, first, second) ∧ ZigZagEncode deltas = .ok zz ∧
        GolombRiceEncode zz 5 = .ok p ∧
        [0, 5, 1, 0, 0, 0, 0, 0, 0, 0, 0, 10, 0, 0, 0, 0, 0, 0, 0, 100, 0, 0, 0, 3,
          0, 0, 0, 0, 0, 0, 0, 0, 1, 128] =
          Header.Marshal ⟨ModeFloat, 5, exp, first, second,
            (([F64.one, F64.ten, F64.one] : List F64).length : Int)⟩ ++ p.Data ∧
        ([0, 5, 1, 0, 0, 0, 0, 0, 0, 0, 0, 10, 0, 0, 0, 0, 0, 0, 0, 100, 0, 0, 0, 3,
          0, 0, 0, 0, 0, 0, 0, 0, 1, 128] : List Nat).getD 1 0 = (5 : Int).toNat) :=
  ⟨explicit_rice_used.1 [0, 0, -128] 255 (by decide) (by decide) (by decide),
   explicit_rice_used.2.1 [F64.one, F64.ten, F64.one] ⟨0, 5, 0⟩
     [0, 5, 1, 0, 0, 0, 0, 0, 0, 0, 0, 10, 0, 0, 0, 0, 0, 0, 0, 100, 0, 0, 0, 3,
       0, 0, 0, 0, 0, 0, 0, 0, 1, 128]
     (by decide) (by decide) (by decide) (by decide),
   explicit_rice_used.2.2 ((NewFloatEncoder [F64.one, F64.ten, F64.one]).WithRiceParam 5)
     [0, 5, 1, 0, 0, 0, 0, 0, 0, 0, 0, 10, 0, 0, 0, 0, 0, 0, 0, 100, 0, 0, 0, 3,
       0, 0, 0, 0, 0, 0, 0, 0, 1, 128]
     (by decide) (by decide) (by decide) rfl (by decide)⟩

set_option maxRecDepth 100000 in
/-- C7 (evaluation at the failing inputs). No encoder clamps an explicit Rice hint, and
`Header.Marshal` writes `byte(RiceParam)`. With the hint 256 the integer encoder codes the payload
of `[0, 0, -128]` with 256 (bytes `255, 128`), not with `min(256, 255) = 255` (bytes `64, 0`); the
header's `rice_param` byte is `0`, not `255`, and `DecodeInt` rejects the output. With the hint
257 the payload of `[0, 0, 3]` is coded with 257 (bytes `129, 128`), not with 255 (bytes
`131, 0`); the header's `rice_param` byte is `1`, and `DecodeInt` returns `[0, 0, 0]` without an
error. `Encode` and `FloatEncoder.Encode` with the hint 256 write the `rice_param` byte `0` as
well, and `Decode` rejects their output. -/
theorem rice_hint_not_clamped :
    ((NewIntEncoder [0, 0, -128]).WithRiceParam 256).Encode =
      .ok [1, 0, 0, 0, 0, 0, 0, 0, 0, 0, 0, 0, 0, 0, 0, 0, 0, 0, 0, 0, 0, 0, 0, 3, 255, 128] ∧
    GolombRiceEncode [255] 256 = .ok ⟨[255, 128], 9, 1⟩ ∧
    GolombRiceEncode [255] 255 = .ok ⟨[64, 0], 10, 1⟩ ∧
    (NewDecoder [1, 0, 0, 0, 0, 0, 0, 0, 0, 0, 0, 0, 0, 0, 0, 0, 0, 0, 0, 0, 0, 0, 0, 3,
      255, 128]).DecodeInt = .error .riceNotPositive ∧
    ((NewIntEncoder [0, 0, 3]).WithRiceParam 257).Encode =
      .ok [1, 1, 0, 0, 0, 0, 0, 0, 0, 0, 0, 0, 0, 0, 0, 0, 0, 0, 0, 0, 0, 0, 0, 3, 129, 128] ∧
    GolombRiceEncode [6] 257 = .ok ⟨[129, 128], 10, 1⟩ ∧
    GolombRiceEncode [6] 255 = .ok ⟨[131, 0], 9, 1⟩ ∧
    (NewDecoder [1, 1, 0, 0, 0, 0, 0, 0, 0, 0, 0, 0, 0, 0, 0, 0, 0, 0, 0, 0, 0, 0, 0, 3,
      129, 128]).DecodeInt = .ok [0, 0, 0] ∧
    Encode [F64.one, F64.ten, F64.one] ⟨0, 256, 0⟩ =
      .ok [0, 0, 1, 0, 0, 0, 0, 0, 0, 0, 0, 10, 0, 0, 0, 0, 0, 0, 0, 100, 0, 0, 0, 3, 89, 192] ∧
    ((NewFloatEncoder [F64.one, F64.ten, F64.one]).WithRiceParam 256).Encode =
      .ok [0, 0, 1, 0, 0, 0, 0, 0, 0, 0, 0, 10, 0, 0, 0, 0, 0, 0, 0, 100, 0, 0, 0, 3, 89, 192] ∧
    Decode [0, 0, 1, 0, 0, 0, 0, 0, 0, 0, 0, 10, 0, 0, 0, 0, 0, 0, 0, 100, 0, 0, 0, 3, 89, 192] =
      .error .riceNotPositive := by
  decide!

/-! ## Decoders: header checks -/

theorem decodeScaled_short (mode : Int) (buf : List Nat) (h : buf.length < 24) :
    decodeScaled mode buf = .error .headerTooShort := by
  unfold decodeScaled
  rw [if_pos (by simpa [HeaderSize] using h)]

theorem decodeScaled_invalid (mode : Int) (buf : List Nat) (hlen : 24 ≤ buf.length)
    (h : buf.getD 1 0 = 0 ∨ getUint32 buf 20 < 2) :
    decodeScaled mode buf =
      .error (if buf.getD 1 0 = 0 then Err.riceNotPositive else Err.countTooSmall) := by
  have hsize : ¬ buf.length < HeaderSize := by simp [HeaderSize]; omega
  unfold decodeScaled Unmarshal
  rw [if_neg hsize, if_neg hsize]
  dsimp only
  unfold Header.Validate
  dsimp only
  by_cases h1 : buf.getD 1 0 = 0
  · rw [if_pos (by rw [h1]; decide), if_pos h1]
  · have h2 : getUint32 buf 20 < 2 := h.resolve_left h1
    rw [if_neg (by omega), if_pos (by omega), if_neg h1]

/-- A buffer whose mode byte is not the one the decoder expects is rejected with one of the
errors of the header checks. -/
theorem decodeScaled_mode (mode : Int) (buf : List Nat) (h : (buf.getD 0 0 : Int) ≠ mode) :
    ∃ e, (e = Err.headerTooShort ∨ e = Err.riceNotPositive ∨ e = Err.countTooSmall ∨
        e = Err.modeMismatch) ∧ decodeScaled mode buf = .error e := by
  unfold decodeScaled
  by_cases hsize : buf.length < HeaderSize
  · rw [if_pos hsize]; exact ⟨_, Or.inl rfl, rfl⟩
  · unfold Unmarshal
    rw [if_neg hsize, if_neg hsize]
    dsimp only
    unfold Header.Validate
    dsimp only
    by_cases h1 : (buf.getD 1 0 : Int) ≤ 0
    · rw [if_pos h1]; exact ⟨_, Or.inr (Or.inl rfl), rfl⟩
    · rw [if_neg h1]
      by_cases h2 : (getUint32 buf 20 : Int) < 2
      · rw [if_pos h2]; exact ⟨_, Or.inr (Or.inr (Or.inl rfl)), rfl⟩
      · rw [if_neg h2]
        dsimp only
        rw [if_pos (by simpa [ModeFromByte] using h)]
        exact ⟨_, Or.inr (Or.inr (Or.inr rfl)), rfl⟩

/-- C8. Header rejection: `Decode`, `Decoder.DecodeFloat` and `Decoder.DecodeInt` return an error
for every buffer shorter than 24 bytes, and for every buffer of at least 24 bytes whose
`rice_param` byte (offset 1) is 0 or whose big-endian `value_count` field (offsets 20..23) is
less than 2. -/
theorem header_rejection :
    (∀ buf : List Nat, buf.length < 24 →
      Decode buf = .error .headerTooShort ∧
      (NewDecoder buf).DecodeFloat = .error .headerTooShort ∧
      (NewDecoder buf).DecodeInt = .error .headerTooShort) ∧
    (∀ buf : List Nat, 24 ≤ buf.length → (buf.getD 1 0 = 0 ∨ getUint32 buf 20 < 2) →
      ∃ e, (e = Err.riceNotPositive ∨ e = Err.countTooSmall) ∧
        Decode buf = .error e ∧
        (NewDecoder buf).DecodeFloat = .error e ∧
        (NewDecoder buf).DecodeInt = .error e) := by
  constructor
  · intro buf h
    simp only [Decode, Decoder.DecodeFloat, Decoder.DecodeInt, NewDecoder,
      decodeScaled_short _ buf h, and_self]
  · intro buf hlen h
    refine ⟨if buf.getD 1 0 = 0 then Err.riceNotPositive else Err.countTooSmall, ?_, ?_⟩
    · by_cases h1 : buf.getD 1 0 = 0
      · left; rw [if_pos h1]
      · right; rw [if_neg h1]
    · simp only [Decode, Decoder.DecodeFloat, Decoder.DecodeInt, NewDecoder,
        decodeScaled_invalid _ buf hlen h, and_self]

/-- Witness for C8: a two-byte buffer, and a 24-byte buffer with value count 1. -/
theorem header_rejection_witness :
    (Decode [1, 2] = .error .headerTooShort ∧
      (NewDecoder [1, 2]).DecodeFloat = .error .headerTooShort ∧
      (NewDecoder [1, 2]).DecodeInt = .error .headerTooShort) ∧
    (∃ e, (e = Err.riceNotPositive ∨ e = Err.countTooSmall) ∧
      Decode [0, 4, 0, 0, 0, 0, 0, 0, 0, 0, 0, 0, 0, 0, 0, 0, 0, 0, 0, 0, 0, 0, 0, 1] =
        .error e ∧
      (NewDecoder [0, 4, 0, 0, 0, 0, 0, 0, 0, 0, 0, 0, 0, 0, 0, 0, 0, 0, 0, 0, 0, 0, 0,
        1]).DecodeFloat = .error e ∧
      (NewDecoder [0, 4, 0, 0, 0, 0, 0, 0, 0, 0, 0, 0, 0, 0, 0, 0, 0, 0, 0, 0, 0, 0, 0,
        1]).DecodeInt = .error e) :=
  ⟨header_rejection.1 [1, 2] (by decide),
   header_rejection.2 [0, 4, 0, 0, 0, 0, 0, 0, 0, 0, 0, 0, 0, 0, 0, 0, 0, 0, 0, 0, 0, 0, 0, 1]
     (by decide) (by decide)⟩

/-! ## Mode checks -/

/-- The integer encoder with the automatic Rice parameter never fails on two or more samples, and
its output starts with the marshalled header. -/
theorem intEncode_auto_ok (e : IntEncoder) (a b : Int) (rest : List Int)
    (hdata : e.data = a :: b :: rest) (hauto : e.riceParam ≤ 0 ∨ e.autoRiceParam = true) :
    ∃ payload, e.Encode =
      .ok (Header.Marshal ⟨ModeInt, AutoRiceParam e.data, 0, a, b, (e.data.length : Int)⟩ ++
        payload) := by
  obtain ⟨payload, h1, -, -⟩ := encodeTail_ok ModeInt (AutoRiceParam e.data) 0 a b
    (e.data.length : Int) (deltaLoop e.data) (autoRiceParam_range _).1
  have hde : DeltaEncode e.data = .ok (deltaLoop e.data, a, b) := by rw [hdata]; rfl
  refine ⟨payload, ?_⟩
  unfold IntEncoder.Encode
  rw [if_neg (by rw [hdata]; simp), if_pos hauto]
  dsimp only
  unfold encodeScaled
  rw [hde]
  exact h1

/-- C9 (amended). The float decoders return an error for every buffer whose mode byte is not 0
and `DecodeInt` for every buffer whose mode byte is not 1 (the error of a header check: buffer
too short, Rice parameter, value count or mode); and for every `int64` input with
`2 ≤ len < 2^32` encoded by `IntEncoder` with the automatic Rice parameter, `Decode` and
`DecodeFloat` of the result fail with the mode-mismatch error. -/
theorem mode_mismatch :
    (∀ buf : List Nat, buf.getD 0 0 ≠ 0 →
      ∃ e, (e = Err.headerTooShort ∨ e = Err.riceNotPositive ∨ e = Err.countTooSmall ∨
          e = Err.modeMismatch) ∧
        Decode buf = .error e ∧ (NewDecoder buf).DecodeFloat = .error e) ∧
    (∀ buf : List Nat, buf.getD 0 0 ≠ 1 →
      ∃ e, (e = Err.headerTooShort ∨ e = Err.riceNotPositive ∨ e = Err.countTooSmall ∨
          e = Err.modeMismatch) ∧ (NewDecoder buf).DecodeInt = .error e) ∧
    (∀ e : IntEncoder, 2 ≤ e.data.length → e.data.length < 4294967296 →
      (∀ n ∈ e.data, IsInt64 n) → (e.riceParam ≤ 0 ∨ e.autoRiceParam = true) →
      ∃ out, e.Encode = .ok out ∧ Decode out = .error .modeMismatch ∧
        (NewDecoder out).DecodeFloat = .error .modeMismatch) := by
  refine ⟨?_, ?_, ?_⟩
  · intro buf h
    obtain ⟨e, hk, he⟩ := decodeScaled_mode ModeFloat buf (by simpa [ModeFloat] using h)
    exact ⟨e, hk, by simp only [Decode, he],
      by simp only [Decoder.DecodeFloat, NewDecoder, he]⟩
  · intro buf h
    obtain ⟨e, hk, he⟩ := decodeScaled_mode ModeInt buf (by
      simp only [ModeInt]; exact_mod_cast h)
    exact ⟨e, hk, by simp only [Decoder.DecodeInt, NewDecoder, he]⟩
  · intro e hlen hlen2 hv hauto
    match hd : e.data, hlen with
    | a :: b :: rest, _ =>
      obtain ⟨payload, hp⟩ := intEncode_auto_ok e a b rest hd hauto
      have hr := autoRiceParam_range e.data
      have hds := decodeScaled_marshal_append ModeFloat
        ⟨ModeInt, AutoRiceParam e.data, 0, a, b, (e.data.length : Int)⟩ payload
        (by simp [ModeInt]) (by dsimp only; omega) (by simp)
        (hv a (by rw [hd]; simp)) (hv b (by rw [hd]; simp)) (by dsimp only; omega)
      rw [if_pos (by simp [ModeInt, ModeFloat])] at hds
      exact ⟨_, hp, by simp only [Decode, hds],
        by simp only [Decoder.DecodeFloat, NewDecoder, hds]⟩

set_option maxRecDepth 100000 in
/-- Witness for C9 (amended): buffers with mode bytes 1 and 0, and the input `[10, 15, 20]`. -/
theorem mode_mismatch_witness :
    (∃ e, (e = Err.headerTooShort ∨ e = Err.riceNotPositive ∨ e = Err.countTooSmall ∨
        e = Err.modeMismatch) ∧
      Decode [1, 2, 3] = .error e ∧ (NewDecoder [1, 2, 3]).DecodeFloat = .error e) ∧
    (∃ e, (e = Err.headerTooShort ∨ e = Err.riceNotPositive ∨ e = Err.countTooSmall ∨
        e = Err.modeMismatch) ∧ (NewDecoder [0, 2, 3]).DecodeInt = .error e) ∧
    (∃ out, (NewIntEncoder [10, 15, 20]).Encode = .ok out ∧
      Decode out = .error .modeMismatch ∧
      (NewDecoder out).DecodeFloat = .error .modeMismatch) :=
  ⟨mode_mismatch.1 [1, 2, 3] (by decide), mode_mismatch.2.1 [0, 2, 3] (by decide),
   mode_mismatch.2.2 (NewIntEncoder [10, 15, 20]) (by decide) (by decide) (by decide)
     (by decide)⟩

/-- When the length of the input is 0 or 1 modulo `2^32`, the float decoder rejects the output of
the integer encoder on the header validation, before the mode is compared. -/
theorem decode_intEncode_count_wraps (e : IntEncoder) (a b : Int) (rest : List Int)
    (hdata : e.data = a :: b :: rest) (hauto : e.riceParam ≤ 0 ∨ e.autoRiceParam = true)
    (hcount : (e.data.length : Int) % 4294967296 < 2) :
    ∃ out, e.Encode = .ok out ∧ Decode out = .error .countTooSmall := by
  obtain ⟨payload, hp⟩ := intEncode_auto_ok e a b rest hdata hauto
  have hr := autoRiceParam_range e.data
  refine ⟨_, hp, ?_⟩
  have hsize : ¬ (Header.Marshal ⟨ModeInt, AutoRiceParam e.data, 0, a, b,
      (e.data.length : Int)⟩ ++ payload).length < HeaderSize := by
    simp [marshal_length, HeaderSize]
  unfold Decode decodeScaled
  rw [if_neg hsize, unmarshal_marshal_raw]
  dsimp only
  unfold Header.Validate
  dsimp only
  rw [if_neg (by unfold toByte; omega), if_pos (by omega)]

/-- C9 (counterexample). On an `int64` input of `2^32` samples the header's `value_count` field
wraps to 0, so `Decode` of the encoding made by `IntEncoder` with the automatic Rice parameter
fails on the header validation ("value count must be at least 2"), not with the mode-mismatch
error. -/
theorem mode_mismatch_fails_on_long_input :
    2 ≤ (0 :: 0 :: List.replicate 4294967294 (0 : Int)).length ∧
    (∀ n ∈ 0 :: 0 :: List.replicate 4294967294 (0 : Int), IsInt64 n) ∧
    ∃ out, (NewIntEncoder (0 :: 0 :: List.replicate 4294967294 0)).Encode = .ok out ∧
      Decode out = .error .countTooSmall := by
  refine ⟨?_, ?_, ?_⟩
  · rw [List.length_cons, List.length_cons, List.length_replicate]
    omega
  · intro n hn
    have : n = 0 := by
      simp only [List.mem_cons, List.mem_replicate] at hn
      rcases hn with h | h | ⟨-, h⟩ <;> exact h
    rw [this]; decide
  · have hlen : ((NewIntEncoder (0 :: 0 :: List.replicate 4294967294 0)).data.length : Int) =
        4294967296 := by
      show (((0 : Int) :: 0 :: List.replicate 4294967294 0).length : Int) = 4294967296
      rw [List.length_cons, List.length_cons, List.length_replicate]
      rfl
    exact decode_intEncode_count_wraps (NewIntEncoder (0 :: 0 :: List.replicate 4294967294 0))
      0 0 (List.replicate 4294967294 0) rfl (Or.inl (le_refl 0)) (by rw [hlen]; decide)

/-! ## Two samples -/

theorem encodeScaled_two (mode alpExp a b cnt : Int) (rice : List Int → Int) :
    encodeScaled mode alpExp [a, b] cnt rice =
      .ok (Header.Marshal ⟨mode, rice [], alpExp, a, b, cnt⟩ ++ []) := rfl

theorem encodeScaled_two_length (mode alpExp cnt : Int) (scaled : List Int)
    (rice : List Int → Int) (out : List Nat) (hlen : scaled.length = 2)
    (h : encodeScaled mode alpExp scaled cnt rice = .ok out) : out.length = 24 := by
  match scaled, hlen with
  | [a, b], _ =>
    rw [encodeScaled_two] at h
    simp only [Except.ok.injEq] at h
    rw [← h, List.append_nil, marshal_length]

/-- C10. Two-sample boundary: `IntEncoder.Encode` succeeds with a result of exactly 24 bytes for
every 2-element `int64` input and every Rice option, and `Encode` and `FloatEncoder.Encode`
return a result of exactly 24 bytes for every 2-element `float64` input on which they succeed. -/
theorem two_sample_output :
    (∀ e : IntEncoder, e.data.length = 2 → ∃ out, e.Encode = .ok out ∧ out.length = 24) ∧
    (∀ (input : List F64) (opts : Options) (out : List Nat), input.length = 2 →
      Encode input opts = .ok out → out.length = 24) ∧
    (∀ (e : FloatEncoder) (out : List Nat), e.data.length = 2 →
      e.Encode = .ok out → out.length = 24) := by
  refine ⟨?_, ?_, ?_⟩
  · intro e hlen
    match hd : e.data, hlen with
    | [a, b], _ =>
      refine ⟨Header.Marshal ⟨ModeInt,
        (if e.riceParam ≤ 0 ∨ e.autoRiceParam = true then AutoRiceParam e.data else e.riceParam),
        0, a, b, (e.data.length : Int)⟩ ++ [], ?_, by rw [List.append_nil, marshal_length]⟩
      unfold IntEncoder.Encode
      rw [if_neg (by rw [hd]; simp)]
      dsimp only
      have := encodeScaled_two ModeInt 0 a b (e.data.length : Int) (fun _ =>
        if e.riceParam ≤ 0 ∨ e.autoRiceParam = true then AutoRiceParam e.data else e.riceParam)
      rw [← hd] at this
      exact this
  · intro input opts out hlen h
    unfold Encode at h
    rw [if_neg (by omega)] at h
    dsimp only at h
    by_cases hmode : (if opts.Mode = 0 then ModeFloat else opts.Mode) ≠ ModeFloat
    · rw [if_pos hmode] at h; cases h
    · rw [if_neg hmode] at h
      cases halp : ALPEncode input (if opts.ALPExponent = 0 then -1 else opts.ALPExponent) with
      | error err => rw [halp] at h; cases h
      | ok pr =>
        obtain ⟨scaled, exp⟩ := pr
        rw [halp] at h
        dsimp only at h
        exact encodeScaled_two_length _ _ _ scaled _ out
          (by rw [alpEncode_length halp]; exact hlen) h
  · intro e out hlen h
    unfold FloatEncoder.Encode at h
    rw [if_neg (by omega)] at h
    dsimp only at h
    cases halp : ALPEncode e.data
        (if e.autoPrecision then -1 else if e.precision = 0 then -1 else e.precision) with
    | error err => rw [halp] at h; cases h
    | ok pr =>
      obtain ⟨scaled, exp⟩ := pr
      rw [halp] at h
      dsimp only at h
      exact encodeScaled_two_length _ _ _ scaled _ out
        (by rw [alpEncode_length halp]; exact hlen) h

set_option exponentiation.threshold 10000 in
set_option maxRecDepth 100000 in
/-- Witness for C10: the inputs `[7, -3]` (Rice option 300) and `[1.0, 10.0]`. -/
theorem two_sample_output_witness :
    (∃ out, ((NewIntEncoder [7, -3]).WithRiceParam 300).Encode = .ok out ∧ out.length = 24) ∧
    ([0, 5, 1, 0, 0, 0, 0, 0, 0, 0, 0, 10, 0, 0, 0, 0, 0, 0, 0, 100, 0, 0, 0, 2] :
      List Nat).length = 24 ∧
    ([0, 5, 1, 0, 0, 0, 0, 0, 0, 0, 0, 10, 0, 0, 0, 0, 0, 0, 0, 100, 0, 0, 0, 2] :
      List Nat).length = 24 :=
  ⟨two_sample_output.1 ((NewIntEncoder [7, -3]).WithRiceParam 300) (by decide),
   two_sample_output.2.1 [F64.one, F64.ten] ⟨0, 5, 0⟩
     [0, 5, 1, 0, 0, 0, 0, 0, 0, 0, 0, 10, 0, 0, 0, 0, 0, 0, 0, 100, 0, 0, 0, 2]
     (by decide) (by decide),
   two_sample_output.2.2 ((NewFloatEncoder [F64.one, F64.ten]).WithRiceParam 5)
     [0, 5, 1, 0, 0, 0, 0, 0, 0, 0, 0, 10, 0, 0, 0, 0, 0, 0, 0, 100, 0, 0, 0, 2]
     (by decide) (by decide)⟩

/-! ## float64: the ALP stage -/

set_option maxRecDepth 100000 in
theorem pow10Table_like : ∀ p < 18, F64.isPow10Like (pow10Table p) = true := by decide

theorem pow10Table_fin (p : Nat) (hp : p < 18) :
    ∃ M e, pow10Table p = .fin false M e ∧ 4503599627370496 ≤ M ∧ M < 9007199254740992 ∧
      -52 ≤ e ∧ e ≤ 4 := by
  have h := pow10Table_like p hp
  generalize pow10Table p = t at h
  match t, h with
  | .fin false M e, h =>
    simp only [F64.isPow10Like, decide_eq_true_eq] at h
    exact ⟨M, e, rfl, h⟩

theorem mul_fin_fin (s t : Bool) (m1 m2 : Nat) (e1 e2 : Int) :
    F64.mul (.fin s m1 e1) (.fin t m2 e2) =
      if e1 + e2 ≥ 0 then F64.roundNE (xor s t) (m1 * m2 * 2 ^ (e1 + e2).toNat) 1
      else F64.roundNE (xor s t) (m1 * m2) (2 ^ (-(e1 + e2)).toNat) := rfl

theorem div_fin_fin (s t : Bool) (m1 m2 : Nat) (e1 e2 : Int) :
    F64.div (.fin s m1 e1) (.fin t m2 e2) =
      if m2 = 0 then (if m1 = 0 then .nan else .inf (xor s t))
      else if e1 - e2 ≥ 0 then F64.roundNE (xor s t) (m1 * 2 ^ (e1 - e2).toNat) m2
      else F64.roundNE (xor s t) m1 (m2 * 2 ^ (-(e1 - e2)).toNat) := rfl

theorem roundNE_cases (neg : Bool) (n d : Nat) :
    F64.roundNE neg n d = .inf neg ∨ ∃ m e, F64.roundNE neg n d = .fin neg m e := by
  unfold F64.roundNE
  by_cases hn : n = 0
  · rw [if_pos hn]; exact Or.inr ⟨_, _, rfl⟩
  · rw [if_neg hn]
    dsimp only
    split_ifs <;> first | exact Or.inl rfl | exact Or.inr ⟨_, _, rfl⟩

set_option exponentiation.threshold 10000 in
theorem two_pow_lt_8192 (k : Nat) (hk : k ≤ 8000) (x : Nat) (hx : x < 2 ^ 106) :
    x * 2 ^ k < 2 ^ 8192 := by
  have h1 : x * 2 ^ k < 2 ^ 106 * 2 ^ k := Nat.mul_lt_mul_of_pos_right hx (Nat.two_pow_pos k)
  rw [← pow_add] at h1
  exact lt_of_lt_of_le h1 (Nat.pow_le_pow_right (by decide) (by omega))

theorem mul_lt_106 (a b : Nat) (ha : a < 9007199254740992) (hb : b < 9007199254740992) :
    a * b < 2 ^ 106 := by
  have h1 : a * b ≤ 9007199254740992 * b := Nat.mul_le_mul_right _ (le_of_lt ha)
  have h2 : 9007199254740992 * b < 9007199254740992 * 9007199254740992 :=
    Nat.mul_lt_mul_of_pos_left hb (by decide)
  have : (2 : Nat) ^ 106 = 9007199254740992 * 9007199254740992 := by norm_num
  omega

set_option exponentiation.threshold 10000 in
/-- The product of two float64 values is a float64. -/
theorem mul_isFloat64 (x t : F64) (hx : IsFloat64 x) (ht : IsFloat64 t) :
    IsFloat64 (F64.mul x t) := by
  cases x with
  | nan => cases t <;> trivial
  | inf s =>
    cases t with
    | nan => trivial
    | inf _ => trivial
    | fin t m e => simp only [F64.mul]; split <;> trivial
  | fin s m1 e1 =>
    cases t with
    | nan => trivial
    | inf _ => simp only [F64.mul]; split <;> trivial
    | fin t m2 e2 =>
      rw [mul_fin_fin]
      simp only [IsFloat64] at hx ht
      have hprod := mul_lt_106 m1 m2 hx.1 ht.1
      have h1 : (1 : Nat) < 2 ^ 8192 := Nat.one_lt_two_pow (by decide)
      have hp1 : m1 * m2 < 2 ^ 8192 := by
        have := two_pow_lt_8192 0 (by decide) _ hprod
        simpa using this
      split
      · exact roundNE_isFloat64 _ _ _ (by decide)
          (two_pow_lt_8192 _ (by omega) _ hprod) h1
      · exact roundNE_isFloat64 _ _ _ (Nat.two_pow_pos _) hp1
          (by
            have := two_pow_lt_8192 (-(e1 + e2)).toNat (by omega) 1 (by
              exact Nat.one_lt_two_pow (by decide))
            simpa using this)

theorem round_fin_nonneg (s : Bool) (m : Nat) (e : Int) (he : e ≥ 0) :
    F64.round (.fin s m e) = .fin s m e := by
  simp only [F64.round, if_pos he]

theorem round_fin_neg (s : Bool) (m : Nat) (e : Int) (he : ¬ e ≥ 0) :
    F64.round (.fin s m e) =
      F64.roundNE s (if 2 * (m % 2 ^ (-e).toNat) ≥ 2 ^ (-e).toNat then m / 2 ^ (-e).toNat + 1
        else m / 2 ^ (-e).toNat) 1 := by
  simp only [F64.round, if_neg he]

theorem ofInt64_signed (s : Bool) (n : Nat) (hn : 0 < n) :
    F64.ofInt64 (if s then -(n : Int) else (n : Int)) = F64.roundNE s n 1 := by
  unfold F64.ofInt64
  cases s
  · simp only [Bool.false_eq_true, if_false, Int.natAbs_ofNat]
    have : decide ((n : Int) < 0) = false := by simp
    rw [this]
  · simp only [if_true, Int.natAbs_neg, Int.natAbs_ofNat]
    have : decide (-(n : Int) < 0) = true := by simp; omega
    rw [this]

theorem toInt64_fin_nonneg (s : Bool) (m k : Nat)
    (hr : (if s then -((m * 2 ^ k : Nat) : Int) else ((m * 2 ^ k : Nat) : Int)) ≥
      -9223372036854775808 ∧
      (if s then -((m * 2 ^ k : Nat) : Int) else ((m * 2 ^ k : Nat) : Int)) <
        9223372036854775808) :
    F64.toInt64 (.fin s m (k : Int)) =
      if s then -((m * 2 ^ k : Nat) : Int) else ((m * 2 ^ k : Nat) : Int) := by
  unfold F64.toInt64
  dsimp only
  rw [if_pos (by omega : (k : Int) ≥ 0), Int.toNat_ofNat, if_pos ⟨hr.1, hr.2⟩]

theorem toInt64_zero (s : Bool) (e : Int) : F64.toInt64 (.fin s 0 e) = 0 := by
  unfold F64.toInt64
  dsimp only
  have ht : (if e ≥ 0 then 0 * 2 ^ e.toNat else 0 / 2 ^ (-e).toNat) = 0 := by
    split <;> simp
  rw [ht]
  cases s <;> simp

/-- Conversion of a rounded value to `int64` and back: the float64 is recovered, except that a
negative zero comes back as the positive zero. The value is at most `2^63` in magnitude and is not
`2^63` itself. -/
theorem ofInt64_toInt64_round (s : Bool) (m : Nat) (e : Int) (hc : IsFloat64 (.fin s m e))
    (he : e ≤ 11) (h11 : e = 11 → m = 4503599627370496 ∧ s = true) :
    F64.ofInt64 (F64.toInt64 (F64.round (.fin s m e))) = F64.round (.fin s m e) ∨
    (F64.isZero (F64.round (.fin s m e)) = true ∧
      F64.ofInt64 (F64.toInt64 (F64.round (.fin s m e))) = .fin false 0 (-1074)) := by
  simp only [IsFloat64] at hc
  obtain ⟨c1, c2, c3, c4⟩ := hc
  by_cases h0 : e ≥ 0
  · left
    rw [round_fin_nonneg s m e h0]
    obtain ⟨k, rfl⟩ := Int.eq_ofNat_of_zero_le h0
    have hk : k ≤ 11 := by omega
    have hm : 4503599627370496 ≤ m := by omega
    have hpos : 0 < m * 2 ^ k := Nat.mul_pos (by omega) (Nat.two_pow_pos k)
    have hr : (if s then -((m * 2 ^ k : Nat) : Int) else ((m * 2 ^ k : Nat) : Int)) ≥
        -9223372036854775808 ∧
        (if s then -((m * 2 ^ k : Nat) : Int) else ((m * 2 ^ k : Nat) : Int)) <
          9223372036854775808 := by
      by_cases hk11 : k = 11
      · have := h11 (by omega)
        rw [this.1, this.2, hk11]
        decide
      · have hk10 : k ≤ 10 := by omega
        have h2 : 2 ^ k ≤ 2 ^ 10 := Nat.pow_le_pow_right (by decide) hk10
        have h3 : m * 2 ^ k ≤ m * 2 ^ 10 := Nat.mul_le_mul_left _ h2
        cases s
        · simp only [Bool.false_eq_true, if_false]; omega
        · simp only [if_true]; omega
    rw [toInt64_fin_nonneg s m k hr, ofInt64_signed s _ hpos,
      roundNE_normal s m k hm c1 (by omega)]
  · rw [round_fin_neg s m e h0]
    obtain ⟨j, hj⟩ : ∃ j : Nat, (-e).toNat = j + 1 := ⟨(-e).toNat - 1, by omega⟩
    rw [hj]
    have hd2 : 2 ^ 1 ≤ 2 ^ (j + 1) := Nat.pow_le_pow_right (by decide) (by omega)
    have hdiv : m / 2 ^ (j + 1) ≤ m / 2 ^ 1 := Nat.div_le_div_left hd2 (by decide)
    generalize hn : (if 2 * (m % 2 ^ (j + 1)) ≥ 2 ^ (j + 1) then m / 2 ^ (j + 1) + 1
      else m / 2 ^ (j + 1)) = n
    have hn53 : n < 9007199254740992 := by
      rw [← hn]; split <;> omega
    by_cases hz : n = 0
    · right
      subst hz
      have hr0 : F64.roundNE s 0 1 = .fin s 0 (-1074) := by
        simp only [F64.roundNE, if_true]
      rw [hr0]
      refine ⟨by simp [F64.isZero], ?_⟩
      have : F64.toInt64 (.fin s 0 (-1074)) = 0 := toInt64_zero s (-1074)
      rw [this]
      decide
    · left
      rw [toInt64_roundNE_small s n (by omega) hn53, ofInt64_signed s n (by omega)]

theorem aligned_zero (s : Bool) (e e0 : Int) : F64.aligned s 0 e e0 = 0 := by
  unfold F64.aligned
  cases s <;> simp

theorem eq_zero_sign (s s' : Bool) (e e' : Int) (val : F64) :
    F64.eq (.fin s 0 e) val = F64.eq (.fin s' 0 e') val := by
  cases val with
  | nan => rfl
  | inf _ => rfl
  | fin t m2 e2 =>
    simp only [F64.eq, aligned_zero]
    cases hm : decide (m2 = 0)
    · have hm2 : m2 ≠ 0 := by simpa using hm
      have hne : ∀ e0 : Int, (0 : Int) ≠ F64.aligned t m2 e2 e0 := by
        intro e0
        unfold F64.aligned
        have hp : 0 < m2 * 2 ^ (e2 - e0).toNat :=
          Nat.mul_pos (Nat.pos_of_ne_zero hm2) (Nat.two_pow_pos _)
        cases t
        · simp only [Bool.false_eq_true, if_false]; omega
        · simp only [if_true]; omega
      simp [hne]
    · have hm2 : m2 = 0 := by simpa using hm
      subst hm2
      simp [aligned_zero]

theorem div_zero_fin (s t : Bool) (e : Int) (M : Nat) (et : Int) (hM : M ≠ 0) :
    F64.div (.fin s 0 e) (.fin t M et) = .fin (xor s t) 0 (-1074) := by
  rw [div_fin_fin, if_neg hM]
  split <;> simp [F64.roundNE]

theorem toInt64_isInt64 (x : F64) : IsInt64 (F64.toInt64 x) := by
  cases x with
  | nan => simp only [F64.toInt64, IsInt64]; omega
  | inf _ => simp only [F64.toInt64, IsInt64]; omega
  | fin s m e =>
    unfold F64.toInt64
    dsimp only
    generalize (if s = true then
      -((if e ≥ 0 then m * 2 ^ e.toNat else m / 2 ^ (-e).toNat : Nat) : Int)
      else ((if e ≥ 0 then m * 2 ^ e.toNat else m / 2 ^ (-e).toNat : Nat) : Int)) = v
    by_cases h : -9223372036854775808 ≤ v ∧ v < 9223372036854775808
    · rw [if_pos h]; exact h
    · rw [if_neg h]; unfold IsInt64; omega

theorem range_of_not_lt (s : Bool) (m : Nat) (e : Int) (hc : IsFloat64 (.fin s m e))
    (h1 : F64.lt maxInt64 (.fin s m e) = false) (h2 : F64.lt (.fin s m e) negMaxInt64 = false)
    (hne : F64.fin s m e ≠ maxInt64) :
    e ≤ 11 ∧ (e = 11 → m = 4503599627370496 ∧ s = true) := by
  simp only [IsFloat64] at hc
  obtain ⟨c1, c2, c3, c4⟩ := hc
  simp only [F64.lt, maxInt64, negMaxInt64, decide_eq_false_iff_not, F64.aligned,
    Bool.false_eq_true, if_false, if_true] at h1 h2
  by_cases he : e ≤ 10
  · exact ⟨by omega, fun h => by omega⟩
  · have hm : 4503599627370496 ≤ m := by omega
    have hmin1 : min 11 e = 11 := min_eq_left (by omega)
    have hmin2 : min e 11 = 11 := min_eq_right (by omega)
    rw [hmin1] at h1
    rw [hmin2] at h2
    obtain ⟨j, hj⟩ : ∃ j : Nat, (e - 11).toNat = j := ⟨_, rfl⟩
    rw [hj] at h1 h2
    have h00 : ((11 : Int) - 11).toNat = 0 := by decide
    rw [h00] at h1 h2
    simp only [pow_zero, Nat.mul_one] at h1 h2
    have hP : 1 ≤ 2 ^ j := Nat.two_pow_pos j
    have hmP : m ≤ m * 2 ^ j := Nat.le_mul_of_pos_right _ hP
    by_cases hj0 : j = 0
    · subst hj0
      simp only [pow_zero, Nat.mul_one] at h1 h2
      have he11 : e = 11 := by omega
      refine ⟨by omega, fun _ => ?_⟩
      cases s
      · exfalso
        simp only [Bool.false_eq_true, if_false] at h1
        apply hne
        have : m = 4503599627370496 := by omega
        rw [this, he11]
        rfl
      · simp only [if_true] at h2
        exact ⟨by omega, rfl⟩
    · exfalso
      have h2P : 2 ^ 1 ≤ 2 ^ j := Nat.pow_le_pow_right (by decide) (by omega)
      have hm2 : m * 2 ^ 1 ≤ m * 2 ^ j := Nat.mul_le_mul_left _ h2P
      cases s
      · simp only [Bool.false_eq_true, if_false] at h1
        omega
      · simp only [if_true] at h2
        omega

/-- The check of `detectPrecision` on one value passes on to the encoded integer: dividing the
integer by the multiplier gives a float64 equal (`==`) to the value. The scaled value `2^63`,
which passes the check and overflows `int64`, is excluded. -/
theorem matchesAt_sound (p : Nat) (hp : p < 18) (val : F64) (hval : IsFloat64 val)
    (hm : matchesAt p val = true) (hne : F64.mul val (pow10Table p) ≠ maxInt64) :
    F64.eq (F64.div (F64.ofInt64 (F64.toInt64 (F64.round (F64.mul val (pow10Table p)))))
      (pow10Table p)) val = true := by
  obtain ⟨M, et, ht, hM1, hM2, het1, het2⟩ := pow10Table_fin p hp
  have htF : IsFloat64 (pow10Table p) := by
    rw [ht]; simp only [IsFloat64]; omega
  have hsfF := mul_isFloat64 val (pow10Table p) hval htF
  unfold matchesAt at hm
  dsimp only at hm
  by_cases c1 : (F64.lt maxInt64 (F64.mul val (pow10Table p)) ||
      F64.lt (F64.mul val (pow10Table p)) negMaxInt64) = true
  · rw [if_pos c1] at hm; cases hm
  · rw [if_neg c1] at hm
    by_cases c2 : (F64.lt F64.half (F64.abs (F64.sub (F64.mul val (pow10Table p))
          (F64.round (F64.mul val (pow10Table p))))) ||
        F64.eq (F64.abs (F64.sub (F64.mul val (pow10Table p))
          (F64.round (F64.mul val (pow10Table p))))) F64.half) = true
    · rw [if_pos c2] at hm; cases hm
    · rw [if_neg c2] at hm
      by_cases c3 : (!(F64.eq (F64.div (F64.round (F64.mul val (pow10Table p)))
          (pow10Table p)) val)) = true
      · rw [if_pos c3] at hm; cases hm
      · have hres : F64.eq (F64.div (F64.round (F64.mul val (pow10Table p)))
            (pow10Table p)) val = true := by
          simpa using c3
        simp only [Bool.or_eq_true, not_or, Bool.not_eq_true] at c1
        clear hm c2 c3
        generalize F64.mul val (pow10Table p) = sf at hsfF c1 hres hne ⊢
        cases sf with
        | nan =>
          rw [ht] at hres
          simp [F64.round, F64.div, F64.eq] at hres
        | inf b =>
          cases b
          · simp [F64.lt, maxInt64] at c1
          · simp [F64.lt, negMaxInt64] at c1
        | fin s m e =>
          obtain ⟨r1, r2⟩ := range_of_not_lt s m e hsfF c1.1 c1.2 hne
          rcases ofInt64_toInt64_round s m e hsfF r1 r2 with h | ⟨hz, h⟩
          · rw [h]; exact hres
          · rw [h]
            generalize F64.round (F64.fin s m e) = rs at hz hres
            match rs, hz with
            | .fin s' m' e', hz =>
              have hm0 : m' = 0 := by simpa [F64.isZero] using hz
              subst hm0
              rw [ht] at hres ⊢
              rw [div_zero_fin _ _ _ _ _ (by omega)] at hres ⊢
              rw [eq_zero_sign _ (xor s' false) _ (-1074)]
              exact hres

theorem detectFrom_pos (data : List F64) (left p : Nat) (hp : 1 ≤ p)
    (h : 1 ≤ detectFrom data left p) :
    ∃ q : Nat, detectFrom data left p = (q : Int) ∧ p ≤ q ∧ q < p + left ∧
      data.all (matchesAt q) = true := by
  induction left generalizing p with
  | zero => simp [detectFrom] at h
  | succ left ih =>
    unfold detectFrom at h ⊢
    by_cases hall : data.all (matchesAt p) = true
    · rw [if_pos hall]
      exact ⟨p, rfl, le_refl _, by omega, hall⟩
    · rw [if_neg hall] at h ⊢
      obtain ⟨q, h1, h2, h3, h4⟩ := ih (p + 1) (by omega) h
      exact ⟨q, h1, by omega, by omega, h4⟩

theorem detectPrecision_pos (data : List F64) (h : 1 ≤ detectPrecision data) :
    ∃ q : Nat, detectPrecision data = (q : Int) ∧ 1 ≤ q ∧ q < 18 ∧
      data.all (matchesAt q) = true := by
  obtain ⟨q, h1, h2, h3, h4⟩ := detectFrom_pos data 17 1 (le_refl 1) h
  exact ⟨q, h1, h2, by omega, h4⟩

set_option exponentiation.threshold 10000 in
theorem div_isFloat64 (x t : F64) (hx : IsFloat64 x) (ht : IsFloat64 t) :
    IsFloat64 (F64.div x t) := by
  cases x with
  | nan => cases t <;> trivial
  | inf s => cases t <;> trivial
  | fin s m1 e1 =>
    cases t with
    | nan => trivial
    | inf _ => simp [F64.div, IsFloat64]
    | fin t m2 e2 =>
      rw [div_fin_fin]
      simp only [IsFloat64] at hx ht
      by_cases hm2 : m2 = 0
      · rw [if_pos hm2]; split <;> trivial
      · rw [if_neg hm2]
        have hb1 : m1 < 2 ^ 106 := lt_of_lt_of_le hx.1 (by norm_num)
        have hb2 : m2 < 2 ^ 106 := lt_of_lt_of_le ht.1 (by norm_num)
        have hm1' : m1 < 2 ^ 8192 := by
          have := two_pow_lt_8192 0 (by decide) _ hb1
          simpa using this
        have hm2' : m2 < 2 ^ 8192 := by
          have := two_pow_lt_8192 0 (by decide) _ hb2
          simpa using this
        split
        · exact roundNE_isFloat64 _ _ _ (by omega) (two_pow_lt_8192 _ (by omega) _ hb1) hm2'
        · exact roundNE_isFloat64 _ _ _ (Nat.mul_pos (by omega) (Nat.two_pow_pos _)) hm1'
            (two_pow_lt_8192 _ (by omega) _ hb2)

set_option exponentiation.threshold 10000 in
theorem ofInt64_isFloat64 (i : Int) (hi : IsInt64 i) : IsFloat64 (F64.ofInt64 i) := by
  unfold IsInt64 at hi
  unfold F64.ofInt64
  have hb : i.natAbs < 2 ^ 106 := by
    have : i.natAbs ≤ 9223372036854775808 := by omega
    exact lt_of_le_of_lt this (by norm_num)
  have h8 : i.natAbs < 2 ^ 8192 := by
    have := two_pow_lt_8192 0 (by decide) _ hb
    simpa using this
  exact roundNE_isFloat64 _ _ _ (by decide) h8 (Nat.one_lt_two_pow (by decide))

/-- On float64 representations `==` is equality of the representations, except between the two
zeros. -/
theorem eq_of_F64_eq (a b : F64) (ha : IsFloat64 a) (hb : IsFloat64 b)
    (h : F64.eq a b = true) (hz : F64.isZero b = false) : a = b := by
  cases a with
  | nan => simp [F64.eq] at h
  | inf s =>
    cases b with
    | nan => simp [F64.eq] at h
    | inf t => simp only [F64.eq, beq_iff_eq] at h; rw [h]
    | fin _ _ _ => simp [F64.eq] at h
  | fin s m1 e1 =>
    cases b with
    | nan => simp [F64.eq] at h
    | inf t => simp [F64.eq] at h
    | fin t m2 e2 =>
      simp only [IsFloat64] at ha hb
      simp only [F64.isZero, decide_eq_false_iff_not] at hz
      simp only [F64.eq, decide_eq_true_eq, F64.aligned] at h
      have hp1 : 1 ≤ 2 ^ (e1 - min e1 e2).toNat := Nat.two_pow_pos _
      have hp2 : 1 ≤ 2 ^ (e2 - min e1 e2).toNat := Nat.two_pow_pos _
      have hx2 : m2 ≤ m2 * 2 ^ (e2 - min e1 e2).toNat := Nat.le_mul_of_pos_right _ hp2
      have hmag : m1 * 2 ^ (e1 - min e1 e2).toNat = m2 * 2 ^ (e2 - min e1 e2).toNat ∧ s = t := by
        cases s <;> cases t <;>
          simp only [Bool.false_eq_true, if_false, if_true] at h <;>
          first
          | exact ⟨by omega, rfl⟩
          | (exfalso; omega)
      obtain ⟨hmg, rfl⟩ := hmag
      clear h hp1 hp2 hx2
      rcases le_total e1 e2 with hle | hle
      · rw [min_eq_left hle] at hmg
        have h0 : (e1 - e1).toNat = 0 := by omega
        rw [h0, pow_zero, Nat.mul_one] at hmg
        obtain ⟨j, hj⟩ : ∃ j : Nat, (e2 - e1).toNat = j := ⟨_, rfl⟩
        rw [hj] at hmg
        by_cases hj0 : j = 0
        · subst hj0
          rw [pow_zero, Nat.mul_one] at hmg
          have : e1 = e2 := by omega
          rw [hmg, this]
        · exfalso
          have h2P : 2 ^ 1 ≤ 2 ^ j := Nat.pow_le_pow_right (by decide) (by omega)
          have : m2 * 2 ^ 1 ≤ m2 * 2 ^ j := Nat.mul_le_mul_left _ h2P
          omega
      · rw [min_eq_right hle] at hmg
        have h0 : (e2 - e2).toNat = 0 := by omega
        rw [h0, pow_zero, Nat.mul_one] at hmg
        obtain ⟨j, hj⟩ : ∃ j : Nat, (e1 - e2).toNat = j := ⟨_, rfl⟩
        rw [hj] at hmg
        by_cases hj0 : j = 0
        · subst hj0
          rw [pow_zero, Nat.mul_one] at hmg
          have : e1 = e2 := by omega
          rw [hmg, this]
        · exfalso
          have h2P : 2 ^ 1 ≤ 2 ^ j := Nat.pow_le_pow_right (by decide) (by omega)
          have : m1 * 2 ^ 1 ≤ m1 * 2 ^ j := Nat.mul_le_mul_left _ h2P
          omega

theorem forall₂_map_self {α β : Type} (R : β → α → Prop) (f : α → β) (l : List α)
    (h : ∀ x ∈ l, R (f x) x) : List.Forall₂ R (l.map f) l := by
  induction l with
  | nil => exact List.Forall₂.nil
  | cons a t ih =>
    exact List.Forall₂.cons (h a (List.mem_cons_self _ _))
      (ih (fun x hx => h x (List.mem_cons_of_mem _ hx)))

/-- The ALP stage with a detected exponent `q ≥ 1`: every value is recovered, up to `==`, from
its encoded integer, and exactly when it is not a zero. -/
theorem alp_round_trip (v : List F64) (q : Nat) (hq : q < 18) (hv : ∀ x ∈ v, IsFloat64 x)
    (hall : v.all (matchesAt q) = true)
    (hmax : ∀ x ∈ v, F64.mul x (pow10Table q) ≠ maxInt64) :
    List.Forall₂ (fun a b => F64.eq a b = true ∧ (F64.isZero b = false → a = b))
      ((v.map (fun val => F64.toInt64 (F64.round (F64.mul val (pow10Table q))))).map
        (fun val => F64.div (F64.ofInt64 val) (pow10Table q))) v := by
  rw [List.map_map]
  apply forall₂_map_self
  intro x hx
  have hm : matchesAt q x = true := (List.all_eq_true.mp hall) x hx
  have hs := matchesAt_sound q hq x (hv x hx) hm (hmax x hx)
  refine ⟨hs, fun hz => ?_⟩
  obtain ⟨M, et, ht, hM1, hM2, het1, het2⟩ := pow10Table_fin q hq
  have htF : IsFloat64 (pow10Table q) := by
    rw [ht]; simp only [IsFloat64]; omega
  exact eq_of_F64_eq _ _
    (div_isFloat64 _ _ (ofInt64_isFloat64 _ (toInt64_isInt64 _)) htF) (hv x hx) hs hz

/-! ## The float pipeline -/

theorem alpEncode_auto (v : List F64) (alp : Int) (q : Nat) (hne : v ≠ []) (halp : alp < 0)
    (hq : detectPrecision v = (q : Int)) (hq18 : q < 18) :
    ALPEncode v alp =
      .ok (v.map (fun val => F64.toInt64 (F64.round (F64.mul val (pow10Table q)))), (q : Int)) := by
  unfold ALPEncode
  rw [if_neg (by simpa using hne)]
  dsimp only
  rw [if_pos halp, hq, if_neg (by omega), Int.toNat_ofNat]

theorem alpDecode_map (scaled : List Int) (q : Nat) (hq18 : q < 18) :
    ALPDecode scaled (q : Int) =
      scaled.map (fun val => F64.div (F64.ofInt64 val) (pow10Table q)) := by
  unfold ALPDecode
  rw [if_neg (by omega), Int.toNat_ofNat]

/-- C2 (amended). Float round trip when auto-detection finds an exponent: for every float64 array
`v` with `2 ≤ len(v) < 2^32` on which `detectPrecision` returns some `p ≥ 1`, with no scaled
value `v[i] * 10^p` equal to `2^63`, in Float mode with ALP auto-detection (`ALPExponent ≤ 0`)
and a Rice option that is auto or at most 255, `Decode(Encode(v, opts))` succeeds and returns an
array equal to `v` element by element under float64 `==`, and identical to it on every element
that is not a zero. -/
theorem float_round_trip (v : List F64) (opts : Options) (hlen : 2 ≤ v.length)
    (hlen2 : v.length < 4294967296) (hv : ∀ x ∈ v, IsFloat64 x) (hmode : opts.Mode = 0)
    (hrice : opts.RiceParam ≤ 255) (halp : opts.ALPExponent ≤ 0)
    (hdet : 1 ≤ detectPrecision v)
    (hmax : ∀ x ∈ v, F64.mul x (pow10Table (detectPrecision v).toNat) ≠ maxInt64) :
    ∃ out w, Encode v opts = .ok out ∧ Decode out = .ok w ∧
      List.Forall₂ (fun a b => F64.eq a b = true ∧ (F64.isZero b = false → a = b)) w v := by
  obtain ⟨q, hq, hq1, hq18, hall⟩ := detectPrecision_pos v hdet
  rw [hq, Int.toNat_ofNat] at hmax
  have hne : v ≠ [] := by
    intro h0; rw [h0] at hlen; simp at hlen
  have hALP := alpEncode_auto v (if opts.ALPExponent = 0 then -1 else opts.ALPExponent) q hne
    (by split <;> omega) hq hq18
  have hrt := alp_round_trip v q hq18 hv hall hmax
  generalize hsc : v.map (fun val => F64.toInt64 (F64.round (F64.mul val (pow10Table q)))) =
    scaled at hALP hrt
  have hslen : scaled.length = v.length := by rw [← hsc, List.length_map]
  have hsint : ∀ n ∈ scaled, IsInt64 n := by
    intro n hn
    rw [← hsc] at hn
    obtain ⟨x, -, rfl⟩ := List.mem_map.mp hn
    exact toInt64_isInt64 _
  have hs2 : 2 ≤ scaled.length := by omega
  match scaled, hs2, hslen, hsint, hALP, hrt with
  | a :: b :: rest, _, hslen, hsint, hALP, hrt =>
    have hrange : 1 ≤ (if opts.RiceParam ≤ 0 then AutoRiceParam (deltaLoop (a :: b :: rest))
          else opts.RiceParam) ∧
        (if opts.RiceParam ≤ 0 then AutoRiceParam (deltaLoop (a :: b :: rest))
          else opts.RiceParam) ≤ 255 := by
      have := autoRiceParam_range (deltaLoop (a :: b :: rest))
      split <;> omega
    obtain ⟨out, h1, h2⟩ := decodeScaled_encodeTail ModeFloat
      (if opts.RiceParam ≤ 0 then AutoRiceParam (deltaLoop (a :: b :: rest))
        else opts.RiceParam) (q : Int) a b rest (by decide) hrange (by omega) hsint
      (by rw [hslen]; exact hlen2)
    refine ⟨out, (a :: b :: rest).map (fun val => F64.div (F64.ofInt64 val) (pow10Table q)),
      ?_, ?_, hrt⟩
    · unfold Encode
      rw [if_neg (by omega)]
      dsimp only
      have hm : (if opts.Mode = 0 then ModeFloat else opts.Mode) = ModeFloat := by
        rw [if_pos hmode]
      rw [hm, if_neg (by simp), hALP]
      dsimp only
      unfold encodeScaled
      rw [deltaEncode_ok]
      dsimp only
      have hcnt : (v.length : Int) = ((a :: b :: rest).length : Int) := by rw [hslen]
      rw [hcnt]
      exact h1
    · unfold Decode
      rw [h2]
      dsimp only
      rw [alpDecode_map _ q hq18]

set_option exponentiation.threshold 10000 in
set_option maxRecDepth 100000 in
/-- Witness for C2 (amended): the input `[3.14, 2.71]`, for which the detected exponent is 2. -/
theorem float_round_trip_witness :
    ∃ out w,
      Encode [.fin false 7070651414971679 (-51), .fin false 6102377495087022 (-51)]
        ⟨0, 0, -1⟩ = .ok out ∧
      Decode out = .ok w ∧
      List.Forall₂ (fun a b => F64.eq a b = true ∧ (F64.isZero b = false → a = b)) w
        [.fin false 7070651414971679 (-51), .fin false 6102377495087022 (-51)] :=
  float_round_trip [.fin false 7070651414971679 (-51), .fin false 6102377495087022 (-51)]
    ⟨0, 0, -1⟩ (by decide) (by decide) (by decide) (by decide) (by decide) (by decide)
    (by decide) (by decide)

set_option exponentiation.threshold 10000 in
set_option maxRecDepth 100000 in
/-- C2 (counterexample). The float64 `2^-60` is not a decimal with at most 17 fraction digits:
no exponent in 1..17 passes the check of `detectPrecision`, which returns 0; the values are
encoded as the integer 0 and `Decode` returns `[0, 0]`, which differs from the input. -/
theorem float_round_trip_fails :
    IsFloat64 (.fin false 4503599627370496 (-112)) ∧
    detectPrecision [.fin false 4503599627370496 (-112), .fin false 4503599627370496 (-112)] = 0 ∧
    Encode [.fin false 4503599627370496 (-112), .fin false 4503599627370496 (-112)] ⟨0, 0, -1⟩ =
      .ok [0, 4, 0, 0, 0, 0, 0, 0, 0, 0, 0, 0, 0, 0, 0, 0, 0, 0, 0, 0, 0, 0, 0, 2] ∧
    Decode [0, 4, 0, 0, 0, 0, 0, 0, 0, 0, 0, 0, 0, 0, 0, 0, 0, 0, 0, 0, 0, 0, 0, 2] =
      .ok [.fin false 0 (-1074), .fin false 0 (-1074)] ∧
    F64.eq (.fin false 0 (-1074)) (.fin false 4503599627370496 (-112)) = false := by
  decide

/-! ## Too few samples -/

/-- C11. Too few samples: for every input of length 0 or 1 and every choice of options, `Encode`,
`FloatEncoder.Encode` and `IntEncoder.Encode` return the too-few-samples error (and so no bytes),
and `DeltaEncode` fails in the same way for every input of length below 2. -/
theorem too_few_samples :
    (∀ (input : List F64) (opts : Options), input.length < 2 →
      Encode input opts = .error .tooFewSamples) ∧
    (∀ e : FloatEncoder, e.data.length < 2 → e.Encode = .error .tooFewSamples) ∧
    (∀ e : IntEncoder, e.data.length < 2 → e.Encode = .error .tooFewSamples) ∧
    (∀ input : List Int, input.length < 2 → DeltaEncode input = .error .tooFewSamples) := by
  refine ⟨?_, ?_, ?_, ?_⟩
  · intro input opts h
    unfold Encode
    rw [if_pos h]
  · intro e h
    unfold FloatEncoder.Encode
    rw [if_pos h]
  · intro e h
    unfold IntEncoder.Encode
    rw [if_pos h]
  · intro input h
    match input, h with
    | [], _ => rfl
    | [_], _ => rfl
    | _ :: _ :: rest, h => simp only [List.length_cons] at h; omega

/-- Witness for C11: the empty input and one-element inputs, with explicit and automatic
options. -/
theorem too_few_samples_witness :
    Encode [] ⟨0, 4, 2⟩ = .error .tooFewSamples ∧
    (((NewFloatEncoder [F64.one]).WithRiceParam 3).WithPrecision 1).Encode =
      .error .tooFewSamples ∧
    (NewIntEncoder [5]).WithAutoRiceParam.Encode = .error .tooFewSamples ∧
    DeltaEncode [7] = .error .tooFewSamples :=
  ⟨too_few_samples.1 [] ⟨0, 4, 2⟩ (by decide),
   too_few_samples.2.1 (((NewFloatEncoder [F64.one]).WithRiceParam 3).WithPrecision 1)
     (by decide),
   too_few_samples.2.2.1 (NewIntEncoder [5]).WithAutoRiceParam (by decide),
   too_few_samples.2.2.2 [7] (by decide)⟩

/-! ## The ALP hint 0 -/

/-- C17. The ALP hint 0 means auto-detection: for every input, mode and Rice option, `Encode`
with `ALPExponent = 0` returns the same result (bytes or error) as with `ALPExponent = -1`, and a
`FloatEncoder` after `WithPrecision(0)` returns the same result as after `WithAutoPrecision()`. -/
theorem alp_hint_zero_is_auto (v : List F64) (mode r : Int) (e : FloatEncoder) :
    Encode v ⟨mode, r, 0⟩ = Encode v ⟨mode, r, -1⟩ ∧
    (e.WithPrecision 0).Encode = e.WithAutoPrecision.Encode := by
  constructor
  · unfold Encode
    simp only [if_true, show ((-1 : Int) = 0) = False from by simp, if_false]
  · unfold FloatEncoder.Encode FloatEncoder.WithPrecision FloatEncoder.WithAutoPrecision
    simp only [if_true, Bool.false_eq_true, if_false]

/-! ## Header validation -/

/-- C19. `Validate` is exact: it returns an error if and only if `RiceParam ≤ 0` or
`ValueCount < 2` (and succeeds if and only if `RiceParam ≥ 1` and `ValueCount ≥ 2`), its
result does not change when `Mode`, `ALPExp`, `First` and `Second` are replaced by any other
values, and the error is one of its two error values. -/
theorem validate_exact (h : Header) :
    ((∃ e, h.Validate = .error e) ↔ (h.RiceParam ≤ 0 ∨ h.ValueCount < 2)) ∧
    (h.Validate = .ok () ↔ (1 ≤ h.RiceParam ∧ 2 ≤ h.ValueCount)) ∧
    (∀ mode alp first second : Int,
      Header.Validate ⟨mode, h.RiceParam, alp, first, second, h.ValueCount⟩ = h.Validate) ∧
    (∀ e, h.Validate = .error e → e = Err.riceNotPositive ∨ e = Err.countTooSmall) := by
  refine ⟨?_, ?_, fun _ _ _ _ => rfl, ?_⟩
  · unfold Header.Validate
    by_cases h1 : h.RiceParam ≤ 0
    · rw [if_pos h1]
      exact ⟨fun _ => Or.inl h1, fun _ => ⟨_, rfl⟩⟩
    · rw [if_neg h1]
      by_cases h2 : h.ValueCount < 2
      · rw [if_pos h2]
        exact ⟨fun _ => Or.inr h2, fun _ => ⟨_, rfl⟩⟩
      · rw [if_neg h2]
        constructor
        · rintro ⟨e, he⟩; cases he
        · rintro (h3 | h3)
          · exact absurd h3 h1
          · exact absurd h3 h2
  · unfold Header.Validate
    by_cases h1 : h.RiceParam ≤ 0
    · rw [if_pos h1]
      constructor
      · intro he; cases he
      · intro h3; omega
    · rw [if_neg h1]
      by_cases h2 : h.ValueCount < 2
      · rw [if_pos h2]
        constructor
        · intro he; cases he
        · intro h3; omega
      · rw [if_neg h2]
        exact ⟨fun _ => ⟨by omega, by omega⟩, fun _ => rfl⟩
  · intro e he
    unfold Header.Validate at he
    by_cases h1 : h.RiceParam ≤ 0
    · rw [if_pos h1] at he
      cases he
      exact Or.inl rfl
    · rw [if_neg h1] at he
      by_cases h2 : h.ValueCount < 2
      · rw [if_pos h2] at he
        cases he
        exact Or.inr rfl
      · rw [if_neg h2] at he
        cases he

/-! ## Linear sequences -/

theorem flush_spec_pad (w : BitWriter) (hw : w.WF) :
    ∃ pad, pad < 8 ∧ bitsOf (flush w) = w.bits ++ List.replicate pad 0 := by
  obtain ⟨h1, h2, h3⟩ := hw
  unfold flush
  by_cases hp : w.bitPos > 0
  · rw [if_pos hp]
    refine ⟨8 - w.bitPos, by omega, ?_⟩
    simp only [BitWriter.bits, bitsOf_append, bitsOf, List.append_nil]
    rw [flushByte_fin w.bitPos h1 w.currentByte h2 h3, List.append_assoc]
  · rw [if_neg hp]
    refine ⟨0, by omega, ?_⟩
    have : w.bitPos = 0 := by omega
    simp [BitWriter.bits, this]

/-- The bytes written by `GolombRiceEncode` hold the codewords of the input followed by fewer
than eight zero bits. -/
theorem encode_bits_pad (m : Int) (input : List Nat) :
    ∃ pad, pad < 8 ∧ bitsOf (flush (input.foldl (encodeValue m) BitWriter.init)) =
      codewords m input ++ List.replicate pad 0 := by
  have hw0 : BitWriter.WF BitWriter.init := ⟨by decide, by decide, by decide⟩
  obtain ⟨h1, h2⟩ := foldl_encodeValue_spec m input _ hw0
  obtain ⟨pad, hpad, h3⟩ := flush_spec_pad _ h1
  refine ⟨pad, hpad, ?_⟩
  rw [h3, h2]
  simp [BitWriter.bits, BitWriter.init, bitsOf]

/-- The residuals of an arithmetic progression modulo `2^64` are all zero. -/
theorem deltaLoop_progression (s : Int) : ∀ v : List Int,
    List.Chain' (fun x y => y = wrap64 (x + s)) v →
    deltaLoop v = List.replicate (v.length - 2) 0
  | [], _ => rfl
  | [_], _ => rfl
  | [_, _], _ => rfl
  | a :: b :: c :: rest, h => by
    obtain ⟨hab, h2⟩ := List.chain'_cons.mp h
    have hbc := (List.chain'_cons.mp h2).1
    have ih := deltaLoop_progression s (b :: c :: rest) h2
    have h0 : wrap64 (c - wrap64 (b + wrap64 (b - a))) = 0 := by
      rw [hbc, hab]; unfold wrap64; omega
    rw [deltaLoop, ih, h0]
    simp only [List.length_cons]
    exact (List.replicate_succ ..).symm

theorem codewords_one_zeros (k : Nat) :
    codewords 1 (List.replicate k 0) = List.replicate k 1 := by
  have hb : bitsNeeded 1 = 0 := bitsNeeded_byte 1 (by decide) (by decide)
  induction k with
  | zero => rfl
  | succ k ih =>
    rw [List.replicate_succ, codewords, ih, codeword, hb]
    rfl
theorem map_zigZag_zeros (k : Nat) :
    (List.replicate k (0 : Int)).map zigZagEncode1 = List.replicate k 0 := by
  rw [List.map_replicate]
  rfl

/-- The integer encoder with the explicit Rice parameter 1 on a progression: the output is the
header followed by the coding of zeros. -/
theorem intEncode_progression (a b c : Int) (rest : List Int) (s : Int)
    (hs : List.Chain' (fun x y => y = wrap64 (x + s)) (a :: b :: c :: rest)) :
    ((NewIntEncoder (a :: b :: c :: rest)).WithRiceParam 1).Encode =
      .ok (Header.Marshal ⟨ModeInt, 1, 0, a, b, ((a :: b :: c :: rest).length : Int)⟩ ++
        flush ((List.replicate (rest.length + 1) 0).foldl (encodeValue 1) BitWriter.init)) := by
  have hd : deltaLoop (a :: b :: c :: rest) = List.replicate (rest.length + 1) 0 :=
    deltaLoop_progression s _ hs
  unfold IntEncoder.Encode NewIntEncoder IntEncoder.WithRiceParam
  dsimp only
  rw [if_neg (by simp), if_neg (by simp)]
  unfold encodeScaled
  rw [deltaEncode_ok]
  dsimp only
  rw [hd]
  unfold encodeTail
  rw [if_pos (by simp)]
  unfold ZigZagEncode
  rw [if_neg (by simp)]
  dsimp only
  rw [map_zigZag_zeros, if_pos (by simp)]
  unfold GolombRiceEncode
  rw [if_neg (by simp), if_neg (by decide)]

/-- C12. Linear sequences with `m = 1`: for every arithmetic progression `v` modulo `2^64` of
length `n ≥ 3`, all residuals are zero and `IntEncoder.Encode` with the explicit Rice parameter 1
returns `24 + ceil((n-2)/8)` bytes whose payload consists of `n - 2` one bits followed by zero
bits up to the end of the last byte. -/
theorem linear_sequence_rice_one (v : List Int) (s : Int) (hlen : 3 ≤ v.length)
    (hs : List.Chain' (fun x y => y = wrap64 (x + s)) v) :
    ∃ out first second,
      DeltaEncode v = .ok (List.replicate (v.length - 2) 0, first, second) ∧
      ((NewIntEncoder v).WithRiceParam 1).Encode = .ok out ∧
      out.length = 24 + (v.length - 2 + 7) / 8 ∧
      bitsOf (out.drop 24) = List.replicate (v.length - 2) 1 ++
        List.replicate (8 * ((v.length - 2 + 7) / 8) - (v.length - 2)) 0 := by
  match v, hlen, hs with
  | a :: b :: c :: rest, _, hs =>
    obtain ⟨pad, hpad, hbits⟩ := encode_bits_pad 1 (List.replicate (rest.length + 1) 0)
    rw [codewords_one_zeros] at hbits
    have hlen8 := congrArg List.length hbits
    rw [bitsOf_length, List.length_append, List.length_replicate, List.length_replicate] at hlen8
    have hn : (a :: b :: c :: rest).length - 2 = rest.length + 1 := by
      simp only [List.length_cons]; omega
    rw [hn]
    refine ⟨_, a, b, ?_, intEncode_progression a b c rest s hs, ?_, ?_⟩
    · rw [deltaEncode_ok, deltaLoop_progression s _ hs, hn]
    · rw [List.length_append, marshal_length]
      omega
    · rw [List.drop_left' (marshal_length _), hbits]
      congr 2
      omega

set_option maxRecDepth 100000 in
/-- Witness for C12: the progression `10, 15, ..., 65` of twelve values with stride 5. -/
theorem linear_sequence_rice_one_witness :
    ∃ out first second,
      DeltaEncode [10, 15, 20, 25, 30, 35, 40, 45, 50, 55, 60, 65] =
        .ok (List.replicate 10 0, first, second) ∧
      ((NewIntEncoder [10, 15, 20, 25, 30, 35, 40, 45, 50, 55, 60, 65]).WithRiceParam 1).Encode =
        .ok out ∧
      out.length = 24 + (10 + 7) / 8 ∧
      bitsOf (out.drop 24) = List.replicate 10 1 ++ List.replicate (8 * ((10 + 7) / 8) - 10) 0 :=
  linear_sequence_rice_one [10, 15, 20, 25, 30, 35, 40, 45, 50, 55, 60, 65] 5 (by decide)
    (by simp [wrap64])

/-! ## The automatic Rice parameter -/

theorem lenAux_le (fuel n : Nat) : lenAux fuel n ≤ fuel := by
  induction fuel generalizing n with
  | zero => simp [lenAux]
  | succ fuel ih =>
    unfold lenAux
    split
    · omega
    · have := ih (n / 2); omega

/-- The two candidates `int(lower)` and `int(upper)` of `roundToPowerOf2`, once clamped as in
`AutoRiceParam`, are powers of two up to 64. -/
theorem clamp_shift_pow2 : ∀ h < 65,
    min (max (toInt64 ((1 <<< h) % 18446744073709551616)) 1) 64 ∈
      ([1, 2, 4, 8, 16, 32, 64] : List Int) := by
  decide

theorem autoRiceParam_mem (r : List Int) :
    AutoRiceParam r ∈ ([1, 2, 4, 8, 16, 32, 64] : List Int) := by
  unfold AutoRiceParam
  by_cases h0 : r.length = 0
  · rw [if_pos h0]; decide
  · rw [if_neg h0]
    generalize findMedian (r.map absValue) = x
    unfold roundToPowerOf2
    by_cases h1 : x ≤ 1
    · rw [if_pos h1]; decide
    · rw [if_neg h1]
      have hl : Len64 x - 1 < 64 := by
        have := lenAux_le 64 x
        unfold Len64
        omega
      dsimp only
      split
      · exact clamp_shift_pow2 _ (by omega)
      · exact clamp_shift_pow2 _ (by omega)

/-- C14. Range of the automatic Rice parameter: for every array `r`, `AutoRiceParam r` is a
power of two `2^k` with `k ≤ 6`, so it lies in `[1, 64]`, passes the power-of-two test of the
coder and is written unchanged in the header byte; on the empty array the result is 4. -/
theorem autoRiceParam_power_of_two (r : List Int) :
    AutoRiceParam [] = 4 ∧
    (∃ k : Nat, k ≤ 6 ∧ AutoRiceParam r = 2 ^ k) ∧
    1 ≤ AutoRiceParam r ∧ AutoRiceParam r ≤ 64 ∧
    isPow2 (AutoRiceParam r) = true ∧
    ((toByte (AutoRiceParam r) : Nat) : Int) = AutoRiceParam r := by
  have h := autoRiceParam_mem r
  generalize AutoRiceParam r = p at h
  refine ⟨rfl, ?_⟩
  simp only [List.mem_cons, List.mem_singleton, List.not_mem_nil, or_false] at h
  rcases h with rfl | rfl | rfl | rfl | rfl | rfl | rfl
  · exact ⟨⟨0, by decide, by decide⟩, by decide, by decide, by decide, by decide⟩
  · exact ⟨⟨1, by decide, by decide⟩, by decide, by decide, by decide, by decide⟩
  · exact ⟨⟨2, by decide, by decide⟩, by decide, by decide, by decide, by decide⟩
  · exact ⟨⟨3, by decide, by decide⟩, by decide, by decide, by decide, by decide⟩
  · exact ⟨⟨4, by decide, by decide⟩, by decide, by decide, by decide, by decide⟩
  · exact ⟨⟨5, by decide, by decide⟩, by decide, by decide, by decide, by decide⟩
  · exact ⟨⟨6, by decide, by decide⟩, by decide, by decide, by decide, by decide⟩

set_option maxRecDepth 100000 in
/-- C13. Large medians: on the one-element arrays `[INT64_MAX]` and `[INT64_MIN]` the median of
the absolute values is `2^63 - 1` and `2^63`, `roundToPowerOf2` returns `int(2^63) = -2^63` on
both, and `AutoRiceParam` returns 1, where the nearest power of two clamped to `[1, 64]` is 64;
the same happens from the median `3 * 2^61` on, and on two copies of `INT64_MIN` the sum of the
middle elements wraps to 0. The example `[-5, 5, -10, 10, -3, 3]` and the median 48 give 4
and 64. -/
theorem autoRiceParam_large_median :
    findMedian ([9223372036854775807].map absValue) = 9223372036854775807 ∧
    roundToPowerOf2 9223372036854775807 = -9223372036854775808 ∧
    AutoRiceParam [9223372036854775807] = 1 ∧
    findMedian ([-9223372036854775808].map absValue) = 9223372036854775808 ∧
    roundToPowerOf2 9223372036854775808 = -9223372036854775808 ∧
    AutoRiceParam [-9223372036854775808] = 1 ∧
    AutoRiceParam [6917529027641081856] = 1 ∧
    AutoRiceParam [6917529027641081855] = 64 ∧
    findMedian ([-9223372036854775808, -9223372036854775808].map absValue) = 0 ∧
    AutoRiceParam [-9223372036854775808, -9223372036854775808] = 1 ∧
    AutoRiceParam [-5, 5, -10, 10, -3, 3] = 4 ∧
    AutoRiceParam [48] = 64 := by
  decide

/-! ## Concrete scenario: the integer input 10, 15, 20, 25, 30 -/

set_option maxRecDepth 100000 in
/-- C15. Scenario 2: the residuals of `[10, 15, 20, 25, 30]` are `[0, 0, 0]`, on which
`AutoRiceParam` gives 1, but `IntEncoder.Encode` with the automatic Rice parameter takes
`AutoRiceParam` of the input itself, which is 16: the output has `rice_param` byte 16, a payload
of three codewords of five bits in two bytes, and 26 bytes in total. -/
theorem int_scenario_output :
    DeltaEncode [10, 15, 20, 25, 30] = .ok ([0, 0, 0], 10, 15) ∧
    AutoRiceParam [0, 0, 0] = 1 ∧
    AutoRiceParam [10, 15, 20, 25, 30] = 16 ∧
    (NewIntEncoder [10, 15, 20, 25, 30]).Encode =
      .ok [1, 16, 0, 0, 0, 0, 0, 0, 0, 0, 0, 10, 0, 0, 0, 0, 0, 0, 0, 15, 0, 0, 0, 5, 132, 32] ∧
    ((NewIntEncoder [10, 15, 20, 25, 30]).WithRiceParam 1).Encode =
      .ok [1, 1, 0, 0, 0, 0, 0, 0, 0, 0, 0, 10, 0, 0, 0, 0, 0, 0, 0, 15, 0, 0, 0, 5, 224] := by
  decide!

/-! ## The explicit ALP exponent -/

set_option maxRecDepth 100000 in
/-- The entries of `pow10Table` are the float64 values of the powers of ten, and they are
integers: the conversion back gives the power of ten. -/
theorem pow10Table_exact : ∀ p < 18,
    pow10Table p = F64.ofInt64 (10 ^ p) ∧ F64.toInt64 (pow10Table p) = 10 ^ p := by
  decide

/-- `ALPEncode` with an explicit exponent in `0..17` scales every value with that exponent and
returns it. -/
theorem alpEncode_explicit (v : List F64) (e : Int) (hne : v ≠ []) (he0 : 0 ≤ e) (he : e ≤ 17) :
    ALPEncode v e =
      .ok (v.map (fun val => F64.toInt64 (F64.round (F64.mul val (pow10Table e.toNat)))), e) := by
  unfold ALPEncode
  rw [if_neg (by simpa using hne)]
  dsimp only
  rw [if_neg (by omega), if_neg (by omega)]

/-- `encodeScaled` never fails on two or more values when the Rice parameter chosen for the
residuals is positive, and its output starts with the marshalled header. -/
theorem encodeScaled_ok (mode alpExp a b : Int) (rest : List Int) (cnt : Int)
    (rice : List Int → Int) (hr : 1 ≤ rice (deltaLoop (a :: b :: rest))) :
    ∃ payload, encodeScaled mode alpExp (a :: b :: rest) cnt rice =
      .ok (Header.Marshal ⟨mode, rice (deltaLoop (a :: b :: rest)), alpExp, a, b, cnt⟩ ++
        payload) := by
  obtain ⟨payload, h1, -, -⟩ := encodeTail_ok mode (rice (deltaLoop (a :: b :: rest))) alpExp a b
    cnt (deltaLoop (a :: b :: rest)) hr
  refine ⟨payload, ?_⟩
  unfold encodeScaled
  rw [deltaEncode_ok]
  exact h1

/-- The Rice parameter chosen by the encoders is positive. -/
theorem rice_choice_pos (r : Int) (auto : Bool) (d : List Int) :
    1 ≤ (if r ≤ 0 ∨ auto = true then AutoRiceParam d else r) := by
  by_cases h : r ≤ 0 ∨ auto = true
  · rw [if_pos h]; exact (autoRiceParam_range d).1
  · rw [if_neg h]
    have : ¬ r ≤ 0 := fun h2 => h (Or.inl h2)
    omega

theorem rice_option_pos (r : Int) (d : List Int) :
    1 ≤ (if r ≤ 0 then AutoRiceParam d else r) := by
  by_cases h : r ≤ 0
  · rw [if_pos h]; exact (autoRiceParam_range d).1
  · rw [if_neg h]; omega

theorem marshal_getD_two (h : Header) (payload : List Nat) :
    (h.Marshal ++ payload).getD 2 0 = toByte h.ALPExp := by
  simp [Header.Marshal]

theorem marshal_getUint64_first (h : Header) (payload : List Nat) :
    getUint64 (h.Marshal ++ payload) 4 = toUint64 h.First := by
  have := getUint64_putUint64 [Mode.Byte h.Mode, toByte h.RiceParam, toByte h.ALPExp, 0]
    (putUint64 (toUint64 h.Second) ++ putUint32 ((h.ValueCount % 4294967296).toNat) ++ payload)
    (toUint64 h.First) (toUint64_lt _)
  simpa [Header.Marshal, List.append_assoc] using this

theorem marshal_getUint64_second (h : Header) (payload : List Nat) :
    getUint64 (h.Marshal ++ payload) 12 = toUint64 h.Second := by
  have := getUint64_putUint64
    ([Mode.Byte h.Mode, toByte h.RiceParam, toByte h.ALPExp, 0] ++ putUint64 (toUint64 h.First))
    (putUint32 ((h.ValueCount % 4294967296).toNat) ++ payload)
    (toUint64 h.Second) (toUint64_lt _)
  simpa [Header.Marshal, List.append_assoc, putUint64] using this

theorem marshal_getUint32_count (h : Header) (payload : List Nat) :
    getUint32 (h.Marshal ++ payload) 20 = (h.ValueCount % 4294967296).toNat := by
  have := getUint32_putUint32
    ([Mode.Byte h.Mode, toByte h.RiceParam, toByte h.ALPExp, 0] ++ putUint64 (toUint64 h.First)
      ++ putUint64 (toUint64 h.Second))
    payload ((h.ValueCount % 4294967296).toNat) (by omega)
  simpa [Header.Marshal, List.append_assoc, putUint64] using this

/-- C16 (amended). An explicit ALP exponent `e` with `1 ≤ e ≤ 17` is used as it is: for every
float64 input of length at least 2, in Float mode and with any Rice option, `Encode` succeeds,
codes the integers `int64(round(v[i] * 10^e))` (the multiplier `pow10Table[e]` is the float64
`10^e`), writes `e` in the `alp_exp` byte at offset 2 and the first two scaled values at offsets
4 and 12. -/
theorem explicit_alp_exponent_used (v : List F64) (opts : Options) (hlen : 2 ≤ v.length)
    (hmode : opts.Mode = 0) (he1 : 1 ≤ opts.ALPExponent) (he2 : opts.ALPExponent ≤ 17) :
    ∃ out,
      Encode v opts = .ok out ∧
      ((out.getD 2 0 : Nat) : Int) = opts.ALPExponent ∧
      pow10Table opts.ALPExponent.toNat = F64.ofInt64 (10 ^ opts.ALPExponent.toNat) ∧
      Encode v opts = encodeScaled ModeFloat opts.ALPExponent
        (v.map (fun x =>
          F64.toInt64 (F64.round (F64.mul x (pow10Table opts.ALPExponent.toNat)))))
        (v.length : Int)
        (fun deltas => if opts.RiceParam ≤ 0 then AutoRiceParam deltas else opts.RiceParam) ∧
      toInt64 (getUint64 out 4) =
        F64.toInt64 (F64.round (F64.mul (v.getD 0 .nan) (pow10Table opts.ALPExponent.toNat))) ∧
      toInt64 (getUint64 out 12) =
        F64.toInt64 (F64.round (F64.mul (v.getD 1 .nan) (pow10Table opts.ALPExponent.toNat))) := by
  match v, hlen with
  | x :: y :: rest, _ =>
    have hmap : ∀ f : F64 → Int, (x :: y :: rest).map f = f x :: f y :: rest.map f :=
      fun _ => rfl
    have henc : Encode (x :: y :: rest) opts = encodeScaled ModeFloat opts.ALPExponent
        ((x :: y :: rest).map (fun x =>
          F64.toInt64 (F64.round (F64.mul x (pow10Table opts.ALPExponent.toNat)))))
        ((x :: y :: rest).length : Int)
        (fun deltas => if opts.RiceParam ≤ 0 then AutoRiceParam deltas else opts.RiceParam) := by
      unfold Encode
      rw [if_neg (by simp)]
      dsimp only
      rw [if_pos hmode, if_neg (show ¬ (ModeFloat ≠ ModeFloat) from not_not.mpr rfl),
        if_neg (show ¬ opts.ALPExponent = 0 from by omega),
        alpEncode_explicit _ _ (by simp) (by omega) he2]
    obtain ⟨payload, hp⟩ := encodeScaled_ok ModeFloat opts.ALPExponent
      (F64.toInt64 (F64.round (F64.mul x (pow10Table opts.ALPExponent.toNat))))
      (F64.toInt64 (F64.round (F64.mul y (pow10Table opts.ALPExponent.toNat))))
      (rest.map (fun x =>
        F64.toInt64 (F64.round (F64.mul x (pow10Table opts.ALPExponent.toNat)))))
      ((x :: y :: rest).length : Int)
      (fun deltas => if opts.RiceParam ≤ 0 then AutoRiceParam deltas else opts.RiceParam)
      (rice_option_pos _ _)
    refine ⟨_, henc.trans ((congrArg (fun l => encodeScaled ModeFloat opts.ALPExponent l _ _)
      (hmap _)).trans hp), ?_, (pow10Table_exact _ (by omega)).1, henc, ?_, ?_⟩
    · rw [marshal_getD_two]
      unfold toByte
      dsimp only
      omega
    · rw [marshal_getUint64_first]
      exact toInt64_toUint64 (toInt64_isInt64 _)
    · rw [marshal_getUint64_second]
      exact toInt64_toUint64 (toInt64_isInt64 _)

set_option exponentiation.threshold 10000 in
set_option maxRecDepth 100000 in
/-- Witness for C16 (amended): the input `[1.5, 2.5]` with the explicit exponent 2 is coded as
`[150, 250]`. -/
theorem explicit_alp_exponent_used_witness :
    ∃ out,
      Encode [.fin false 6755399441055744 (-52), .fin false 5629499534213120 (-51)] ⟨0, 4, 2⟩ =
        .ok out ∧
      ((out.getD 2 0 : Nat) : Int) = 2 ∧
      pow10Table 2 = F64.ofInt64 (10 ^ 2) ∧
      Encode [.fin false 6755399441055744 (-52), .fin false 5629499534213120 (-51)] ⟨0, 4, 2⟩ =
        encodeScaled ModeFloat 2
          ([.fin false 6755399441055744 (-52), .fin false 5629499534213120 (-51)].map (fun x =>
            F64.toInt64 (F64.round (F64.mul x (pow10Table 2)))))
          2 (fun deltas => if (4 : Int) ≤ 0 then AutoRiceParam deltas else 4) ∧
      toInt64 (getUint64 out 4) = 150 ∧
      toInt64 (getUint64 out 12) = 250 :=
  explicit_alp_exponent_used
    [.fin false 6755399441055744 (-52), .fin false 5629499534213120 (-51)] ⟨0, 4, 2⟩
    (by decide) (by decide) (by decide) (by decide)

set_option exponentiation.threshold 10000 in
set_option maxRecDepth 100000 in
/-- C16 (counterexample). With the explicit exponent 0 and the input `[1.0, 2.0]`, `ALPEncode`
itself would return the integers `[1, 2]` and the exponent 0, but `Encode` replaces the option 0
by auto-detection: the output has `alp_exp` byte 1, not 0, and codes `[10, 20]`. -/
theorem explicit_alp_exponent_zero_not_used :
    Encode [F64.one, .fin false 4503599627370496 (-51)] ⟨0, 4, 0⟩ =
      .ok [0, 4, 1, 0, 0, 0, 0, 0, 0, 0, 0, 10, 0, 0, 0, 0, 0, 0, 0, 20, 0, 0, 0, 2] ∧
    ALPEncode [F64.one, .fin false 4503599627370496 (-51)] 0 = .ok ([1, 2], 0) ∧
    ¬ ∃ out, Encode [F64.one, .fin false 4503599627370496 (-51)] ⟨0, 4, 0⟩ = .ok out ∧
      out.getD 2 0 = 0 := by
  have h : Encode [F64.one, .fin false 4503599627370496 (-51)] ⟨0, 4, 0⟩ =
      .ok [0, 4, 1, 0, 0, 0, 0, 0, 0, 0, 0, 10, 0, 0, 0, 0, 0, 0, 0, 20, 0, 0, 0, 2] := by
    decide
  refine ⟨h, by decide, ?_⟩
  rintro ⟨out, h1, h2⟩
  rw [h] at h1
  cases h1
  exact absurd h2 (by decide)

/-! ## The header on the decode path -/

/-- What a successful `decodeScaled` has checked: the buffer holds a header, the header is the
one `Unmarshal` reads, it passes `Validate` and its mode is the expected one. -/
theorem decodeScaled_ok_inv (mode : Int) (buf : List Nat) (hdr : Header) (scaled : List Int)
    (h : decodeScaled mode buf = .ok (hdr, scaled)) :
    24 ≤ buf.length ∧ Unmarshal buf = .ok hdr ∧ hdr.Validate = .ok () ∧ hdr.Mode = mode := by
  unfold decodeScaled at h
  by_cases hlen : buf.length < HeaderSize
  · rw [if_pos hlen] at h; cases h
  · rw [if_neg hlen] at h
    cases hu : Unmarshal buf with
    | error e => rw [hu] at h; cases h
    | ok header =>
      rw [hu] at h
      dsimp only at h
      cases hv : header.Validate with
      | error e => rw [hv] at h; cases h
      | ok u =>
        rw [hv] at h
        dsimp only at h
        by_cases hm : header.Mode ≠ mode
        · rw [if_pos hm] at h; cases h
        · rw [if_neg hm] at h
          have hhdr : header = hdr := by
            cases hg : (if header.ValueCount - 2 > 0 then
                GolombRiceDecode (buf.drop HeaderSize) 0 (header.ValueCount - 2) header.RiceParam
              else .ok []) with
            | error e => rw [hg] at h; cases h
            | ok zz =>
              rw [hg] at h
              dsimp only at h
              cases hz : (if zz.length > 0 then ZigZagDecode zz else .ok []) with
              | error e => rw [hz] at h; cases h
              | ok deltas =>
                rw [hz] at h
                dsimp only [DeltaDecode] at h
                simp only [Except.ok.injEq, Prod.mk.injEq] at h
                exact h.1
          subst hhdr
          exact ⟨by unfold HeaderSize at hlen; omega, rfl, hv, not_not.mp hm⟩

/-- C18 (amended). Every buffer accepted by the float decoders holds at least 24 bytes, has mode
byte 0, `rice_param ≥ 1` and `value_count ≥ 2`; the `alp_exp` byte is not checked: when it is
greater than 17 the accepted buffer decodes to the empty array. `Decode` and
`Decoder.DecodeFloat` accept the same buffers with the same result. -/
theorem decode_accepted_header (buf : List Nat) (res : List F64) (h : Decode buf = .ok res) :
    24 ≤ buf.length ∧ buf.getD 0 0 = 0 ∧ 1 ≤ buf.getD 1 0 ∧ 2 ≤ getUint32 buf 20 ∧
    (NewDecoder buf).DecodeFloat = .ok res ∧
    (17 < buf.getD 2 0 → res = []) := by
  have hsame : (NewDecoder buf).DecodeFloat = Decode buf := rfl
  unfold Decode at h
  cases hd : decodeScaled ModeFloat buf with
  | error e => rw [hd] at h; cases h
  | ok pr =>
    obtain ⟨hdr, scaled⟩ := pr
    rw [hd] at h
    simp only [Except.ok.injEq] at h
    obtain ⟨hlen, hu, hv, hm⟩ := decodeScaled_ok_inv _ _ _ _ hd
    unfold Unmarshal at hu
    rw [if_neg (by unfold HeaderSize; omega)] at hu
    simp only [Except.ok.injEq] at hu
    subst hu
    unfold Header.Validate at hv
    dsimp only at hv hm h
    by_cases h1 : ((buf.getD 1 0 : Nat) : Int) ≤ 0
    · rw [if_pos h1] at hv; cases hv
    · rw [if_neg h1] at hv
      by_cases h2 : ((getUint32 buf 20 : Nat) : Int) < 2
      · rw [if_pos h2] at hv; cases hv
      · refine ⟨hlen, ?_, by omega, by omega, ?_, ?_⟩
        · unfold ModeFromByte ModeFloat at hm
          omega
        · rw [hsame]
          unfold Decode
          rw [hd]
          simp only [Except.ok.injEq]
          exact h
        · intro h17
          rw [← h]
          unfold ALPDecode
          rw [if_pos (Or.inr (by omega))]

set_option exponentiation.threshold 10000 in
set_option maxRecDepth 100000 in
/-- Witness for C18 (amended): a header-only buffer with `alp_exp = 1` that decodes to
`[1.0, 2.0]`. -/
theorem decode_accepted_header_witness :
    24 ≤ ([0, 4, 1, 0, 0, 0, 0, 0, 0, 0, 0, 10, 0, 0, 0, 0, 0, 0, 0, 20, 0, 0, 0, 2] :
      List Nat).length ∧
    ([0, 4, 1, 0, 0, 0, 0, 0, 0, 0, 0, 10, 0, 0, 0, 0, 0, 0, 0, 20, 0, 0, 0, 2] :
      List Nat).getD 0 0 = 0 ∧
    1 ≤ ([0, 4, 1, 0, 0, 0, 0, 0, 0, 0, 0, 10, 0, 0, 0, 0, 0, 0, 0, 20, 0, 0, 0, 2] :
      List Nat).getD 1 0 ∧
    2 ≤ getUint32 [0, 4, 1, 0, 0, 0, 0, 0, 0, 0, 0, 10, 0, 0, 0, 0, 0, 0, 0, 20, 0, 0, 0, 2] 20 ∧
    (NewDecoder [0, 4, 1, 0, 0, 0, 0, 0, 0, 0, 0, 10, 0, 0, 0, 0, 0, 0, 0, 20, 0, 0, 0,
      2]).DecodeFloat = .ok [F64.one, .fin false 4503599627370496 (-51)] ∧
    (17 < ([0, 4, 1, 0, 0, 0, 0, 0, 0, 0, 0, 10, 0, 0, 0, 0, 0, 0, 0, 20, 0, 0, 0, 2] :
      List Nat).getD 2 0 → [F64.one, .fin false 4503599627370496 (-51)] = ([] : List F64)) :=
  decode_accepted_header
    [0, 4, 1, 0, 0, 0, 0, 0, 0, 0, 0, 10, 0, 0, 0, 0, 0, 0, 0, 20, 0, 0, 0, 2]
    [F64.one, .fin false 4503599627370496 (-51)] (by decide)

set_option exponentiation.threshold 10000 in
set_option maxRecDepth 100000 in
/-- C18 (counterexample). A Float-mode buffer with `alp_exp = 18` (and one with `alp_exp = 255`
and a payload) passes the header checks: `Validate` succeeds on the header read from it, and
`Decode` and `Decoder.DecodeFloat` return a result, the empty array, not an error. -/
theorem decode_accepts_alp_exp_above_17 :
    Decode [0, 4, 18, 0, 0, 0, 0, 0, 0, 0, 0, 10, 0, 0, 0, 0, 0, 0, 0, 20, 0, 0, 0, 2] = .ok [] ∧
    (NewDecoder [0, 4, 18, 0, 0, 0, 0, 0, 0, 0, 0, 10, 0, 0, 0, 0, 0, 0, 0, 20, 0, 0, 0,
      2]).DecodeFloat = .ok [] ∧
    Decode [0, 4, 255, 0, 0, 0, 0, 0, 0, 0, 0, 7, 0, 0, 0, 0, 0, 0, 0, 9, 0, 0, 0, 3, 255] =
      .ok [] ∧
    (∃ hdr, Unmarshal [0, 4, 18, 0, 0, 0, 0, 0, 0, 0, 0, 10, 0, 0, 0, 0, 0, 0, 0, 20, 0, 0, 0, 2] =
      .ok hdr ∧ hdr.ALPExp = 18 ∧ hdr.Validate = .ok ()) ∧
    ¬ ∃ e, Decode [0, 4, 18, 0, 0, 0, 0, 0, 0, 0, 0, 10, 0, 0, 0, 0, 0, 0, 0, 20, 0, 0, 0, 2] =
      .error e := by
  have h : Decode [0, 4, 18, 0, 0, 0, 0, 0, 0, 0, 0, 10, 0, 0, 0, 0, 0, 0, 0, 20, 0, 0, 0, 2] =
      .ok [] := by decide
  refine ⟨h, by decide, by decide, ⟨_, rfl, by decide, by decide⟩, ?_⟩
  rintro ⟨e, he⟩
  rw [h] at he
  cases he

/-! ## The header on the wire -/

/-- The integer encoder never fails on two or more samples, and its output starts with the
marshalled header. -/
theorem intEncode_ok (e : IntEncoder) (a b : Int) (rest : List Int)
    (hdata : e.data = a :: b :: rest) :
    ∃ payload, e.Encode =
      .ok (Header.Marshal ⟨ModeInt,
        (if e.riceParam ≤ 0 ∨ e.autoRiceParam = true then AutoRiceParam e.data else e.riceParam),
        0, a, b, (e.data.length : Int)⟩ ++ payload) := by
  obtain ⟨payload, hp⟩ := encodeScaled_ok ModeInt 0 a b rest (e.data.length : Int)
    (fun _ =>
      if e.riceParam ≤ 0 ∨ e.autoRiceParam = true then AutoRiceParam e.data else e.riceParam)
    (rice_choice_pos _ _ _)
  refine ⟨payload, ?_⟩
  unfold IntEncoder.Encode
  rw [if_neg (by rw [hdata]; simp)]
  dsimp only
  rw [← hdata] at hp
  exact hp

theorem detectFrom_nonneg (data : List F64) (left p : Nat) : 0 ≤ detectFrom data left p := by
  induction left generalizing p with
  | zero => simp [detectFrom]
  | succ left ih =>
    unfold detectFrom
    split
    · omega
    · exact ih (p + 1)

/-- The integers returned by a successful `ALPEncode` are the input values scaled with the
returned exponent, which is at most 17, and not negative when the hint is an exponent or the
automatic detection. -/
theorem alpEncode_scaled {input : List F64} {exponent : Int} {scaled : List Int} {exp : Int}
    (h : ALPEncode input exponent = .ok (scaled, exp)) :
    scaled = input.map (fun val =>
      F64.toInt64 (F64.round (F64.mul val (pow10Table exp.toNat)))) ∧ 0 ≤ exp ∧ exp ≤ 17 := by
  unfold ALPEncode at h
  by_cases h0 : input.length = 0
  · rw [if_pos h0] at h; cases h
  · rw [if_neg h0] at h
    dsimp only at h
    by_cases h1 : (if exponent < 0 then detectPrecision input else exponent) ≥ 18
    · rw [if_pos h1] at h; cases h
    · rw [if_neg h1] at h
      simp only [Except.ok.injEq, Prod.mk.injEq] at h
      obtain ⟨h2, h3⟩ := h
      have hd := detectFrom_nonneg input 17 1
      rw [← h3, ← h2]
      refine ⟨rfl, ?_, by omega⟩
      unfold detectPrecision
      split <;> omega

/-- The shape of the output of the two float encoders after a successful `ALPEncode`. -/
theorem floatEncode_shape (input : List F64) (alp : Int) (rice : List Int → Int)
    (hrice : ∀ d, 1 ≤ rice d) (out : List Nat) (hlen : 2 ≤ input.length)
    (h : (match ALPEncode input alp with
      | .error err => Except.error err
      | .ok (scaled, exp) => encodeScaled ModeFloat exp scaled (input.length : Int) rice) =
        Except.ok out) :
    ∃ r exp, 1 ≤ r ∧ 0 ≤ exp ∧ exp ≤ 17 ∧ out.take 24 = Header.Marshal ⟨0, r, exp,
      F64.toInt64 (F64.round (F64.mul (input.getD 0 F64.nan) (pow10Table exp.toNat))),
      F64.toInt64 (F64.round (F64.mul (input.getD 1 F64.nan) (pow10Table exp.toNat))),
      (input.length : Int)⟩ := by
  cases halp : ALPEncode input alp with
  | error err => rw [halp] at h; cases h
  | ok pr =>
    obtain ⟨scaled, exp⟩ := pr
    rw [halp] at h
    dsimp only at h
    obtain ⟨hsc, he0, he⟩ := alpEncode_scaled halp
    match input, hlen with
    | x :: y :: rest, _ =>
      have hsc2 : scaled =
          F64.toInt64 (F64.round (F64.mul x (pow10Table exp.toNat))) ::
          F64.toInt64 (F64.round (F64.mul y (pow10Table exp.toNat))) ::
          rest.map (fun val => F64.toInt64 (F64.round (F64.mul val (pow10Table exp.toNat)))) :=
        hsc
      rw [hsc2] at h
      obtain ⟨payload, hp⟩ := encodeScaled_ok ModeFloat exp
        (F64.toInt64 (F64.round (F64.mul x (pow10Table exp.toNat))))
        (F64.toInt64 (F64.round (F64.mul y (pow10Table exp.toNat))))
        (rest.map (fun val => F64.toInt64 (F64.round (F64.mul val (pow10Table exp.toNat)))))
        ((x :: y :: rest).length : Int) rice (hrice _)
      rw [hp] at h
      simp only [Except.ok.injEq] at h
      refine ⟨rice (deltaLoop
        (F64.toInt64 (F64.round (F64.mul x (pow10Table exp.toNat))) ::
          F64.toInt64 (F64.round (F64.mul y (pow10Table exp.toNat))) ::
          rest.map (fun val => F64.toInt64 (F64.round (F64.mul val (pow10Table exp.toNat)))))),
        exp, hrice _, he0, he, ?_⟩
      rw [← h, List.take_left' (marshal_length _)]
      rfl

/-- C20. Header wire layout: `Marshal` returns exactly 24 bytes: the low eight bits of the mode
(the mode itself for Float = 0 and Int = 1), of `RiceParam` and of `ALPExp`, a zero byte, the
eight bytes of `First` and of `Second` in two's complement, most significant byte first, and the
four bytes of `ValueCount` as a `uint32`, most significant byte first. Every output of
`IntEncoder.Encode`, `Encode` and `FloatEncoder.Encode` begins with the marshalled header whose
mode is 1 (Int) or 0 (Float), whose first and second values are the first two input values (scaled with the
ALP exponent written in the header, for floats) and whose value count is the input length. -/
theorem header_wire_layout :
    (∀ h : Header,
      h.Marshal.length = 24 ∧ (∀ b ∈ h.Marshal, b < 256) ∧
      h.Marshal.getD 0 0 = (h.Mode % 256).toNat ∧
      h.Marshal.getD 1 0 = (h.RiceParam % 256).toNat ∧
      h.Marshal.getD 2 0 = (h.ALPExp % 256).toNat ∧
      h.Marshal.getD 3 0 = 0 ∧
      (∀ i < 8, h.Marshal.getD (4 + i) 0 =
        (h.First % 18446744073709551616).toNat / 256 ^ (7 - i) % 256) ∧
      (∀ i < 8, h.Marshal.getD (12 + i) 0 =
        (h.Second % 18446744073709551616).toNat / 256 ^ (7 - i) % 256) ∧
      (∀ i < 4, h.Marshal.getD (20 + i) 0 =
        (h.ValueCount % 4294967296).toNat / 256 ^ (3 - i) % 256) ∧
      (h.Mode = ModeFloat ∨ h.Mode = ModeInt → ((h.Marshal.getD 0 0 : Nat) : Int) = h.Mode)) ∧
    (∀ (e : IntEncoder) (out : List Nat), e.Encode = .ok out →
      ∃ rice, 1 ≤ rice ∧ out.take 24 = Header.Marshal
        ⟨1, rice, 0, e.data.getD 0 0, e.data.getD 1 0, (e.data.length : Int)⟩) ∧
    (∀ (input : List F64) (opts : Options) (out : List Nat), Encode input opts = .ok out →
      ∃ rice exp, 1 ≤ rice ∧ 0 ≤ exp ∧ exp ≤ 17 ∧ out.take 24 = Header.Marshal ⟨0, rice, exp,
        F64.toInt64 (F64.round (F64.mul (input.getD 0 F64.nan) (pow10Table exp.toNat))),
        F64.toInt64 (F64.round (F64.mul (input.getD 1 F64.nan) (pow10Table exp.toNat))),
        (input.length : Int)⟩) ∧
    (∀ (e : FloatEncoder) (out : List Nat), e.Encode = .ok out →
      ∃ rice exp, 1 ≤ rice ∧ 0 ≤ exp ∧ exp ≤ 17 ∧ out.take 24 = Header.Marshal ⟨0, rice, exp,
        F64.toInt64 (F64.round (F64.mul (e.data.getD 0 F64.nan) (pow10Table exp.toNat))),
        F64.toInt64 (F64.round (F64.mul (e.data.getD 1 F64.nan) (pow10Table exp.toNat))),
        (e.data.length : Int)⟩) := by
  refine ⟨fun h => ⟨marshal_length h, ?_, ?_, ?_, ?_, ?_, ?_, ?_, ?_, ?_⟩, ?_, ?_, ?_⟩
  · intro b hb
    simp only [Header.Marshal, putUint64, putUint32, Mode.Byte, toByte, List.cons_append,
      List.nil_append, List.mem_cons, List.mem_singleton, List.not_mem_nil, or_false] at hb
    omega
  · simp [Header.Marshal, Mode.Byte, toByte]
  · simp [Header.Marshal, toByte]
  · simp [Header.Marshal, toByte]
  · simp [Header.Marshal]
  · intro i hi
    interval_cases i <;> simp [Header.Marshal, putUint64, toUint64]
  · intro i hi
    interval_cases i <;> simp [Header.Marshal, putUint64, toUint64]
  · intro i hi
    interval_cases i <;> simp [Header.Marshal, putUint64, putUint32]
  · intro hm
    have h0 : h.Marshal.getD 0 0 = (h.Mode % 256).toNat := by
      simp [Header.Marshal, Mode.Byte, toByte]
    rw [h0]
    unfold ModeFloat ModeInt at hm
    omega
  · intro e out h
    by_cases hlen : e.data.length < 2
    · unfold IntEncoder.Encode at h
      rw [if_pos hlen] at h
      cases h
    · have hlen2 : 2 ≤ e.data.length := by omega
      match hd : e.data, hlen2 with
      | a :: b :: rest, _ =>
        obtain ⟨payload, hp⟩ := intEncode_ok e a b rest hd
        rw [hp] at h
        simp only [Except.ok.injEq] at h
        refine ⟨_, rice_choice_pos e.riceParam e.autoRiceParam (a :: b :: rest), ?_⟩
        rw [← h, List.take_left' (marshal_length _), hd]
        rfl
  · intro input opts out h
    unfold Encode at h
    by_cases hlen : input.length < 2
    · rw [if_pos hlen] at h; cases h
    · rw [if_neg hlen] at h
      dsimp only at h
      by_cases hmode : (if opts.Mode = 0 then ModeFloat else opts.Mode) ≠ ModeFloat
      · rw [if_pos hmode] at h; cases h
      · rw [if_neg hmode, not_not.mp hmode] at h
        exact floatEncode_shape input _ _ (fun d => rice_option_pos _ d) out (by omega) h
  · intro e out h
    unfold FloatEncoder.Encode at h
    by_cases hlen : e.data.length < 2
    · rw [if_pos hlen] at h; cases h
    · rw [if_neg hlen] at h
      dsimp only at h
      exact floatEncode_shape e.data _ _ (fun d => rice_choice_pos _ _ d) out (by omega) h

set_option exponentiation.threshold 10000 in
set_option maxRecDepth 100000 in
/-- Witness for C20: the header `{1, 16, 0, 10, -2, 5}`, the integer input
`[10, 15, 20, 25, 30]` and the float input `[1.5, 2.5]` with the exponent 2. -/
theorem header_wire_layout_witness :
    ((Header.mk 1 16 0 10 (-2) 5).Marshal.length = 24 ∧
      (∀ b ∈ (Header.mk 1 16 0 10 (-2) 5).Marshal, b < 256) ∧
      (Header.mk 1 16 0 10 (-2) 5).Marshal.getD 0 0 = ((1 : Int) % 256).toNat ∧
      (Header.mk 1 16 0 10 (-2) 5).Marshal.getD 1 0 = ((16 : Int) % 256).toNat ∧
      (Header.mk 1 16 0 10 (-2) 5).Marshal.getD 2 0 = ((0 : Int) % 256).toNat ∧
      (Header.mk 1 16 0 10 (-2) 5).Marshal.getD 3 0 = 0 ∧
      (∀ i < 8, (Header.mk 1 16 0 10 (-2) 5).Marshal.getD (4 + i) 0 =
        ((10 : Int) % 18446744073709551616).toNat / 256 ^ (7 - i) % 256) ∧
      (∀ i < 8, (Header.mk 1 16 0 10 (-2) 5).Marshal.getD (12 + i) 0 =
        ((-2 : Int) % 18446744073709551616).toNat / 256 ^ (7 - i) % 256) ∧
      (∀ i < 4, (Header.mk 1 16 0 10 (-2) 5).Marshal.getD (20 + i) 0 =
        ((5 : Int) % 4294967296).toNat / 256 ^ (3 - i) % 256) ∧
      ((1 : Int) = ModeFloat ∨ (1 : Int) = ModeInt →
        (((Header.mk 1 16 0 10 (-2) 5).Marshal.getD 0 0 : Nat) : Int) = 1)) ∧
    (∃ rice, 1 ≤ rice ∧
      ([1, 16, 0, 0, 0, 0, 0, 0, 0, 0, 0, 10, 0, 0, 0, 0, 0, 0, 0, 15, 0, 0, 0, 5, 132, 32] :
        List Nat).take 24 = Header.Marshal ⟨1, rice, 0, 10, 15, 5⟩) ∧
    (∃ rice exp, 1 ≤ rice ∧ 0 ≤ exp ∧ exp ≤ 17 ∧
      ([0, 4, 2, 0, 0, 0, 0, 0, 0, 0, 0, 150, 0, 0, 0, 0, 0, 0, 0, 250, 0, 0, 0, 2] :
        List Nat).take 24 = Header.Marshal ⟨0, rice, exp,
          F64.toInt64 (F64.round (F64.mul (.fin false 6755399441055744 (-52))
            (pow10Table exp.toNat))),
          F64.toInt64 (F64.round (F64.mul (.fin false 5629499534213120 (-51))
            (pow10Table exp.toNat))), 2⟩) ∧
    (∃ rice exp, 1 ≤ rice ∧ 0 ≤ exp ∧ exp ≤ 17 ∧
      ([0, 4, 2, 0, 0, 0, 0, 0, 0, 0, 0, 150, 0, 0, 0, 0, 0, 0, 0, 250, 0, 0, 0, 2] :
        List Nat).take 24 = Header.Marshal ⟨0, rice, exp,
          F64.toInt64 (F64.round (F64.mul (.fin false 6755399441055744 (-52))
            (pow10Table exp.toNat))),
          F64.toInt64 (F64.round (F64.mul (.fin false 5629499534213120 (-51))
            (pow10Table exp.toNat))), 2⟩) :=
  ⟨header_wire_layout.1 ⟨1, 16, 0, 10, -2, 5⟩,
   header_wire_layout.2.1 (NewIntEncoder [10, 15, 20, 25, 30])
     [1, 16, 0, 0, 0, 0, 0, 0, 0, 0, 0, 10, 0, 0, 0, 0, 0, 0, 0, 15, 0, 0, 0, 5, 132, 32]
     (by decide),
   header_wire_layout.2.2.1
     [.fin false 6755399441055744 (-52), .fin false 5629499534213120 (-51)] ⟨0, 4, 2⟩
     [0, 4, 2, 0, 0, 0, 0, 0, 0, 0, 0, 150, 0, 0, 0, 0, 0, 0, 0, 250, 0, 0, 0, 2] (by decide),
   header_wire_layout.2.2.2
     (((NewFloatEncoder [.fin false 6755399441055744 (-52),
       .fin false 5629499534213120 (-51)]).WithRiceParam 4).WithPrecision 2)
     [0, 4, 2, 0, 0, 0, 0, 0, 0, 0, 0, 150, 0, 0, 0, 0, 0, 0, 0, 250, 0, 0, 0, 2] (by decide)⟩

/-! ## ZigZag: the bit-trick form and the order of magnitudes -/

theorem xor_all_ones (x : Nat) (hx : x < 18446744073709551616) :
    x ^^^ 18446744073709551615 = 18446744073709551615 - x := by
  apply Nat.eq_of_testBit_eq
  intro i
  have h1 : (18446744073709551615 : Nat) = 2 ^ 64 - 1 := by norm_num
  have h2 : 18446744073709551615 - x = 2 ^ 64 - (x + 1) := by omega
  rw [Nat.testBit_xor, h2, Nat.testBit_two_pow_sub_succ (by omega), h1,
    Nat.testBit_two_pow_sub_one]
  by_cases hi : i < 64
  · simp [hi]
  · have : x.testBit i = false :=
      Nat.testBit_lt_two_pow (lt_of_lt_of_le (by omega : x < 2 ^ 64)
        (Nat.pow_le_pow_right (by omega) (by omega)))
    simp [hi, this]

theorem zigZagBitTrick_val {n : Int} (h : IsInt64 n) :
    (zigZagBitTrick n : Int) = if n ≥ 0 then 2 * n else -2 * n - 1 := by
  unfold IsInt64 at h
  unfold zigZagBitTrick
  have hs : n >>> (63 : Nat) = n / 9223372036854775808 := by
    rw [Int.shiftRight_eq_div_pow]
    norm_num
  rw [hs, Nat.shiftLeft_eq]
  by_cases hn : n ≥ 0
  · rw [if_pos hn]
    have h0 : toUint64 (n / 9223372036854775808) = 0 := by unfold toUint64; omega
    rw [h0, Nat.xor_zero]
    unfold toUint64
    omega
  · rw [if_neg hn]
    have h1 : toUint64 (n / 9223372036854775808) = 18446744073709551615 := by
      unfold toUint64; omega
    rw [h1, xor_all_ones _ (Nat.mod_lt _ (by omega))]
    unfold toUint64
    omega

set_option maxRecDepth 100000 in
/-- C23. ZigZag formula equivalence: for every `int64` `n`, the branch-based code computed by
`ZigZagEncode` equals the bit-trick `(n << 1) XOR (n >> 63)`; `ZigZagEncode` maps
`[0, -1, 1, -2, 2, -3]` to `[0, 1, 2, 3, 4, 5]` and `INT64_MIN` to `2^64 - 1`. -/
theorem zigZag_bit_trick :
    (∀ n : Int, IsInt64 n → zigZagEncode1 n = zigZagBitTrick n) ∧
    (∀ v : List Int, v ≠ [] → (∀ n ∈ v, IsInt64 n) →
      ZigZagEncode v = .ok (v.map zigZagBitTrick)) ∧
    ZigZagEncode [0, -1, 1, -2, 2, -3] = .ok [0, 1, 2, 3, 4, 5] ∧
    ZigZagEncode [-9223372036854775808] = .ok [18446744073709551615] := by
  have h1 : ∀ n : Int, IsInt64 n → zigZagEncode1 n = zigZagBitTrick n := by
    intro n hn
    have a := zigZagEncode1_val hn
    have b := zigZagBitTrick_val hn
    omega
  refine ⟨h1, ?_, by decide, by decide⟩
  intro v hne hv
  unfold ZigZagEncode
  rw [if_neg (by simpa using hne)]
  congr 1
  exact List.map_congr_left (fun n hn => h1 n (hv n hn))

set_option maxRecDepth 100000 in
/-- Witness for C23: the values 5 and `INT64_MIN`. -/
theorem zigZag_bit_trick_witness :
    zigZagEncode1 5 = zigZagBitTrick 5 ∧
    ZigZagEncode [-9223372036854775808, 7] =
      .ok ([-9223372036854775808, 7].map zigZagBitTrick) :=
  ⟨zigZag_bit_trick.1 5 (by decide),
   zigZag_bit_trick.2.1 [-9223372036854775808, 7] (by decide) (by decide)⟩

/-- C24. ZigZag preserves the order of magnitudes: the code of an `int64` `n` is `2n` for
`n ≥ 0` and `2|n| - 1` for `n < 0`, and for all `int64` `a`, `b` with `|a| < |b|` (absolute
values over the integers, so `|INT64_MIN| = 2^63`) the code of `a` is strictly smaller than the
code of `b`. -/
theorem zigZag_magnitude_order (a b : Int) (ha : IsInt64 a) (hb : IsInt64 b)
    (hab : a.natAbs < b.natAbs) :
    zigZagEncode1 a < zigZagEncode1 b ∧
    zigZagEncode1 a = (if a ≥ 0 then 2 * a.natAbs else 2 * a.natAbs - 1) ∧
    zigZagEncode1 b = (if b ≥ 0 then 2 * b.natAbs else 2 * b.natAbs - 1) := by
  have h1 := zigZagEncode1_val ha
  have h2 := zigZagEncode1_val hb
  unfold IsInt64 at ha hb
  refine ⟨?_, ?_, ?_⟩
  · split at h1 <;> split at h2 <;> omega
  · split at h1 <;> split <;> omega
  · split at h2 <;> split <;> omega

set_option maxRecDepth 100000 in
/-- Witness for C24: `a = INT64_MAX` and `b = INT64_MIN`. -/
theorem zigZag_magnitude_order_witness :
    zigZagEncode1 9223372036854775807 < zigZagEncode1 (-9223372036854775808) ∧
    zigZagEncode1 9223372036854775807 =
      (if (9223372036854775807 : Int) ≥ 0 then 2 * (9223372036854775807 : Int).natAbs
        else 2 * (9223372036854775807 : Int).natAbs - 1) ∧
    zigZagEncode1 (-9223372036854775808) =
      (if (-9223372036854775808 : Int) ≥ 0 then 2 * (-9223372036854775808 : Int).natAbs
        else 2 * (-9223372036854775808 : Int).natAbs - 1) :=
  zigZag_magnitude_order 9223372036854775807 (-9223372036854775808) (by decide) (by decide)
    (by decide)

/-! ## Predictive delta: the residuals -/

/-- The residual at index `i` is `v[i+2] - (2 * v[i+1] - v[i])` reduced to the `int64` range. -/
theorem deltaLoop_getD : ∀ (v : List Int) (i : Nat), i + 2 < v.length →
    (deltaLoop v).getD i 0 = wrap64 (v.getD (i + 2) 0 - (2 * v.getD (i + 1) 0 - v.getD i 0))
  | [], _, h => by simp at h
  | [_], _, h => by simp at h
  | [_, _], _, h => by simp at h
  | a :: b :: c :: rest, 0, _ => by
    simp only [deltaLoop, List.getD_cons_zero, List.getD_cons_succ]
    unfold wrap64
    omega
  | a :: b :: c :: rest, i + 1, h => by
    have ih := deltaLoop_getD (b :: c :: rest) i (by simp only [List.length_cons] at h ⊢; omega)
    simp only [deltaLoop, List.getD_cons_succ]
    exact ih

theorem undeltaLoop_length (ds : List Int) (p2 p1 : Int) :
    (undeltaLoop ds p2 p1).length = ds.length := by
  induction ds generalizing p2 p1 with
  | nil => rfl
  | cons d ds ih => simp [undeltaLoop, ih]

theorem deltaLoop_length_sub (v : List Int) : (deltaLoop v).length = v.length - 2 := by
  match v with
  | [] => rfl
  | [_] => rfl
  | a :: b :: rest => rw [deltaLoop_length]; simp

/-- C25. Predictive-delta definition: for every array `v` with at least two elements,
`DeltaEncode v` returns `first = v[0]`, `second = v[1]` and `len(v) - 2` residuals with
`residuals[i-2] = v[i] - (2*v[i-1] - v[i-2])` modulo `2^64` for every `i ≥ 2`; `DeltaDecode`
never fails and returns `len(r) + 2` values; `DeltaEncode [10, 20, 35, 50]` is
`([5, 0], 10, 20)`. -/
theorem delta_definition (v : List Int) (hlen : 2 ≤ v.length) :
    (∃ deltas, DeltaEncode v = .ok (deltas, v.getD 0 0, v.getD 1 0) ∧
      deltas.length = v.length - 2 ∧
      ∀ i, 2 ≤ i → i < v.length →
        deltas.getD (i - 2) 0 =
          wrap64 (v.getD i 0 - (2 * v.getD (i - 1) 0 - v.getD (i - 2) 0))) ∧
    (∀ (r : List Int) (first second : Int),
      ∃ out, DeltaDecode r first second = .ok out ∧ out.length = r.length + 2) ∧
    DeltaEncode [10, 20, 35, 50] = .ok ([5, 0], 10, 20) := by
  refine ⟨?_, ?_, by decide⟩
  · match v, hlen with
    | a :: b :: rest, _ =>
      refine ⟨deltaLoop (a :: b :: rest), rfl, deltaLoop_length_sub _, ?_⟩
      intro i hi2 hi
      obtain ⟨j, rfl⟩ : ∃ j, i = j + 2 := ⟨i - 2, by omega⟩
      have := deltaLoop_getD (a :: b :: rest) j hi
      simpa using this
  · intro r first second
    refine ⟨_, rfl, ?_⟩
    simp [undeltaLoop_length]

/-- Witness for C25: the array `[10, 20, 35, 50]`. -/
theorem delta_definition_witness :
    (∃ deltas, DeltaEncode [10, 20, 35, 50] =
        .ok (deltas, ([10, 20, 35, 50] : List Int).getD 0 0,
          ([10, 20, 35, 50] : List Int).getD 1 0) ∧
      deltas.length = ([10, 20, 35, 50] : List Int).length - 2 ∧
      ∀ i, 2 ≤ i → i < ([10, 20, 35, 50] : List Int).length →
        deltas.getD (i - 2) 0 =
          wrap64 (([10, 20, 35, 50] : List Int).getD i 0 -
            (2 * ([10, 20, 35, 50] : List Int).getD (i - 1) 0 -
              ([10, 20, 35, 50] : List Int).getD (i - 2) 0))) ∧
    (∀ (r : List Int) (first second : Int),
      ∃ out, DeltaDecode r first second = .ok out ∧ out.length = r.length + 2) ∧
    DeltaEncode [10, 20, 35, 50] = .ok ([5, 0], 10, 20) :=
  delta_definition [10, 20, 35, 50] (by decide)

/-! ## Arithmetic progressions -/

theorem getD_isInt64 (v : List Int) (hv : ∀ n ∈ v, IsInt64 n) (i : Nat) (hi : i < v.length) :
    IsInt64 (v.getD i 0) := by
  rw [List.getD_eq_getElem _ _ hi]
  exact hv _ (List.getElem_mem _)

/-- All residuals vanish exactly when every three consecutive values satisfy the linear
recurrence modulo `2^64`. -/
theorem deltaLoop_zero_iff (v : List Int) :
    (∀ r ∈ deltaLoop v, r = 0) ↔
      ∀ i, i + 2 < v.length →
        wrap64 (v.getD (i + 2) 0 - (2 * v.getD (i + 1) 0 - v.getD i 0)) = 0 := by
  constructor
  · intro h i hi
    rw [← deltaLoop_getD v i hi]
    have hl : i < (deltaLoop v).length := by rw [deltaLoop_length_sub]; omega
    rw [List.getD_eq_getElem _ _ hl]
    exact h _ (List.getElem_mem _)
  · intro h r hr
    obtain ⟨i, hi, rfl⟩ := List.getElem_of_mem hr
    have hl : i + 2 < v.length := by rw [deltaLoop_length_sub] at hi; omega
    rw [← List.getD_eq_getElem _ 0 hi, deltaLoop_getD v i hl]
    exact h i hl

/-- C26. Arithmetic progressions collapse to zero: for every `int64` array `v` with at least two
elements, all residuals returned by `DeltaEncode v` are 0 if and only if
`v[i] = v[0] + i * (v[1] - v[0])` modulo `2^64` for every index `i`. -/
theorem progression_iff_zero_residuals (v : List Int) (hlen : 2 ≤ v.length)
    (hv : ∀ n ∈ v, IsInt64 n) :
    (∃ deltas first second, DeltaEncode v = .ok (deltas, first, second) ∧
      ∀ r ∈ deltas, r = 0) ↔
    (∀ i, i < v.length →
      v.getD i 0 = wrap64 (v.getD 0 0 + (i : Int) * (v.getD 1 0 - v.getD 0 0))) := by
  have henc : DeltaEncode v = .ok (deltaLoop v, v.getD 0 0, v.getD 1 0) := by
    match v, hlen with
    | a :: b :: rest, _ => rfl
  have hleft : (∃ deltas first second, DeltaEncode v = .ok (deltas, first, second) ∧
      ∀ r ∈ deltas, r = 0) ↔ ∀ r ∈ deltaLoop v, r = 0 := by
    constructor
    · rintro ⟨deltas, first, second, h1, h2⟩
      rw [henc] at h1
      simp only [Except.ok.injEq, Prod.mk.injEq] at h1
      rw [h1.1]; exact h2
    · intro h
      exact ⟨_, _, _, henc, h⟩
  rw [hleft, deltaLoop_zero_iff]
  constructor
  · intro h
    have key : ∀ i, (i < v.length →
        v.getD i 0 = wrap64 (v.getD 0 0 + (i : Int) * (v.getD 1 0 - v.getD 0 0))) ∧
        (i + 1 < v.length →
        v.getD (i + 1) 0 =
          wrap64 (v.getD 0 0 + ((i + 1 : Nat) : Int) * (v.getD 1 0 - v.getD 0 0))) := by
      intro i
      induction i with
      | zero =>
        have h0 := getD_isInt64 v hv 0 (by omega)
        have h1 := getD_isInt64 v hv 1 (by omega)
        unfold IsInt64 at h0 h1
        constructor
        · intro _; unfold wrap64; push_cast; omega
        · intro _; unfold wrap64; push_cast; omega
      | succ i ih =>
        refine ⟨ih.2, ?_⟩
        intro hi
        have e0 := ih.1 (by omega)
        have e1 := ih.2 (by omega)
        have hz := h i hi
        have h2 := getD_isInt64 v hv (i + 2) hi
        unfold IsInt64 at h2
        generalize v.getD (i + 2) 0 = c at hz h2 ⊢
        generalize v.getD (i + 1) 0 = b at e1 hz
        generalize v.getD i 0 = a at e0 hz
        generalize v.getD 1 0 - v.getD 0 0 = d at e0 e1 ⊢
        generalize v.getD 0 0 = a0 at e0 e1 ⊢
        have m1 : ((i + 1 : Nat) : Int) * d = (i : Int) * d + d := by push_cast; ring
        have m2 : ((i + 1 + 1 : Nat) : Int) * d = (i : Int) * d + 2 * d := by push_cast; ring
        rw [m1] at e1
        rw [m2]
        generalize (i : Int) * d = t at e0 e1 ⊢
        subst e0 e1
        unfold wrap64 at hz ⊢
        omega
    exact fun i hi => (key i).1 hi
  · intro h i hi
    have e0 := h i (by omega)
    have e1 := h (i + 1) (by omega)
    have e2 := h (i + 2) hi
    generalize v.getD (i + 2) 0 = c at e2 ⊢
    generalize v.getD (i + 1) 0 = b at e1 ⊢
    generalize v.getD i 0 = a at e0 ⊢
    generalize v.getD 1 0 - v.getD 0 0 = d at e0 e1 e2
    generalize v.getD 0 0 = a0 at e0 e1 e2
    have m1 : ((i + 1 : Nat) : Int) * d = (i : Int) * d + d := by push_cast; ring
    have m2 : ((i + 2 : Nat) : Int) * d = (i : Int) * d + 2 * d := by push_cast; ring
    rw [m1] at e1
    rw [m2] at e2
    generalize (i : Int) * d = t at e0 e1 e2
    subst e0 e1 e2
    unfold wrap64
    omega

/-- Witness for C26: the array `[10, 15, 20, 25]`. -/
theorem progression_iff_zero_residuals_witness :
    (∃ deltas first second, DeltaEncode [10, 15, 20, 25] = .ok (deltas, first, second) ∧
      ∀ r ∈ deltas, r = 0) ↔
    (∀ i, i < ([10, 15, 20, 25] : List Int).length →
      ([10, 15, 20, 25] : List Int).getD i 0 =
        wrap64 (([10, 15, 20, 25] : List Int).getD 0 0 +
          (i : Int) * (([10, 15, 20, 25] : List Int).getD 1 0 -
            ([10, 15, 20, 25] : List Int).getD 0 0))) :=
  progression_iff_zero_residuals [10, 15, 20, 25] (by decide) (by decide)

/-! ## The reserved byte -/

theorem getD_set_ne (l : List Nat) (i j x : Nat) (h : i ≠ j) :
    (l.set i x).getD j 0 = l.getD j 0 := by
  simp only [List.getD_eq_getElem?_getD]
  rw [List.getElem?_set_ne h]

/-- `Unmarshal` reads the bytes 0, 1, 2 and 4..23 only, and the length only to compare it
with 24. -/
theorem unmarshal_congr (b1 b2 : List Nat) (h1 : 24 ≤ b1.length) (h2 : 24 ≤ b2.length)
    (h : ∀ i, i < 24 → i ≠ 3 → b1.getD i 0 = b2.getD i 0) :
    Unmarshal b1 = Unmarshal b2 := by
  unfold Unmarshal
  rw [if_neg (by unfold HeaderSize; omega), if_neg (by unfold HeaderSize; omega)]
  unfold getUint64 getUint32
  rw [h 0 (by omega) (by omega), h 1 (by omega) (by omega), h 2 (by omega) (by omega),
    h 4 (by omega) (by omega), h 5 (by omega) (by omega), h 6 (by omega) (by omega),
    h 7 (by omega) (by omega), h 8 (by omega) (by omega), h 9 (by omega) (by omega),
    h 10 (by omega) (by omega), h 11 (by omega) (by omega), h 12 (by omega) (by omega),
    h 13 (by omega) (by omega), h 14 (by omega) (by omega), h 15 (by omega) (by omega),
    h 16 (by omega) (by omega), h 17 (by omega) (by omega), h 18 (by omega) (by omega),
    h 19 (by omega) (by omega), h 20 (by omega) (by omega), h 21 (by omega) (by omega),
    h 22 (by omega) (by omega), h 23 (by omega) (by omega)]

theorem drop_set_lt (l : List Nat) (i n x : Nat) (h : i < n) :
    (l.set i x).drop n = l.drop n := by
  apply List.ext_getElem?
  intro j
  rw [List.getElem?_drop, List.getElem?_drop, List.getElem?_set_ne (by omega)]

/-- `decodeScaled` does not depend on the byte at offset 3. -/
theorem decodeScaled_set_three (mode : Int) (buf : List Nat) (x : Nat) :
    decodeScaled mode (buf.set 3 x) = decodeScaled mode buf := by
  by_cases hlen : buf.length < 24
  · rw [decodeScaled_short _ _ hlen, decodeScaled_short _ _ (by rw [List.length_set]; exact hlen)]
  · have hu : Unmarshal (buf.set 3 x) = Unmarshal buf :=
      unmarshal_congr _ _ (by rw [List.length_set]; omega) (by omega)
        (fun i _ hi3 => getD_set_ne buf 3 i x (by omega))
    unfold decodeScaled
    rw [List.length_set, hu, drop_set_lt buf 3 HeaderSize x (by decide)]

/-- C21. Reserved byte: `Marshal` writes 0 at offset 3; for any two buffers of at least 24 bytes
that agree on the bytes 0..2 and 4..23, `Unmarshal` returns equal headers, whatever byte 3 and
the bytes from offset 24 on are; and the results of `Decode`, `Decoder.DecodeFloat` and
`Decoder.DecodeInt` do not change when byte 3 is replaced by any value. -/
theorem reserved_byte_ignored :
    (∀ h : Header, h.Marshal.getD 3 0 = 0) ∧
    (∀ b1 b2 : List Nat, 24 ≤ b1.length → 24 ≤ b2.length →
      (∀ i, i < 24 → i ≠ 3 → b1.getD i 0 = b2.getD i 0) →
      ∃ hdr, Unmarshal b1 = .ok hdr ∧ Unmarshal b2 = .ok hdr) ∧
    (∀ (buf : List Nat) (x : Nat),
      Decode (buf.set 3 x) = Decode buf ∧
      (NewDecoder (buf.set 3 x)).DecodeFloat = (NewDecoder buf).DecodeFloat ∧
      (NewDecoder (buf.set 3 x)).DecodeInt = (NewDecoder buf).DecodeInt) := by
  refine ⟨fun h => by simp [Header.Marshal], ?_, ?_⟩
  · intro b1 b2 h1 h2 h
    have hu := unmarshal_congr b1 b2 h1 h2 h
    have hok : ∃ hdr, Unmarshal b2 = .ok hdr := by
      unfold Unmarshal
      rw [if_neg (by unfold HeaderSize; omega)]
      exact ⟨_, rfl⟩
    obtain ⟨hdr, hh⟩ := hok
    exact ⟨hdr, hu.trans hh, hh⟩
  · intro buf x
    simp only [Decode, Decoder.DecodeFloat, Decoder.DecodeInt, NewDecoder,
      decodeScaled_set_three, and_self]

set_option exponentiation.threshold 10000 in
set_option maxRecDepth 100000 in
/-- Witness for C21: two buffers that differ in byte 3 and after the header, and a buffer whose
byte 3 is set to 255. -/
theorem reserved_byte_ignored_witness :
    (∃ hdr,
      Unmarshal [0, 4, 1, 9, 0, 0, 0, 0, 0, 0, 0, 10, 0, 0, 0, 0, 0, 0, 0, 20, 0, 0, 0, 2, 7] =
        .ok hdr ∧
      Unmarshal [0, 4, 1, 0, 0, 0, 0, 0, 0, 0, 0, 10, 0, 0, 0, 0, 0, 0, 0, 20, 0, 0, 0, 2] =
        .ok hdr) ∧
    (Decode (([0, 4, 1, 0, 0, 0, 0, 0, 0, 0, 0, 10, 0, 0, 0, 0, 0, 0, 0, 20, 0, 0, 0, 2] :
        List Nat).set 3 255) =
      Decode [0, 4, 1, 0, 0, 0, 0, 0, 0, 0, 0, 10, 0, 0, 0, 0, 0, 0, 0, 20, 0, 0, 0, 2] ∧
     (NewDecoder (([0, 4, 1, 0, 0, 0, 0, 0, 0, 0, 0, 10, 0, 0, 0, 0, 0, 0, 0, 20, 0, 0, 0, 2] :
        List Nat).set 3 255)).DecodeFloat =
      (NewDecoder [0, 4, 1, 0, 0, 0, 0, 0, 0, 0, 0, 10, 0, 0, 0, 0, 0, 0, 0, 20, 0, 0, 0,
        2]).DecodeFloat ∧
     (NewDecoder (([0, 4, 1, 0, 0, 0, 0, 0, 0, 0, 0, 10, 0, 0, 0, 0, 0, 0, 0, 20, 0, 0, 0, 2] :
        List Nat).set 3 255)).DecodeInt =
      (NewDecoder [0, 4, 1, 0, 0, 0, 0, 0, 0, 0, 0, 10, 0, 0, 0, 0, 0, 0, 0, 20, 0, 0, 0,
        2]).DecodeInt) :=
  ⟨reserved_byte_ignored.2.1
     [0, 4, 1, 9, 0, 0, 0, 0, 0, 0, 0, 10, 0, 0, 0, 0, 0, 0, 0, 20, 0, 0, 0, 2, 7]
     [0, 4, 1, 0, 0, 0, 0, 0, 0, 0, 0, 10, 0, 0, 0, 0, 0, 0, 0, 20, 0, 0, 0, 2]
     (by decide) (by decide) (by decide),
   reserved_byte_ignored.2.2
     [0, 4, 1, 0, 0, 0, 0, 0, 0, 0, 0, 10, 0, 0, 0, 0, 0, 0, 0, 20, 0, 0, 0, 2] 255⟩

/-! ## The mode option of the float encoder -/

set_option maxRecDepth 100000 in
/-- The powers of two that are `int` values pass the test of the coder, and their trailing zero
count is the exponent. -/
theorem pow2_fin : ∀ k < 63,
    isPow2 ((2 : Int) ^ k) = true ∧ TrailingZeros ((2 : Int) ^ k) = k ∧
    toUint64 ((2 : Int) ^ k) = 2 ^ k ∧ toUint64 ((2 : Int) ^ k - 1) = 2 ^ k - 1 := by
  decide

/-- On a power of two the shift is the division and the mask is the remainder. -/
theorem rice_pow2 (k : Nat) (hk : k < 63) (x : Nat) :
    riceQuot ((2 : Int) ^ k) x = x / toUint64 ((2 : Int) ^ k) ∧
    riceRem ((2 : Int) ^ k) x = x % toUint64 ((2 : Int) ^ k) := by
  obtain ⟨h1, h2, h3, h4⟩ := pow2_fin k hk
  unfold riceQuot riceRem
  rw [if_pos h1, if_pos h1, h2, h3, h4, Nat.shiftRight_eq_div_pow,
    Nat.and_pow_two_sub_one_eq_mod]
  exact ⟨rfl, rfl⟩

theorem encodeValue_pow2 (k : Nat) (hk : k < 63) :
    encodeValue ((2 : Int) ^ k) = encodeValueGeneral ((2 : Int) ^ k) := by
  funext w x
  unfold encodeValue encodeValueGeneral
  rw [(rice_pow2 k hk x).1, (rice_pow2 k hk x).2]

/-- The value rebuilt by the decoder on a power of two: the or is the sum. -/
theorem shift_or_eq (k : Nat) (hk : k ≤ 64) (q r : Nat) (hr : r < 2 ^ k) :
    ((q <<< k) % 18446744073709551616) ||| r = (q * 2 ^ k + r) % 18446744073709551616 := by
  have h64 : (18446744073709551616 : Nat) = 2 ^ k * 2 ^ (64 - k) := by
    rw [← pow_add]
    have : k + (64 - k) = 64 := by omega
    rw [this]
    norm_num
  have hc : (q * 2 ^ k) % 18446744073709551616 = 2 ^ k * (q % 2 ^ (64 - k)) := by
    rw [h64, Nat.mul_comm q, Nat.mul_mod_mul_left]
  have hlt : 2 ^ k * (q % 2 ^ (64 - k)) + r < 18446744073709551616 := by
    have h1 : q % 2 ^ (64 - k) + 1 ≤ 2 ^ (64 - k) := Nat.mod_lt _ (Nat.two_pow_pos _)
    have h2 := Nat.mul_le_mul_left (2 ^ k) h1
    rw [← h64, Nat.mul_add, Nat.mul_one] at h2
    omega
  rw [Nat.shiftLeft_eq, hc, ← Nat.mul_add_lt_is_or hr, Nat.add_mod, hc,
    Nat.mod_eq_of_lt (a := r) (by omega), Nat.mod_eq_of_lt hlt]

/-- C29. The power-of-two fast path equals the general path: for every `m = 2^k` that is an
`int` (`k ≤ 62`) the coder takes the shift/mask branch with the shift `k`, for every `x` the
shift `x >> k` is `x / m` and the mask `x AND (m - 1)` is `x mod m`, so `GolombRiceEncode` returns
the same bytes, bit count and value count as the function that always divides; and for every
`uint64` `q` and every `r < m` the decoder's `(q << k) OR r` is `q*m + r` modulo `2^64`. -/
theorem pow2_fast_path (k : Nat) (hk : k ≤ 62) :
    isPow2 ((2 : Int) ^ k) = true ∧ TrailingZeros ((2 : Int) ^ k) = k ∧
    (∀ x : Nat, x >>> k = x / toUint64 ((2 : Int) ^ k) ∧
      x &&& toUint64 ((2 : Int) ^ k - 1) = x % toUint64 ((2 : Int) ^ k)) ∧
    (∀ u : List Nat,
      GolombRiceEncode u ((2 : Int) ^ k) = GolombRiceEncodeGeneral u ((2 : Int) ^ k)) ∧
    (∀ q r : Nat, q < 18446744073709551616 → r < toUint64 ((2 : Int) ^ k) →
      ((q <<< TrailingZeros ((2 : Int) ^ k)) % 18446744073709551616) ||| r =
        (q * toUint64 ((2 : Int) ^ k) + r) % 18446744073709551616) := by
  obtain ⟨h1, h2, h3, h4⟩ := pow2_fin k (by omega)
  refine ⟨h1, h2, ?_, ?_, ?_⟩
  · intro x
    rw [h3, h4, Nat.shiftRight_eq_div_pow, Nat.and_pow_two_sub_one_eq_mod]
    exact ⟨rfl, rfl⟩
  · intro u
    unfold GolombRiceEncode GolombRiceEncodeGeneral
    rw [encodeValue_pow2 k (by omega)]
  · intro q r _ hr
    rw [h2, h3] at *
    exact shift_or_eq k (by omega) q r hr

set_option maxRecDepth 100000 in
/-- Witness for C29: `m = 8`. -/
theorem pow2_fast_path_witness :
    isPow2 ((2 : Int) ^ 3) = true ∧ TrailingZeros ((2 : Int) ^ 3) = 3 ∧
    (∀ x : Nat, x >>> 3 = x / toUint64 ((2 : Int) ^ 3) ∧
      x &&& toUint64 ((2 : Int) ^ 3 - 1) = x % toUint64 ((2 : Int) ^ 3)) ∧
    (∀ u : List Nat,
      GolombRiceEncode u ((2 : Int) ^ 3) = GolombRiceEncodeGeneral u ((2 : Int) ^ 3)) ∧
    (∀ q r : Nat, q < 18446744073709551616 → r < toUint64 ((2 : Int) ^ 3) →
      ((q <<< TrailingZeros ((2 : Int) ^ 3)) % 18446744073709551616) ||| r =
        (q * toUint64 ((2 : Int) ^ 3) + r) % 18446744073709551616) :=
  pow2_fast_path 3 (by decide)

/-! ## Golomb-Rice: what a successful read has consumed -/

theorem remBits_length (r n : Nat) : (remBits r n).length = n := by
  induction n with
  | zero => rfl
  | succ n ih => simp [remBits, ih]

/-- A successful `readBit` has taken the next bit of the stream. -/
theorem readBit_inv {data : List Nat} {rd rd1 : BitReader} {b : Nat} (hrd : rd.bitIdx < 8)
    (h : readBit data rd = .ok (b, rd1)) :
    (bitsOf data).drop rd.pos = b :: (bitsOf data).drop rd1.pos ∧ rd1.bitIdx < 8 ∧ b ≤ 1 := by
  unfold readBit at h
  by_cases hidx : rd.byteIdx ≥ data.length
  · rw [if_pos hidx] at h; cases h
  · rw [if_neg hidx] at h
    have hpos : rd.pos < 8 * data.length := by unfold BitReader.pos; omega
    have hpl : rd.pos < (bitsOf data).length := by rw [bitsOf_length]; exact hpos
    have hget : (bitsOf data)[rd.pos] = getBit data rd.pos := by
      have h1 := bitsOf_getElem? data rd.pos hpos
      rw [List.getElem?_eq_getElem hpl] at h1
      exact Option.some.inj h1
    have hbit : (data.getD rd.byteIdx 0 >>> (7 - rd.bitIdx)) &&& 1 = getBit data rd.pos := by
      rw [Nat.and_one_is_mod, Nat.shiftRight_eq_div_pow]
      unfold getBit BitReader.pos
      have e1 : (8 * rd.byteIdx + rd.bitIdx) / 8 = rd.byteIdx := by omega
      have e2 : (8 * rd.byteIdx + rd.bitIdx) % 8 = rd.bitIdx := by omega
      rw [e1, e2]
    have hle : getBit data rd.pos ≤ 1 := by
      unfold getBit
      omega
    have hdrop : (bitsOf data).drop rd.pos =
        getBit data rd.pos :: (bitsOf data).drop (rd.pos + 1) := by
      rw [List.drop_eq_getElem_cons hpl, hget]
    dsimp only at h
    rw [hbit] at h
    by_cases h8 : rd.bitIdx + 1 = 8
    · rw [if_pos h8] at h
      simp only [Except.ok.injEq, Prod.mk.injEq] at h
      obtain ⟨hb, hr⟩ := h
      subst hb hr
      refine ⟨?_, by simp, hle⟩
      rw [hdrop]
      congr 2
      simp only [BitReader.pos]
      omega
    · rw [if_neg h8] at h
      simp only [Except.ok.injEq, Prod.mk.injEq] at h
      obtain ⟨hb, hr⟩ := h
      subst hb hr
      refine ⟨?_, by simp; omega, hle⟩
      rw [hdrop]
      congr 2

/-- A successful `readQuotient` has taken a run of zero bits and a one bit. -/
theorem readQuotient_inv {data : List Nat} : ∀ (fuel : Nat) {rd rd1 : BitReader} {q0 q : Nat},
    rd.bitIdx < 8 → readQuotient data fuel rd q0 = .ok (q, rd1) →
    ∃ k, (bitsOf data).drop rd.pos = List.replicate k 0 ++ 1 :: (bitsOf data).drop rd1.pos ∧
      rd1.bitIdx < 8
  | 0, _, _, _, _, _, h => by simp [readQuotient] at h
  | fuel + 1, rd, rd1, q0, q, hrd, h => by
    unfold readQuotient at h
    cases hb : readBit data rd with
    | error e => rw [hb] at h; cases h
    | ok pr =>
      obtain ⟨bit, rd2⟩ := pr
      rw [hb] at h
      dsimp only at h
      obtain ⟨h1, h2, h3⟩ := readBit_inv hrd hb
      by_cases hone : bit = 1
      · rw [if_pos hone] at h
        simp only [Except.ok.injEq, Prod.mk.injEq] at h
        obtain ⟨-, hr⟩ := h
        subst hr hone
        exact ⟨0, by simpa using h1, h2⟩
      · rw [if_neg hone] at h
        obtain ⟨k, g1, g2⟩ := readQuotient_inv fuel h2 h
        have hz : bit = 0 := by omega
        subst hz
        refine ⟨k + 1, ?_, g2⟩
        rw [h1, g1, List.replicate_succ, List.cons_append]

/-- A successful `readRemainder` has taken as many bits as the loop has iterations. -/
theorem readRemainder_inv {data : List Nat} : ∀ (n : Nat) {rd rd1 : BitReader} {r0 r : Nat},
    rd.bitIdx < 8 → readRemainder data n rd r0 = .ok (r, rd1) →
    ∃ bs : List Nat, bs.length = n ∧
      (bitsOf data).drop rd.pos = bs ++ (bitsOf data).drop rd1.pos ∧ rd1.bitIdx < 8
  | 0, rd, rd1, r0, r, hrd, h => by
    simp only [readRemainder, Except.ok.injEq, Prod.mk.injEq] at h
    obtain ⟨-, hr⟩ := h
    subst hr
    exact ⟨[], rfl, rfl, hrd⟩
  | n + 1, rd, rd1, r0, r, hrd, h => by
    unfold readRemainder at h
    cases hb : readBit data rd with
    | error e => rw [hb] at h; cases h
    | ok pr =>
      obtain ⟨bit, rd2⟩ := pr
      rw [hb] at h
      dsimp only at h
      obtain ⟨h1, h2, -⟩ := readBit_inv hrd hb
      obtain ⟨bs, g1, g2, g3⟩ := readRemainder_inv n h2 h
      exact ⟨bit :: bs, by simp [g1], by rw [h1, g2, List.cons_append], g3⟩

theorem replicate_zero_one_inj : ∀ (k q : Nat) (A B : List Nat),
    List.replicate k 0 ++ 1 :: A = List.replicate q 0 ++ 1 :: B → k = q ∧ A = B
  | 0, 0, _, _, h => by simpa using h
  | 0, q + 1, _, _, h => by simp [List.replicate_succ] at h
  | k + 1, 0, _, _, h => by simp [List.replicate_succ] at h
  | k + 1, q + 1, A, B, h => by
    simp only [List.replicate_succ, List.cons_append, List.cons.injEq, true_and] at h
    obtain ⟨h1, h2⟩ := replicate_zero_one_inj k q A B h
    exact ⟨by omega, h2⟩

/-- When the bits left in the stream are a prefix of the codewords of `u` and the decoder reads
`len(u)` values from them, the stream holds all the codewords. -/
theorem decodeLoop_prefix (data : List Nat) (m : Int) : ∀ (u : List Nat) (rd : BitReader)
    (acc res : List Nat), rd.bitIdx < 8 →
    (bitsOf data).drop rd.pos <+: codewords m u →
    decodeLoop data m u.length rd acc = .ok res →
    (bitsOf data).drop rd.pos = codewords m u
  | [], _, _, _, _, hp, _ => List.prefix_nil.mp hp
  | x :: xs, rd, acc, res, hrd, hp, h => by
    simp only [List.length_cons] at h
    unfold decodeLoop at h
    cases hq : readQuotient data (8 * data.length + 1) rd 0 with
    | error e => rw [hq] at h; cases h
    | ok pq =>
      obtain ⟨q, rd1⟩ := pq
      rw [hq] at h
      dsimp only at h
      cases hr : readRemainder data (bitsNeeded m) rd1 0 with
      | error e => rw [hr] at h; cases h
      | ok pr =>
        obtain ⟨r, rd2⟩ := pr
        rw [hr] at h
        dsimp only at h
        obtain ⟨k, a1, a2⟩ := readQuotient_inv _ hrd hq
        obtain ⟨bs, b1, b2, b3⟩ := readRemainder_inv _ a2 hr
        obtain ⟨t, ht⟩ := hp
        rw [a1, b2] at ht
        simp only [codewords, codeword, List.append_assoc, List.cons_append] at ht
        obtain ⟨c1, c2⟩ := replicate_zero_one_inj _ _ _ _ ht
        obtain ⟨d1, d2⟩ := List.append_inj c2 (by rw [b1, remBits_length])
        have ih := decodeLoop_prefix data m xs rd2 _ res b3 ⟨t, d2⟩ h
        rw [a1, b2, ih, c1, d1]
        simp only [codewords, codeword, List.append_assoc, List.cons_append]

/-! ## Golomb-Rice: truncated streams -/

theorem bitsOf_zeros (data : List Nat) (h : ∀ b ∈ data, b = 0) : ∀ x ∈ bitsOf data, x = 0 := by
  induction data with
  | nil => simp [bitsOf]
  | cons b bs ih =>
    intro x hx
    have hb : b = 0 := h b (List.mem_cons_self _ _)
    subst hb
    simp only [bitsOf, List.mem_append] at hx
    rcases hx with hx | hx
    · simp [byteBits] at hx
      exact hx
    · exact ih (fun y hy => h y (List.mem_cons_of_mem _ hy)) x hx

theorem readBit_error {data : List Nat} {rd : BitReader} {e : Err}
    (h : readBit data rd = .error e) : e = .unexpectedEnd := by
  unfold readBit at h
  split at h
  · cases h; rfl
  · split at h <;> cases h

theorem readQuotient_error {data : List Nat} : ∀ (fuel : Nat) (rd : BitReader) (q : Nat) (e : Err),
    readQuotient data fuel rd q = .error e → e = .unexpectedEnd
  | 0, _, _, e, h => by
    unfold readQuotient at h
    cases h; rfl
  | fuel + 1, rd, q, e, h => by
    unfold readQuotient at h
    cases hb : readBit data rd with
    | error e1 =>
      rw [hb] at h
      cases h
      exact readBit_error hb
    | ok pr =>
      obtain ⟨bit, rd1⟩ := pr
      rw [hb] at h
      dsimp only at h
      by_cases h1 : bit = 1
      · rw [if_pos h1] at h; cases h
      · rw [if_neg h1] at h
        exact readQuotient_error fuel rd1 _ e h

theorem readRemainder_error {data : List Nat} : ∀ (n : Nat) (rd : BitReader) (r : Nat) (e : Err),
    readRemainder data n rd r = .error e → e = .unexpectedEnd
  | 0, _, _, e, h => by
    unfold readRemainder at h
    cases h
  | n + 1, rd, r, e, h => by
    unfold readRemainder at h
    cases hb : readBit data rd with
    | error e1 =>
      rw [hb] at h
      cases h
      exact readBit_error hb
    | ok pr =>
      obtain ⟨bit, rd1⟩ := pr
      rw [hb] at h
      exact readRemainder_error n rd1 _ e h

/-- The only error of the decoding loop is "unexpected end of data". -/
theorem decodeLoop_error {data : List Nat} {m : Int} : ∀ (n : Nat) (rd : BitReader)
    (acc : List Nat) (e : Err), decodeLoop data m n rd acc = .error e → e = .unexpectedEnd
  | 0, _, _, e, h => by
    unfold decodeLoop at h
    cases h
  | n + 1, rd, acc, e, h => by
    unfold decodeLoop at h
    cases hq : readQuotient data (8 * data.length + 1) rd 0 with
    | error e1 =>
      rw [hq] at h
      cases h
      exact readQuotient_error _ _ _ _ hq
    | ok pq =>
      obtain ⟨q, rd1⟩ := pq
      rw [hq] at h
      dsimp only at h
      cases hr : readRemainder data (bitsNeeded m) rd1 0 with
      | error e1 =>
        rw [hr] at h
        cases h
        exact readRemainder_error _ _ _ _ hr
      | ok pr =>
        obtain ⟨r, rd2⟩ := pr
        rw [hr] at h
        exact decodeLoop_error n rd2 _ e h

/-- C30 (amended). Truncated streams are rejected: for every `m ≥ 1` and every non-empty array
`u` of at most `2^45` values, `GolombRiceEncode u m` returns some `p`, and `GolombRiceDecode` on
`p.Data` without its last byte, for the value count `len(u)` and the same `m`, returns the error
"data cannot be empty" (when no byte is left) or "unexpected end of data"; and
`GolombRiceDecode` on data that consists of zero bytes only returns an error for every value count
from 1 to `2^45`: "data cannot be empty", "m must be positive", or else "unexpected end of
data". An error carries no output. -/
theorem truncated_stream_rejected :
    (∀ (u : List Nat) (m : Int), u ≠ [] → u.length ≤ 35184372088832 → 1 ≤ m →
      ∃ p, GolombRiceEncode u m = .ok p ∧
        ∀ bitCount : Int,
          GolombRiceDecode p.Data.dropLast bitCount (u.length : Int) m =
            .error (if p.Data.dropLast = [] then .emptyInput else .unexpectedEnd)) ∧
    (∀ (data : List Nat) (bitCount valueCount m : Int), (∀ b ∈ data, b = 0) →
      1 ≤ valueCount → valueCount ≤ 35184372088832 →
      GolombRiceDecode data bitCount valueCount m =
        .error (if data = [] then .emptyInput else if m ≤ 0 then .invalidParam
          else .unexpectedEnd)) := by
  constructor
  · intro u m hne hcap hm
    have hlen : ¬ u.length = 0 := by simpa using hne
    refine ⟨⟨flush (List.foldl (encodeValue m) BitWriter.init u),
      (List.foldl (encodeValue m) BitWriter.init u).totalBits, (u.length : Int)⟩,
      by simp only [GolombRiceEncode, if_neg hlen, if_neg (show ¬ m ≤ 0 by omega)], ?_⟩
    intro bitCount
    dsimp only
    obtain ⟨pad, hpad, hbits⟩ := encode_bits_pad m u
    generalize flush (List.foldl (encodeValue m) BitWriter.init u) = data at hbits ⊢
    unfold GolombRiceDecode
    by_cases h0 : data.dropLast.length = 0
    · rw [if_pos h0, if_pos (List.length_eq_zero.mp h0)]
    · have hne : ¬ data.dropLast = [] := fun h => h0 (by rw [h]; rfl)
      rw [if_neg h0, if_neg (show ¬ m ≤ 0 by omega),
        if_neg (show ¬ (u.length : Int) ≤ 0 by omega),
        if_neg (show ¬ 8 * (u.length : Int) > maxAlloc by unfold maxAlloc; omega),
        Int.toNat_ofNat, if_neg hne]
      cases hdec : decodeLoop data.dropLast m u.length ⟨0, 0⟩ [] with
      | error e => rw [decodeLoop_error _ _ _ _ hdec]
      | ok res =>
        exfalso
        have hdne : data ≠ [] := by
          intro hd; rw [hd] at h0; simp at h0
        have hsplit : data = data.dropLast ++ [data.getLast hdne] :=
          (List.dropLast_append_getLast hdne).symm
        have hb2 : bitsOf data = bitsOf data.dropLast ++ byteBits (data.getLast hdne) := by
          conv_lhs => rw [hsplit]
          rw [bitsOf_append]
          simp [bitsOf]
        have hlen2 := congrArg List.length hbits
        rw [hb2, List.length_append, List.length_append, List.length_replicate] at hlen2
        have h8 : (byteBits (data.getLast hdne)).length = 8 := by simp [byteBits]
        have p1 : bitsOf data.dropLast <+: bitsOf data := ⟨_, hb2.symm⟩
        have p2 : codewords m u <+: bitsOf data := ⟨_, hbits.symm⟩
        have hpre : bitsOf data.dropLast <+: codewords m u :=
          List.prefix_of_prefix_length_le p1 p2 (by omega)
        have heq := decodeLoop_prefix data.dropLast m u ⟨0, 0⟩ [] res (by decide)
          (by simpa [BitReader.pos] using hpre) hdec
        have hlen3 := congrArg List.length heq
        simp only [BitReader.pos, Nat.mul_zero, Nat.add_zero, List.drop_zero] at hlen3
        omega
  · intro data bitCount valueCount m hz hvc hcap
    unfold GolombRiceDecode
    by_cases h0 : data.length = 0
    · rw [if_pos h0, if_pos (List.length_eq_zero.mp h0)]
    · have hne : ¬ data = [] := fun h => h0 (by rw [h]; rfl)
      rw [if_neg h0, if_neg hne]
      by_cases hm : m ≤ 0
      · rw [if_pos hm, if_pos hm]
      · rw [if_neg hm, if_neg hm, if_neg (show ¬ valueCount ≤ 0 by omega),
          if_neg (show ¬ 8 * valueCount > maxAlloc by unfold maxAlloc; omega)]
        cases hdec : decodeLoop data m valueCount.toNat ⟨0, 0⟩ [] with
        | error e => rw [decodeLoop_error _ _ _ _ hdec]
        | ok res =>
          exfalso
          obtain ⟨n, hn⟩ : ∃ n, valueCount.toNat = n + 1 := ⟨valueCount.toNat - 1, by omega⟩
          rw [hn] at hdec
          unfold decodeLoop at hdec
          cases hq : readQuotient data (8 * data.length + 1) ⟨0, 0⟩ 0 with
          | error e => rw [hq] at hdec; cases hdec
          | ok pq =>
            obtain ⟨q, rd1⟩ := pq
            obtain ⟨k, a1, -⟩ := readQuotient_inv _ (by decide) hq
            have hmem : (1 : Nat) ∈ (bitsOf data).drop (BitReader.pos ⟨0, 0⟩) := by
              rw [a1]; simp
            have := bitsOf_zeros data hz 1 (List.mem_of_mem_drop hmem)
            omega

set_option maxRecDepth 100000 in
/-- Witness for C30 (amended): the array `[5, 300, 0]` coded with `m = 7`, and three zero
bytes. -/
theorem truncated_stream_rejected_witness :
    (∃ p, GolombRiceEncode [5, 300, 0] 7 = .ok p ∧
      ∀ bitCount : Int,
        GolombRiceDecode p.Data.dropLast bitCount (([5, 300, 0] : List Nat).length : Int) 7 =
          .error (if p.Data.dropLast = [] then .emptyInput else .unexpectedEnd)) ∧
    GolombRiceDecode [0, 0, 0] 24 1 4 =
      .error (if ([0, 0, 0] : List Nat) = [] then .emptyInput else if (4 : Int) ≤ 0 then
        .invalidParam else .unexpectedEnd) :=
  ⟨truncated_stream_rejected.1 [5, 300, 0] 7 (by decide) (by decide) (by decide),
   truncated_stream_rejected.2 [0, 0, 0] 24 1 4 (by decide) (by decide) (by decide)⟩

set_option maxRecDepth 100000 in
/-- C30 (counterexample). On one zero byte with the value count `2^62`, and already with
`2^45 + 1`, `GolombRiceDecode` does not return an error: the allocation of the result,
`make([]uint64, 0, valueCount)`, panics with "makeslice: cap out of range" before a bit is read.
With the value count `2^45` the call returns the error "unexpected end of data". -/
theorem truncated_stream_count_panics :
    GolombRiceDecode [0] 8 4611686018427387904 1 = .error .capOutOfRange ∧
    GolombRiceDecode [0] 8 35184372088833 1 = .error .capOutOfRange ∧
    GolombRiceDecode [0] 8 35184372088832 1 = .error .unexpectedEnd := by
  decide

/-! ## Golomb-Rice: the codeword of a parameter above `2^53` -/

set_option maxRecDepth 100000 in
/-- C27. Rice codeword format at `m = 2^53 + 1`, `u = [2^53]`: `ceil(log2(m))` is 54 but the
coder computes it through `float64(m) = 2^53` and obtains 53, so the codeword it writes for
`x = 2^53` (quotient 0, remainder `2^53`) is a one bit followed by 53 remainder bits, all zero:
54 bits, where the format of the claim has a one bit followed by the 54 bits `1 0 ... 0` of the
remainder. -/
theorem rice_codeword_format_fails :
    ceilLog2 9007199254740993 = 54 ∧
    bitsNeeded 9007199254740993 = 53 ∧
    GolombRiceEncode [9007199254740992] 9007199254740993 =
      .ok ⟨[128, 0, 0, 0, 0, 0, 0], 54, 1⟩ ∧
    (bitsOf [128, 0, 0, 0, 0, 0, 0]).take 54 = 1 :: List.replicate 53 0 ∧
    List.replicate (9007199254740992 / 9007199254740993) 0 ++
      1 :: remBits (9007199254740992 % 9007199254740993) 54 = 1 :: 1 :: List.replicate 53 0 := by
  decide

set_option maxRecDepth 100000 in
/-- C28. `PackedData` at `m = 2^53 + 1`, `u = [2^53, 2^53]`: the value count is 2 and the 14
bytes are `ceil(108 / 8)` bytes with zero padding, but `BitCount` is 108, two codewords of
`1 + 53` bits, where the sum of `floor(x/m) + 1 + ceil(log2(m))` over `u` is
`2 * (0 + 1 + 54) = 110`. -/
theorem packed_bit_count_fails :
    GolombRiceEncode [9007199254740992, 9007199254740992] 9007199254740993 =
      .ok ⟨[128, 0, 0, 0, 0, 0, 2, 0, 0, 0, 0, 0, 0, 0], 108, 2⟩ ∧
    ([9007199254740992, 9007199254740992].map (fun x =>
      x / 9007199254740993 + 1 + ceilLog2 9007199254740993)).sum = 110 ∧
    ([128, 0, 0, 0, 0, 0, 2, 0, 0, 0, 0, 0, 0, 0] : List Nat).length = (108 + 7) / 8 := by
  decide

/-! ## ALP: argument handling -/

/-- C31. `ALPEncode` argument handling: `ALPEncode` fails on the empty input whatever the
exponent, and on every non-empty input with an explicit exponent of 18 or more; for every
non-empty input and explicit exponent `e` with `0 ≤ e ≤ 17` it succeeds, returns `e` and as many
integers as the input has values; `ALPDecode` returns the empty array for every exponent outside
`[0, 17]` and as many values as its input has integers otherwise. -/
theorem alp_argument_handling :
    (∀ e : Int, ALPEncode [] e = .error .emptyInput) ∧
    (∀ (v : List F64) (e : Int), v ≠ [] → 18 ≤ e → ALPEncode v e = .error .exponentOutOfRange) ∧
    (∀ (v : List F64) (e : Int), v ≠ [] → 0 ≤ e → e ≤ 17 →
      ∃ scaled, ALPEncode v e = .ok (scaled, e) ∧ scaled.length = v.length) ∧
    (∀ (s : List Int) (e : Int), (e < 0 ∨ 17 < e) → ALPDecode s e = []) ∧
    (∀ (s : List Int) (e : Int), 0 ≤ e → e ≤ 17 → (ALPDecode s e).length = s.length) := by
  refine ⟨fun _ => rfl, ?_, ?_, ?_, ?_⟩
  · intro v e hne he
    unfold ALPEncode
    rw [if_neg (by simpa using hne)]
    dsimp only
    rw [if_neg (show ¬ e < 0 from by omega), if_pos (show e ≥ 18 from by omega)]
  · intro v e hne h0 h17
    exact ⟨_, alpEncode_explicit v e hne h0 h17, by simp⟩
  · intro s e he
    unfold ALPDecode
    rw [if_pos (by omega)]
  · intro s e h0 h17
    unfold ALPDecode
    rw [if_neg (by omega)]
    simp

set_option exponentiation.threshold 10000 in
set_option maxRecDepth 100000 in
/-- Witness for C31: the input `[1.0, 10.0]` with the exponents 18 and 3, and the integers
`[314, 271]` with the exponents -1, 18 and 2. -/
theorem alp_argument_handling_witness :
    ALPEncode [F64.one, F64.ten] 18 = .error .exponentOutOfRange ∧
    (∃ scaled, ALPEncode [F64.one, F64.ten] 3 = .ok (scaled, 3) ∧
      scaled.length = [F64.one, F64.ten].length) ∧
    ALPDecode [314, 271] (-1) = [] ∧
    ALPDecode [314, 271] 18 = [] ∧
    (ALPDecode [314, 271] 2).length = ([314, 271] : List Int).length :=
  ⟨alp_argument_handling.2.1 [F64.one, F64.ten] 18 (by decide) (by decide),
   alp_argument_handling.2.2.1 [F64.one, F64.ten] 3 (by decide) (by decide) (by decide),
   alp_argument_handling.2.2.2.1 [314, 271] (-1) (by decide),
   alp_argument_handling.2.2.2.1 [314, 271] 18 (by decide),
   alp_argument_handling.2.2.2.2 [314, 271] 2 (by decide) (by decide)⟩

/-! ## Builder and functional interfaces -/

/-- C36. The builder and the functional interfaces agree: for every input `d`, Rice option `r`
and precision `p`, `NewFloatEncoder(d).WithRiceParam(r).WithPrecision(p).Encode()` returns the
same result (bytes or error) as `Encode(d, Options{ModeFloat, r, p})`, and for every buffer `b`,
`NewDecoder(b).DecodeFloat()` returns the same result as `Decode(b)`. -/
theorem builder_agrees_with_functions (d : List F64) (r p : Int) (b : List Nat) :
    (((NewFloatEncoder d).WithRiceParam r).WithPrecision p).Encode =
      Encode d ⟨ModeFloat, r, p⟩ ∧
    (NewDecoder b).DecodeFloat = Decode b := by
  refine ⟨?_, rfl⟩
  unfold FloatEncoder.Encode Encode NewFloatEncoder FloatEncoder.WithRiceParam
    FloatEncoder.WithPrecision
  simp only [Bool.false_eq_true, if_false, or_false, ModeFloat, if_true, ne_eq,
    not_true_eq_false]

/-! ## The input of the automatic Rice parameter -/

/-- The output of `encodeScaled` on two or more values: the header carries the Rice parameter
chosen for the residuals, and the payload is their Golomb-Rice coding with that parameter. -/
theorem encodeScaled_payload (mode alpExp a b : Int) (rest : List Int) (cnt : Int)
    (rice : List Int → Int) (hr : 1 ≤ rice (deltaLoop (a :: b :: rest))) :
    ∃ payload, encodeScaled mode alpExp (a :: b :: rest) cnt rice =
        .ok (Header.Marshal ⟨mode, rice (deltaLoop (a :: b :: rest)), alpExp, a, b, cnt⟩ ++
          payload) ∧
      (deltaLoop (a :: b :: rest) ≠ [] → ∃ zz p,
        ZigZagEncode (deltaLoop (a :: b :: rest)) = .ok zz ∧
        GolombRiceEncode zz (rice (deltaLoop (a :: b :: rest))) = .ok p ∧ payload = p.Data) := by
  obtain ⟨payload, h1, -, h3⟩ := encodeTail_ok mode (rice (deltaLoop (a :: b :: rest))) alpExp a b
    cnt (deltaLoop (a :: b :: rest)) hr
  refine ⟨payload, ?_, h3⟩
  unfold encodeScaled
  rw [deltaEncode_ok]
  exact h1

theorem toByte_autoRiceParam (d : List Int) :
    ((toByte (AutoRiceParam d) : Nat) : Int) = AutoRiceParam d := by
  have h := autoRiceParam_range d
  unfold toByte
  omega

/-- C33. The input of the automatic Rice parameter: for every `int64` input `v` of length at
least 2 coded by `IntEncoder` with the automatic Rice parameter, the `rice_param` byte of the
output and the parameter that codes the residuals are `AutoRiceParam(v)`, computed on the input
values; `Encode` and `FloatEncoder.Encode` with the automatic Rice parameter use `AutoRiceParam`
of the residuals of the scaled values. On `[10, 15, 20, 25, 30]` the two differ: 16 on the
values, 1 on the residuals. -/
theorem int_encoder_auto_rice_input :
    (∀ e : IntEncoder, 2 ≤ e.data.length → (e.riceParam ≤ 0 ∨ e.autoRiceParam = true) →
      ∃ out deltas, e.Encode = .ok out ∧ ((out.getD 1 0 : Nat) : Int) = AutoRiceParam e.data ∧
        DeltaEncode e.data = .ok (deltas, e.data.getD 0 0, e.data.getD 1 0) ∧
        (deltas ≠ [] → ∃ zz p, ZigZagEncode deltas = .ok zz ∧
          GolombRiceEncode zz (AutoRiceParam e.data) = .ok p ∧ out.drop 24 = p.Data)) ∧
    (∀ (input : List F64) (opts : Options) (scaled : List Int) (exp : Int),
      2 ≤ input.length → opts.Mode = 0 → opts.RiceParam ≤ 0 →
      ALPEncode input (if opts.ALPExponent = 0 then -1 else opts.ALPExponent) =
        .ok (scaled, exp) →
      ∃ out deltas, Encode input opts = .ok out ∧
        DeltaEncode scaled = .ok (deltas, scaled.getD 0 0, scaled.getD 1 0) ∧
        ((out.getD 1 0 : Nat) : Int) = AutoRiceParam deltas ∧
        (deltas ≠ [] → ∃ zz p, ZigZagEncode deltas = .ok zz ∧
          GolombRiceEncode zz (AutoRiceParam deltas) = .ok p ∧ out.drop 24 = p.Data)) ∧
    (∀ (e : FloatEncoder) (scaled : List Int) (exp : Int),
      2 ≤ e.data.length → (e.riceParam ≤ 0 ∨ e.autoRiceParam = true) →
      ALPEncode e.data (if e.autoPrecision then -1 else if e.precision = 0 then -1
        else e.precision) = .ok (scaled, exp) →
      ∃ out deltas, e.Encode = .ok out ∧
        DeltaEncode scaled = .ok (deltas, scaled.getD 0 0, scaled.getD 1 0) ∧
        ((out.getD 1 0 : Nat) : Int) = AutoRiceParam deltas ∧
        (deltas ≠ [] → ∃ zz p, ZigZagEncode deltas = .ok zz ∧
          GolombRiceEncode zz (AutoRiceParam deltas) = .ok p ∧ out.drop 24 = p.Data)) ∧
    AutoRiceParam [10, 15, 20, 25, 30] = 16 ∧
    AutoRiceParam (deltaLoop [10, 15, 20, 25, 30]) = 1 := by
  refine ⟨?_, ?_, ?_, by decide, by decide⟩
  · intro e hlen hauto
    match hd : e.data, hlen with
    | a :: b :: rest, _ =>
      obtain ⟨payload, hp, hpay⟩ := encodeScaled_payload ModeInt 0 a b rest
        ((a :: b :: rest).length : Int) (fun _ => AutoRiceParam (a :: b :: rest))
        (autoRiceParam_range _).1
      refine ⟨Header.Marshal ⟨ModeInt, AutoRiceParam (a :: b :: rest), 0, a, b,
        ((a :: b :: rest).length : Int)⟩ ++ payload, deltaLoop (a :: b :: rest), ?_, ?_, rfl, ?_⟩
      · unfold IntEncoder.Encode
        rw [if_neg (by rw [hd]; simp), if_pos hauto, hd]
        exact hp
      · rw [marshal_getD_one]
        exact toByte_autoRiceParam (a :: b :: rest)
      · intro hne
        obtain ⟨zz, p, h1, h2, h3⟩ := hpay hne
        exact ⟨zz, p, h1, h2, by rw [List.drop_left' (marshal_length _)]; exact h3⟩
  · intro input opts scaled exp hlen hmode hrice halp
    have hsl : 2 ≤ scaled.length := by rw [alpEncode_length halp]; exact hlen
    match scaled, hsl with
    | a :: b :: rest, _ =>
      obtain ⟨payload, hp, hpay⟩ := encodeScaled_payload ModeFloat exp a b rest
        (input.length : Int)
        (fun deltas => if opts.RiceParam ≤ 0 then AutoRiceParam deltas else opts.RiceParam)
        (rice_option_pos _ _)
      simp only [if_pos hrice] at hp hpay
      refine ⟨Header.Marshal ⟨ModeFloat, AutoRiceParam (deltaLoop (a :: b :: rest)), exp, a, b,
        (input.length : Int)⟩ ++ payload, deltaLoop (a :: b :: rest), ?_, rfl, ?_, ?_⟩
      · unfold Encode
        rw [if_neg (by omega)]
        dsimp only
        rw [if_pos hmode, if_neg (show ¬ (ModeFloat ≠ ModeFloat) from not_not.mpr rfl), halp]
        simp only [if_pos hrice]
        exact hp
      · rw [marshal_getD_one]
        exact toByte_autoRiceParam (deltaLoop (a :: b :: rest))
      · intro hne
        obtain ⟨zz, p, h1, h2, h3⟩ := hpay hne
        exact ⟨zz, p, h1, h2, by rw [List.drop_left' (marshal_length _)]; exact h3⟩
  · intro e scaled exp hlen hauto halp
    have hsl : 2 ≤ scaled.length := by rw [alpEncode_length halp]; exact hlen
    match scaled, hsl with
    | a :: b :: rest, _ =>
      obtain ⟨payload, hp, hpay⟩ := encodeScaled_payload ModeFloat exp a b rest
        (e.data.length : Int)
        (fun deltas =>
          if e.riceParam ≤ 0 ∨ e.autoRiceParam = true then AutoRiceParam deltas else e.riceParam)
        (rice_choice_pos _ _ _)
      simp only [if_pos hauto] at hp hpay
      refine ⟨Header.Marshal ⟨ModeFloat, AutoRiceParam (deltaLoop (a :: b :: rest)), exp, a, b,
        (e.data.length : Int)⟩ ++ payload, deltaLoop (a :: b :: rest), ?_, rfl, ?_, ?_⟩
      · unfold FloatEncoder.Encode
        rw [if_neg (by omega)]
        dsimp only
        rw [halp]
        simp only [if_pos hauto]
        exact hp
      · rw [marshal_getD_one]
        exact toByte_autoRiceParam (deltaLoop (a :: b :: rest))
      · intro hne
        obtain ⟨zz, p, h1, h2, h3⟩ := hpay hne
        exact ⟨zz, p, h1, h2, by rw [List.drop_left' (marshal_length _)]; exact h3⟩

set_option exponentiation.threshold 10000 in
set_option maxRecDepth 100000 in
/-- Witness for C33: the integer input `[10, 15, 20, 25, 30]` and the float input
`[1.0, 10.0, 1.0]`, scaled to `[10, 100, 10]`. -/
theorem int_encoder_auto_rice_input_witness :
    (∃ out deltas, (NewIntEncoder [10, 15, 20, 25, 30]).Encode = .ok out ∧
        ((out.getD 1 0 : Nat) : Int) = AutoRiceParam [10, 15, 20, 25, 30] ∧
        DeltaEncode [10, 15, 20, 25, 30] = .ok (deltas, 10, 15) ∧
        (deltas ≠ [] → ∃ zz p, ZigZagEncode deltas = .ok zz ∧
          GolombRiceEncode zz (AutoRiceParam [10, 15, 20, 25, 30]) = .ok p ∧
          out.drop 24 = p.Data)) ∧
    (∃ out deltas, Encode [F64.one, F64.ten, F64.one] ⟨0, 0, -1⟩ = .ok out ∧
        DeltaEncode [10, 100, 10] = .ok (deltas, 10, 100) ∧
        ((out.getD 1 0 : Nat) : Int) = AutoRiceParam deltas ∧
        (deltas ≠ [] → ∃ zz p, ZigZagEncode deltas = .ok zz ∧
          GolombRiceEncode zz (AutoRiceParam deltas) = .ok p ∧ out.drop 24 = p.Data)) ∧
    (∃ out deltas, (NewFloatEncoder [F64.one, F64.ten, F64.one]).Encode = .ok out ∧
        DeltaEncode [10, 100, 10] = .ok (deltas, 10, 100) ∧
        ((out.getD 1 0 : Nat) : Int) = AutoRiceParam deltas ∧
        (deltas ≠ [] → ∃ zz p, ZigZagEncode deltas = .ok zz ∧
          GolombRiceEncode zz (AutoRiceParam deltas) = .ok p ∧ out.drop 24 = p.Data)) :=
  ⟨int_encoder_auto_rice_input.1 (NewIntEncoder [10, 15, 20, 25, 30]) (by decide) (by decide),
   int_encoder_auto_rice_input.2.1 [F64.one, F64.ten, F64.one] ⟨0, 0, -1⟩ [10, 100, 10] 1
     (by decide) (by decide) (by decide) (by decide),
   int_encoder_auto_rice_input.2.2.1 (NewFloatEncoder [F64.one, F64.ten, F64.one])
     [10, 100, 10] 1 (by decide) (by decide) (by decide)⟩

/-! ## Trailing bytes -/

theorem readBit_append {data : List Nat} (t : List Nat) {rd : BitReader} {x : Nat × BitReader}
    (h : readBit data rd = .ok x) : readBit (data ++ t) rd = .ok x := by
  unfold readBit at h ⊢
  by_cases hidx : rd.byteIdx ≥ data.length
  · rw [if_pos hidx] at h; cases h
  · rw [if_neg hidx] at h
    rw [if_neg (by rw [List.length_append]; omega), List.getD_append _ _ _ _ (by omega)]
    exact h

theorem readQuotient_append {data : List Nat} (t : List Nat) :
    ∀ (fuel fuel2 : Nat) {rd : BitReader} {q : Nat} {x : Nat × BitReader},
    readQuotient data fuel rd q = .ok x → fuel ≤ fuel2 →
    readQuotient (data ++ t) fuel2 rd q = .ok x
  | 0, _, _, _, _, h, _ => by simp [readQuotient] at h
  | fuel + 1, fuel2, rd, q, x, h, hle => by
    obtain ⟨f2, rfl⟩ : ∃ f2, fuel2 = f2 + 1 := ⟨fuel2 - 1, by omega⟩
    unfold readQuotient at h ⊢
    cases hb : readBit data rd with
    | error e => rw [hb] at h; cases h
    | ok pr =>
      obtain ⟨bit, rd1⟩ := pr
      rw [hb] at h
      rw [readBit_append t hb]
      dsimp only at h ⊢
      by_cases hone : bit = 1
      · rw [if_pos hone] at h ⊢; exact h
      · rw [if_neg hone] at h ⊢
        exact readQuotient_append t fuel f2 h (by omega)

theorem readRemainder_append {data : List Nat} (t : List Nat) :
    ∀ (n : Nat) {rd : BitReader} {r : Nat} {x : Nat × BitReader},
    readRemainder data n rd r = .ok x → readRemainder (data ++ t) n rd r = .ok x
  | 0, _, _, _, h => by simpa [readRemainder] using h
  | n + 1, rd, r, x, h => by
    unfold readRemainder at h ⊢
    cases hb : readBit data rd with
    | error e => rw [hb] at h; cases h
    | ok pr =>
      obtain ⟨bit, rd1⟩ := pr
      rw [hb] at h
      rw [readBit_append t hb]
      dsimp only at h ⊢
      exact readRemainder_append t n h

theorem decodeLoop_append {data : List Nat} (t : List Nat) (m : Int) :
    ∀ (n : Nat) {rd : BitReader} {acc res : List Nat},
    decodeLoop data m n rd acc = .ok res → decodeLoop (data ++ t) m n rd acc = .ok res
  | 0, _, _, _, h => by simpa [decodeLoop] using h
  | n + 1, rd, acc, res, h => by
    unfold decodeLoop at h ⊢
    cases hq : readQuotient data (8 * data.length + 1) rd 0 with
    | error e => rw [hq] at h; cases h
    | ok pq =>
      obtain ⟨q, rd1⟩ := pq
      rw [hq] at h
      rw [readQuotient_append t _ (8 * (data ++ t).length + 1) hq
        (by rw [List.length_append]; omega)]
      dsimp only at h ⊢
      cases hr : readRemainder data (bitsNeeded m) rd1 0 with
      | error e => rw [hr] at h; cases h
      | ok pr =>
        obtain ⟨r, rd2⟩ := pr
        rw [hr] at h
        rw [readRemainder_append t _ hr]
        dsimp only at h ⊢
        exact decodeLoop_append t m n h

/-- A successful `GolombRiceDecode` gives the same values when bytes are appended to the data. -/
theorem golombRiceDecode_append {data : List Nat} (t : List Nat) {bc vc m : Int}
    {res : List Nat} (h : GolombRiceDecode data bc vc m = .ok res) :
    GolombRiceDecode (data ++ t) bc vc m = .ok res := by
  unfold GolombRiceDecode at h ⊢
  by_cases h0 : data.length = 0
  · rw [if_pos h0] at h; cases h
  · rw [if_neg h0] at h
    rw [if_neg (by rw [List.length_append]; omega)]
    by_cases hm : m ≤ 0
    · rw [if_pos hm] at h; cases h
    · rw [if_neg hm] at h ⊢
      by_cases hv : vc ≤ 0
      · rw [if_pos hv] at h; cases h
      · rw [if_neg hv] at h ⊢
        by_cases hc : 8 * vc > maxAlloc
        · rw [if_pos hc] at h; cases h
        · rw [if_neg hc] at h ⊢
          exact decodeLoop_append t m _ h

/-- A successful `decodeScaled` gives the same result when bytes are appended to the buffer. -/
theorem decodeScaled_append (mode : Int) (b t : List Nat) {x : Header × List Int}
    (h : decodeScaled mode b = .ok x) : decodeScaled mode (b ++ t) = .ok x := by
  unfold decodeScaled at h ⊢
  by_cases hlen : b.length < HeaderSize
  · rw [if_pos hlen] at h; cases h
  · rw [if_neg hlen] at h
    have hlen24 : 24 ≤ b.length := by unfold HeaderSize at hlen; omega
    rw [if_neg (by rw [List.length_append]; omega)]
    have hu : Unmarshal (b ++ t) = Unmarshal b :=
      unmarshal_congr _ _ (by rw [List.length_append]; omega) hlen24
        (fun i hi _ => List.getD_append _ _ _ _ (by omega))
    rw [hu, List.drop_append_of_le_length (by unfold HeaderSize; omega)]
    cases hun : Unmarshal b with
    | error e => rw [hun] at h; cases h
    | ok header =>
      rw [hun] at h
      dsimp only at h ⊢
      cases hv : header.Validate with
      | error e => rw [hv] at h; cases h
      | ok u =>
        rw [hv] at h
        dsimp only at h ⊢
        by_cases hm : header.Mode ≠ mode
        · rw [if_pos hm] at h; cases h
        · rw [if_neg hm] at h ⊢
          by_cases hc : header.ValueCount - 2 > 0
          · rw [if_pos hc] at h ⊢
            cases hg : GolombRiceDecode (b.drop HeaderSize) 0 (header.ValueCount - 2)
                header.RiceParam with
            | error e => rw [hg] at h; cases h
            | ok zz =>
              rw [hg] at h
              rw [golombRiceDecode_append t hg]
              exact h
          · rw [if_neg hc] at h ⊢
            exact h

/-- C37. Trailing bytes are ignored: for every buffer `b` on which `DecodeInt`, `Decode` or
`DecodeFloat` succeeds and every byte sequence `t`, the same decoder succeeds on `b ++ t` with
the same result. -/
theorem trailing_bytes_ignored (b t : List Nat) :
    (∀ res, (NewDecoder b).DecodeInt = .ok res → (NewDecoder (b ++ t)).DecodeInt = .ok res) ∧
    (∀ res, Decode b = .ok res → Decode (b ++ t) = .ok res) ∧
    (∀ res, (NewDecoder b).DecodeFloat = .ok res →
      (NewDecoder (b ++ t)).DecodeFloat = .ok res) := by
  have hf : ∀ res, Decode b = .ok res → Decode (b ++ t) = .ok res := by
    intro res h
    unfold Decode at h ⊢
    cases hd : decodeScaled ModeFloat b with
    | error e => rw [hd] at h; cases h
    | ok x => rw [hd] at h; rw [decodeScaled_append ModeFloat b t hd]; exact h
  refine ⟨?_, hf, hf⟩
  intro res h
  unfold Decoder.DecodeInt NewDecoder at h ⊢
  dsimp only at h ⊢
  cases hd : decodeScaled ModeInt b with
  | error e => rw [hd] at h; cases h
  | ok x => rw [hd] at h; rw [decodeScaled_append ModeInt b t hd]; exact h

set_option maxRecDepth 100000 in
/-- Witness for C37: the encoding of `[10, 15, 20, 25, 30]` with two bytes appended, and a
header-only float buffer with one byte appended. -/
theorem trailing_bytes_ignored_witness :
    (NewDecoder ([1, 16, 0, 0, 0, 0, 0, 0, 0, 0, 0, 10, 0, 0, 0, 0, 0, 0, 0, 15, 0, 0, 0, 5,
      132, 32] ++ [255, 7])).DecodeInt = .ok [10, 15, 20, 25, 30] ∧
    Decode ([0, 4, 0, 0, 0, 0, 0, 0, 0, 0, 0, 10, 0, 0, 0, 0, 0, 0, 0, 20, 0, 0, 0, 2] ++ [9]) =
      .ok [.fin false 5629499534213120 (-49), .fin false 5629499534213120 (-48)] :=
  ⟨(trailing_bytes_ignored
      [1, 16, 0, 0, 0, 0, 0, 0, 0, 0, 0, 10, 0, 0, 0, 0, 0, 0, 0, 15, 0, 0, 0, 5, 132, 32]
      [255, 7]).1 [10, 15, 20, 25, 30] (by decide),
   (trailing_bytes_ignored
      [0, 4, 0, 0, 0, 0, 0, 0, 0, 0, 0, 10, 0, 0, 0, 0, 0, 0, 0, 20, 0, 0, 0, 2] [9]).2.1
      [.fin false 5629499534213120 (-49), .fin false 5629499534213120 (-48)] (by decide)⟩

/-! ## The insertion sort of `findMedian` -/

theorem insertKey_perm (key : Nat) (l : List Nat) : (insertKey key l).Perm (key :: l) := by
  induction l with
  | nil => exact List.Perm.refl _
  | cons x xs ih =>
    unfold insertKey
    split
    · exact (List.Perm.cons x ih).trans (List.Perm.swap key x xs)
    · exact List.Perm.refl _

theorem insertKey_sorted (key : Nat) (l : List Nat) (h : l.Sorted (· ≥ ·)) :
    (insertKey key l).Sorted (· ≥ ·) := by
  induction l with
  | nil => simp [insertKey]
  | cons x xs ih =>
    obtain ⟨h1, h2⟩ := List.sorted_cons.mp h
    unfold insertKey
    split
    · rename_i hgt
      apply List.sorted_cons.mpr
      refine ⟨?_, ih h2⟩
      intro y hy
      have hy2 := (insertKey_perm key xs).subset hy
      rcases List.mem_cons.mp hy2 with rfl | hy3
      · omega
      · exact h1 y hy3
    · rename_i hle
      apply List.sorted_cons.mpr
      refine ⟨?_, h⟩
      intro y hy
      rcases List.mem_cons.mp hy with rfl | hy3
      · omega
      · have := h1 y hy3
        show key ≥ y
        omega

theorem foldl_insertKey (values init : List Nat) (h : init.Sorted (· ≥ ·)) :
    (values.foldl (fun rev key => insertKey key rev) init).Perm (values ++ init) ∧
    (values.foldl (fun rev key => insertKey key rev) init).Sorted (· ≥ ·) := by
  induction values generalizing init with
  | nil => exact ⟨List.Perm.refl _, h⟩
  | cons x xs ih =>
    obtain ⟨h1, h2⟩ := ih (insertKey x init) (insertKey_sorted x init h)
    refine ⟨?_, h2⟩
    simp only [List.foldl_cons]
    refine h1.trans ?_
    refine (List.Perm.append_left xs (insertKey_perm x init)).trans ?_
    exact List.perm_middle

/-- The insertion sort of `findMedian` returns a sorted permutation of its input. -/
theorem insertionSort_spec (a : List Nat) :
    (insertionSort a).Perm a ∧ (insertionSort a).Sorted (· ≤ ·) := by
  obtain ⟨h1, h2⟩ := foldl_insertKey a [] List.sorted_nil
  unfold insertionSort
  refine ⟨(List.reverse_perm _).trans (by simpa using h1), ?_⟩
  rw [List.Sorted, List.pairwise_reverse]
  exact h2

theorem insertionSort_perm_eq {a b : List Nat} (h : a.Perm b) :
    insertionSort a = insertionSort b := by
  obtain ⟨a1, a2⟩ := insertionSort_spec a
  obtain ⟨b1, b2⟩ := insertionSort_spec b
  exact List.eq_of_perm_of_sorted (a1.trans (h.trans b1.symm)) a2 b2

theorem findMedian_perm {a b : List Nat} (h : a.Perm b) : findMedian a = findMedian b := by
  unfold findMedian
  rw [insertionSort_perm_eq h, h.length_eq]

theorem absValue_neg {d : Int} (h : IsInt64 d) : absValue (wrap64 (-d)) = absValue d := by
  unfold IsInt64 at h
  unfold absValue toUint64 wrap64
  split <;> split <;> omega

/-- `AutoRiceParam` is a function of the multiset of absolute values. -/
theorem autoRiceParam_congr {r r2 : List Int}
    (h : (r.map absValue).Perm (r2.map absValue)) : AutoRiceParam r = AutoRiceParam r2 := by
  have hl : r.length = r2.length := by simpa using h.length_eq
  unfold AutoRiceParam
  rw [findMedian_perm h, hl]

/-- C39. `AutoRiceParam` depends only on the multiset of absolute values: it gives the same
result on two arrays whose absolute values are permutations of each other, hence on every
permutation of an array and on every array obtained from an `int64` array by negating some of its
elements (wrapping negation); the insertion sort of `findMedian` returns a sorted permutation of
its input and `findMedian` is invariant under permutations. -/
theorem autoRiceParam_multiset_invariant :
    (∀ r r2 : List Int, (r.map absValue).Perm (r2.map absValue) →
      AutoRiceParam r = AutoRiceParam r2) ∧
    (∀ r r2 : List Int, r.Perm r2 → AutoRiceParam r = AutoRiceParam r2) ∧
    (∀ r r2 : List Int, (∀ n ∈ r, IsInt64 n) →
      List.Forall₂ (fun a b => b = a ∨ b = wrap64 (-a)) r r2 →
      AutoRiceParam r = AutoRiceParam r2) ∧
    (∀ a : List Nat, (insertionSort a).Perm a ∧ (insertionSort a).Sorted (· ≤ ·)) ∧
    (∀ a b : List Nat, a.Perm b → findMedian a = findMedian b) := by
  refine ⟨fun _ _ h => autoRiceParam_congr h,
    fun _ _ h => autoRiceParam_congr (h.map absValue), ?_, insertionSort_spec,
    fun _ _ h => findMedian_perm h⟩
  intro r r2 hr h
  apply autoRiceParam_congr
  have heq : r.map absValue = r2.map absValue := by
    induction h with
    | nil => rfl
    | cons hab _ ih =>
      rename_i a b l1 l2 _
      have ha : IsInt64 a := hr a (List.mem_cons_self _ _)
      have hb : absValue b = absValue a := by
        rcases hab with rfl | rfl
        · rfl
        · exact absValue_neg ha
      simp only [List.map_cons, hb]
      rw [ih (fun n hn => hr n (List.mem_cons_of_mem _ hn))]
  rw [heq]

set_option maxRecDepth 100000 in
/-- Witness for C39: `[-5, 5, -10]` against `[10, 5, 5]` (absolute values permuted), against
its permutation `[5, -10, -5]` and against `[5, 5, -10]` (first element negated); and the array
`[5, 1, 3]` against `[3, 5, 1]`. -/
theorem autoRiceParam_multiset_invariant_witness :
    AutoRiceParam [-5, 5, -10] = AutoRiceParam [10, 5, 5] ∧
    AutoRiceParam [-5, 5, -10] = AutoRiceParam [5, -10, -5] ∧
    AutoRiceParam [-5, 5, -10] = AutoRiceParam [5, 5, -10] ∧
    ((insertionSort [5, 1, 3]).Perm [5, 1, 3] ∧ (insertionSort [5, 1, 3]).Sorted (· ≤ ·)) ∧
    findMedian [5, 1, 3] = findMedian [3, 5, 1] :=
  ⟨autoRiceParam_multiset_invariant.1 [-5, 5, -10] [10, 5, 5] (by decide),
   autoRiceParam_multiset_invariant.2.1 [-5, 5, -10] [5, -10, -5] (by decide),
   autoRiceParam_multiset_invariant.2.2.1 [-5, 5, -10] [5, 5, -10] (by decide)
     (.cons (Or.inr (by decide)) (.cons (Or.inl rfl) (.cons (Or.inl rfl) .nil))),
   autoRiceParam_multiset_invariant.2.2.2.1 [5, 1, 3],
   autoRiceParam_multiset_invariant.2.2.2.2 [5, 1, 3] [3, 5, 1] (by decide)⟩

/-! ## ALP: the automatic detection -/

/-- `detectFrom` returns the first exponent from `p` on that passes the checks of the loop body
on every value, and 0 when none of the `left` exponents does. -/
theorem detectFrom_least (data : List F64) (left p : Nat) (hp : 1 ≤ p) :
    (detectFrom data left p = 0 ∧ ∀ j, p ≤ j → j < p + left → data.all (matchesAt j) = false) ∨
    (∃ q : Nat, detectFrom data left p = (q : Int) ∧ p ≤ q ∧ q < p + left ∧
      data.all (matchesAt q) = true ∧ ∀ j, p ≤ j → j < q → data.all (matchesAt j) = false) := by
  induction left generalizing p with
  | zero =>
    left
    exact ⟨rfl, fun j h1 h2 => by omega⟩
  | succ left ih =>
    unfold detectFrom
    by_cases hall : data.all (matchesAt p) = true
    · rw [if_pos hall]
      right
      exact ⟨p, rfl, le_refl _, by omega, hall, fun j h1 h2 => by omega⟩
    · rw [if_neg hall]
      have hfalse : data.all (matchesAt p) = false := by simpa using hall
      rcases ih (p + 1) (by omega) with ⟨h0, hn⟩ | ⟨q, h1, h2, h3, h4, h5⟩
      · left
        refine ⟨h0, fun j hj1 hj2 => ?_⟩
        by_cases hjp : j = p
        · rw [hjp]; exact hfalse
        · exact hn j (by omega) (by omega)
      · right
        refine ⟨q, h1, by omega, by omega, h4, fun j hj1 hj2 => ?_⟩
        by_cases hjp : j = p
        · rw [hjp]; exact hfalse
        · exact h5 j (by omega) hj2

set_option exponentiation.threshold 10000 in
set_option maxRecDepth 100000 in
/-- C32. Auto-detection on `[922337203685477632.0]`: the product of the value by `10^1` is the
float64 `2^63`, which passes the bound check of `detectPrecision` (the constant
`float64(math.MaxInt64)` is `2^63`) but is not within the `int64` bound, and no exponent in
`1..17` passes the three checks as the claim states them; `ALPEncode` returns the exponent 1, not
0, and the scaled value `int64(2^63)`, which is out of range. On `[1.0, 2.0, 3.0]` and
`[3.14, 2.71]` it returns the exponents 1 and 2 with `[10, 20, 30]` and `[314, 271]`. -/
theorem alp_auto_detection_bound :
    IsFloat64 (.fin false 7205759403792794 7) ∧
    F64.mul (.fin false 7205759403792794 7) (pow10Table 1) = maxInt64 ∧
    F64.withinInt64 maxInt64 = false ∧
    matchesAt 1 (.fin false 7205759403792794 7) = true ∧
    (∀ p < 18, 1 ≤ p → qualifiesAt p (.fin false 7205759403792794 7) = false) ∧
    detectPrecision [.fin false 7205759403792794 7] = 1 ∧
    ALPEncode [.fin false 7205759403792794 7] (-1) = .ok ([-9223372036854775808], 1) ∧
    ALPEncode [F64.one, .fin false 4503599627370496 (-51), .fin false 6755399441055744 (-51)]
      (-1) = .ok ([10, 20, 30], 1) ∧
    ALPEncode [.fin false 7070651414971679 (-51), .fin false 6102377495087022 (-51)] (-1) =
      .ok ([314, 271], 2) := by
  decide

/-! ## The median -/

/-- `findMedian` on a non-empty array, in terms of the sorted array: the middle element for an
odd length, and for an even length the half of the sum of the two middle elements provided the
sum is below `2^64`. -/
theorem findMedian_sorted (a : List Nat) (hne : a ≠ []) :
    (insertionSort a).Perm a ∧ (insertionSort a).Sorted (· ≤ ·) ∧
    (a.length % 2 = 1 → findMedian a = (insertionSort a).getD (a.length / 2) 0) ∧
    (a.length % 2 = 0 →
      (insertionSort a).getD (a.length / 2 - 1) 0 + (insertionSort a).getD (a.length / 2) 0 <
        18446744073709551616 →
      findMedian a =
        ((insertionSort a).getD (a.length / 2 - 1) 0 +
          (insertionSort a).getD (a.length / 2) 0) / 2) := by
  obtain ⟨h1, h2⟩ := insertionSort_spec a
  have hl : (insertionSort a).length = a.length := h1.length_eq
  have h0 : ¬ a.length = 0 := by simpa using hne
  refine ⟨h1, h2, ?_, ?_⟩
  · intro hodd
    unfold findMedian
    rw [if_neg h0]
    dsimp only
    rw [hl, if_neg (by omega)]
  · intro heven hsum
    unfold findMedian
    rw [if_neg h0]
    dsimp only
    rw [hl, if_pos heven, Nat.mod_eq_of_lt hsum]

set_option maxRecDepth 100000 in
/-- C34. The median of `[2^63, 2^63]`, the absolute values of `[INT64_MIN, INT64_MIN]`: the array
is sorted, the sum of the two middle elements is `2^64`, which wraps to 0 in `uint64`, and
`findMedian` returns 0, where the half of the sum over the integers is `2^63`; likewise
`findMedian [2^64 - 1, 2^64 - 1]` is `2^63 - 1`. The examples `[5, 1, 3]` and `[1, 2, 3, 4]`
give 3 and 2. -/
theorem findMedian_sum_wraps :
    [-9223372036854775808, -9223372036854775808].map absValue =
      [9223372036854775808, 9223372036854775808] ∧
    insertionSort [9223372036854775808, 9223372036854775808] =
      [9223372036854775808, 9223372036854775808] ∧
    findMedian [9223372036854775808, 9223372036854775808] = 0 ∧
    (9223372036854775808 + 9223372036854775808) / 2 = 9223372036854775808 ∧
    findMedian [18446744073709551615, 18446744073709551615] = 9223372036854775807 ∧
    findMedian [5, 1, 3] = 3 ∧
    findMedian [1, 2, 3, 4] = 2 := by
  decide

/-! ## The nearest power of two -/

/-- `roundToPowerOf2` below `3 * 2^61`, where the nearest power of two is an `int`: with
`2^h ≤ x < 2^(h+1)` the result is `2^h` when `x - 2^h < 2^(h+1) - x` and `2^(h+1)` otherwise. -/
theorem roundToPowerOf2_small (x : Nat) (h2 : 2 ≤ x) (hx : x < 6917529027641081856) :
    ∃ h : Nat, 2 ^ h ≤ x ∧ x < 2 ^ (h + 1) ∧
      roundToPowerOf2 x =
        if x - 2 ^ h < 2 ^ (h + 1) - x then ((2 ^ h : Nat) : Int) else ((2 ^ (h + 1) : Nat) : Int) := by
  obtain ⟨l1, l2, l3⟩ := lenAux_spec 64 x (by omega) (by omega)
  have hL : Len64 x = (Len64 x - 1) + 1 := by unfold Len64; omega
  have hpow : 2 ^ Len64 x = 2 ^ (Len64 x - 1) * 2 := by
    conv_lhs => rw [hL]
    exact pow_succ _ _
  have l2b : 2 ^ Len64 x ≤ 2 * x := l2
  have l3b : x < 2 ^ Len64 x := l3
  refine ⟨Len64 x - 1, by omega, by rw [← hL]; exact l3b, ?_⟩
  unfold roundToPowerOf2
  rw [if_neg (by omega)]
  dsimp only
  rw [Nat.one_shiftLeft, Nat.one_shiftLeft, ← hL]
  rw [hpow] at l2b l3b ⊢
  generalize 2 ^ (Len64 x - 1) = A at l2b l3b ⊢
  rw [Nat.mod_eq_of_lt (show A < 18446744073709551616 by omega),
    Nat.mod_eq_of_lt (show A * 2 < 18446744073709551616 by omega),
    show (x + 18446744073709551616 - A) % 18446744073709551616 = x - A by omega,
    show (A * 2 + 18446744073709551616 - x) % 18446744073709551616 = A * 2 - x by omega]
  by_cases hc : x - A < A * 2 - x
  · rw [if_pos hc, if_pos hc, toInt64_of_lt (by omega)]
  · rw [if_neg hc, if_neg hc, toInt64_of_lt (by omega)]

set_option maxRecDepth 100000 in
/-- C35. `roundToPowerOf2` from `3 * 2^61` on: for `x = 2^63 - 1` (`h = 62`, nearest power
`2^63`) the result `int(uint64(1) << 63)` is `-2^63`, not a positive power of two; for
`x = 2^63` and `x = 3 * 2^62` (`h = 63`) the results are `-2^63` and `0`. Below `3 * 2^61` the
results are the nearest powers, as in the table `1, 2, 4, 4, 4, 8, 8, 16, 16, 128` for
`1, 2, 3, 4, 5, 6, 7, 15, 17, 100`. -/
theorem roundToPowerOf2_overflow :
    roundToPowerOf2 9223372036854775807 = -9223372036854775808 ∧
    roundToPowerOf2 6917529027641081856 = -9223372036854775808 ∧
    roundToPowerOf2 6917529027641081855 = 4611686018427387904 ∧
    roundToPowerOf2 9223372036854775808 = -9223372036854775808 ∧
    roundToPowerOf2 13835058055282163712 = 0 ∧
    [1, 2, 3, 4, 5, 6, 7, 15, 17, 100].map roundToPowerOf2 =
      [1, 2, 4, 4, 4, 8, 8, 16, 16, 128] ∧
    roundToPowerOf2 0 = 1 := by
  decide

/-! ## Golomb-Rice: the size of a decoded stream -/

/-- A successful `decodeLoop` has appended as many values as it has iterations, and every value
has taken at least one bit and the remainder bits from the data. -/
theorem decodeLoop_size (data : List Nat) (m : Int) : ∀ (n : Nat) (rd : BitReader)
    (acc res : List Nat), rd.bitIdx < 8 → decodeLoop data m n rd acc = .ok res →
    res.length = acc.length + n ∧ n * (1 + bitsNeeded m) ≤ 8 * data.length - rd.pos
  | 0, _, _, _, _, h => by
    simp only [decodeLoop, Except.ok.injEq] at h
    rw [h]
    omega
  | n + 1, rd, acc, res, hrd, h => by
    unfold decodeLoop at h
    cases hq : readQuotient data (8 * data.length + 1) rd 0 with
    | error e => rw [hq] at h; cases h
    | ok pq =>
      obtain ⟨q, rd1⟩ := pq
      rw [hq] at h
      dsimp only at h
      cases hr : readRemainder data (bitsNeeded m) rd1 0 with
      | error e => rw [hr] at h; cases h
      | ok pr =>
        obtain ⟨r, rd2⟩ := pr
        rw [hr] at h
        dsimp only at h
        obtain ⟨k, a1, a2⟩ := readQuotient_inv _ hrd hq
        obtain ⟨bs, b1, b2, b3⟩ := readRemainder_inv _ a2 hr
        obtain ⟨ih1, ih2⟩ := decodeLoop_size data m n rd2 _ res b3 h
        have e1 := congrArg List.length a1
        have e2 := congrArg List.length b2
        simp only [List.length_drop, bitsOf_length, List.length_append, List.length_replicate,
          List.length_cons] at e1 e2
        rw [List.length_append, List.length_singleton] at ih1
        refine ⟨by omega, ?_⟩
        have hmul : (n + 1) * (1 + bitsNeeded m) = n * (1 + bitsNeeded m) + (1 + bitsNeeded m) := by
          ring
        rw [hmul]
        omega

/-- A successful `GolombRiceDecode` returns `valueCount` values, and the data holds at least one
bit and the remainder bits for each of them. -/
theorem golombRiceDecode_size {data : List Nat} {bc vc m : Int} {res : List Nat}
    (h : GolombRiceDecode data bc vc m = .ok res) :
    0 < vc ∧ 0 < m ∧ (res.length : Int) = vc ∧
      vc.toNat * (1 + bitsNeeded m) ≤ 8 * data.length := by
  unfold GolombRiceDecode at h
  by_cases h0 : data.length = 0
  · rw [if_pos h0] at h; cases h
  · rw [if_neg h0] at h
    by_cases hm : m ≤ 0
    · rw [if_pos hm] at h; cases h
    · rw [if_neg hm] at h
      by_cases hv : vc ≤ 0
      · rw [if_pos hv] at h; cases h
      · rw [if_neg hv] at h
        by_cases hc : 8 * vc > maxAlloc
        · rw [if_pos hc] at h; cases h
        · rw [if_neg hc] at h
          obtain ⟨h1, h2⟩ := decodeLoop_size data m _ _ _ _ (by decide) h
          simp only [List.length_nil, Nat.zero_add, BitReader.pos, Nat.mul_zero, Nat.add_zero,
            Nat.sub_zero] at h1 h2
          exact ⟨by omega, by omega, by omega, h2⟩

/-- The size of a buffer that `DecodeInt` accepts: with the value count `n ≥ 3` and the Rice
parameter `m` of the header, the result has `n` elements and the payload holds at least
`(n - 2) * (1 + bitsNeeded m)` bits, where `bitsNeeded m` is `ceil(log2(m))` when the parameter
is a byte. -/
theorem decodeInt_size (buf : List Nat) (res : List Int)
    (h : (NewDecoder buf).DecodeInt = .ok res) (hn : 3 ≤ getUint32 buf 20) :
    res.length = getUint32 buf 20 ∧
    (getUint32 buf 20 - 2) * (1 + bitsNeeded (buf.getD 1 0 : Int)) ≤ 8 * (buf.length - 24) ∧
    (buf.getD 1 0 < 256 → bitsNeeded (buf.getD 1 0 : Int) = ceilLog2 (buf.getD 1 0)) := by
  unfold Decoder.DecodeInt NewDecoder at h
  dsimp only at h
  cases hd : decodeScaled ModeInt buf with
  | error e => rw [hd] at h; cases h
  | ok pr =>
    obtain ⟨hdr, scaled⟩ := pr
    rw [hd] at h
    simp only [Except.ok.injEq] at h
    subst h
    obtain ⟨hlen, hu, hv, hm⟩ := decodeScaled_ok_inv _ _ _ _ hd
    have hu2 := hu
    unfold Unmarshal at hu2
    rw [if_neg (by unfold HeaderSize; omega)] at hu2
    simp only [Except.ok.injEq] at hu2
    subst hu2
    unfold decodeScaled at hd
    rw [if_neg (by unfold HeaderSize; omega), hu] at hd
    dsimp only at hd
    rw [hv] at hd
    dsimp only at hd
    rw [if_neg (not_not.mpr hm), if_pos (by omega)] at hd
    cases hg : GolombRiceDecode (buf.drop HeaderSize) 0 ((getUint32 buf 20 : Int) - 2)
        (buf.getD 1 0 : Int) with
    | error e => rw [hg] at hd; cases hd
    | ok zz =>
      rw [hg] at hd
      dsimp only at hd
      obtain ⟨g1, g2, g3, g4⟩ := golombRiceDecode_size hg
      have hzl : zz.length = getUint32 buf 20 - 2 := by omega
      have hzpos : zz.length > 0 := by omega
      rw [if_pos hzpos] at hd
      unfold ZigZagDecode at hd
      rw [if_neg (by omega)] at hd
      simp only [DeltaDecode, Except.ok.injEq, Prod.mk.injEq] at hd
      obtain ⟨-, hs⟩ := hd
      have htn : ((getUint32 buf 20 : Int) - 2).toNat = getUint32 buf 20 - 2 := by omega
      rw [htn, List.length_drop] at g4
      refine ⟨?_, ?_, ?_⟩
      · rw [← hs]
        simp only [List.length_cons, undeltaLoop_length, List.length_map]
        omega
      · unfold HeaderSize at g4
        exact g4
      · intro hb
        exact bitsNeeded_byte _ hb (by omega)

set_option maxRecDepth 100000 in
/-- C38. The size bound at `m = 2^53 + 1`: `GolombRiceDecode` reads four values from 27 bytes
(216 bits), each from a one bit and 53 remainder bits, because the remainder width is computed
through `float64(m) = 2^53`; with `ceil(log2(m)) = 54` the bound of the claim would need
`4 * (1 + 54) = 220` bits. The result has `valueCount` values and does not depend on the
`bitCount` argument. -/
theorem decoded_size_bound_fails :
    GolombRiceDecode (List.replicate 27 255) 0 4 9007199254740993 =
      .ok [9007199254740991, 9007199254740991, 9007199254740991, 9007199254740991] ∧
    GolombRiceDecode (List.replicate 27 255) 216 4 9007199254740993 =
      GolombRiceDecode (List.replicate 27 255) 0 4 9007199254740993 ∧
    ceilLog2 9007199254740993 = 54 ∧
    bitsNeeded 9007199254740993 = 53 ∧
    ¬ (4 * (1 + ceilLog2 9007199254740993) ≤ 8 * (List.replicate 27 255).length) := by
  decide

end Alpine
